import Mathlib

/-!
# Verification of `steiner.js` (approximate Steiner tree search)

This file gives a shallow embedding of the program in `src/steiner.js` and
proves properties of it.  Caller-supplied nodes are opaque identities in the
source (compared with `===`); we model them as natural numbers compared by
equality.  Edges are records with `from`/`to`/`weight` fields; since `from` is
a Lean keyword the fields are named `src`/`dst` here.  The mutable annotated
graph of the source (one `xnode` per node, one `xedge` per edge, linked by
object references) is modelled as an arena: `xnodes : List XNode` and
`xedges : List XEdge`, with object references replaced by list indices.
The `fifo` package used by the source provides a queue with `push` (append at
the back) and `shift` (remove the front), modelled by a `List` used at the
front and appended at the back.  The main `while` loops are modelled with an
explicit fuel parameter; running out of fuel yields an error value, and the
runtime `TypeError`s the source can raise (missing edge endpoint, absent
witness) are modelled with `Except String`.  The external collaborator
`connect.js` (not part of the sources) is a parameter of `steiner`; its
contract is modelled from the spec further below.

A ghost event log (`LEvent`) is threaded through the search.  It is
write-only instrumentation: no step of the search reads it, so it does not
affect the computation; it records which queue pops and frontier arrivals
happen, for stating order-of-events properties.
-/

set_option maxHeartbeats 1000000

namespace Steiner

/-- An input edge record: `from`/`to`/`weight` in the source. -/
structure Edge where
  src : Nat
  dst : Nat
  weight : Nat
deriving DecidableEq, Repr, Inhabited

/-- A partial path in a required node's FIFO: the reached point (xnode index),
the path of xedge indices leading there, and the remaining end-weight. -/
structure PPath where
  point : Nat
  path : List Nat
  endweight : Nat
deriving DecidableEq, Repr, Inhabited

/-- The witness recorded on a reached node: the owning source (xnode index)
and the path its expansion used to reach this node. -/
structure Witness where
  node : Nat
  path : List Nat
deriving DecidableEq, Repr, Inhabited

/-- Annotated node (the source's `xnode` object).  `node` is the original
node identity; `outgoing`/`incoming` hold xedge indices; `fifo` is the
per-required-node queue of partial paths. -/
structure XNode where
  node : Nat
  reqd : Bool
  outgoing : List Nat
  incoming : List Nat
  in_permanent_web : Bool
  in_temporary_web : Bool
  in_solution : Bool
  in_first_component : Bool
  witness : Option Witness
  fifo : List PPath
deriving DecidableEq, Repr, Inhabited

/-- Annotated edge (the source's `xedge` object).  `edge` is the original
edge record; `src`/`dst` are xnode indices (the source's `from`/`to`
object references). -/
structure XEdge where
  edge : Edge
  src : Nat
  dst : Nat
  weight : Nat
  in_solution : Bool
  in_first_component : Bool
deriving DecidableEq, Repr, Inhabited

/-- Ghost log events: `pop` is a `fifo.shift()` by source `src` (recording
whether the source was in the permanent web, which the guard makes false);
`arrive` is the processing of a fully-arrived partial path of source `src`
at `point` (recording the point's permanent-web flag and the owner of the
point's previous witness, both read just before the point is re-marked). -/
inductive LEvent where
  | pop (src : Nat) (srcPerm : Bool)
  | arrive (src : Nat) (point : Nat) (pointPerm : Bool) (oldWitness : Option Nat)
deriving DecidableEq, Repr, Inhabited

/-- The whole mutable state of one `steiner` call. -/
structure SState where
  xnodes : List XNode
  xedges : List XEdge
  reqds : Nat
  solved_reqds : Nat
  soln : List Nat
  log : List LEvent
deriving DecidableEq, Repr, Inhabited

/-- The source's `is_reqd`: linear scan of `required` with `===`. -/
def is_reqd (required : List Nat) (n : Nat) : Bool :=
  required.contains n

/-- One annotated node as built by the `nodes.forEach` loop. -/
def mkXNode (required : List Nat) (n : Nat) : XNode :=
  { node := n, reqd := is_reqd required n, outgoing := [], incoming := [],
    in_permanent_web := false, in_temporary_web := false,
    in_solution := false, in_first_component := false,
    witness := none, fifo := [] }

/-- The `nodes.forEach` loop: one annotated node per input node. -/
def buildNodes (nodes required : List Nat) : List XNode :=
  nodes.map (mkXNode required)

/-- The source's `get_xnode`: first xnode wrapping the given node identity,
or `undefined` (here `none`) when absent. -/
def get_xnode (xnodes : List XNode) (n : Nat) : Option Nat :=
  xnodes.findIdx? (fun x => x.node == n)

/-- Append an xedge index to a node's `outgoing` list. -/
def pushOutgoing (xnodes : List XNode) (i eidx : Nat) : List XNode :=
  xnodes.set i { xnodes.getD i default with
                 outgoing := (xnodes.getD i default).outgoing ++ [eidx] }

/-- Append an xedge index to a node's `incoming` list. -/
def pushIncoming (xnodes : List XNode) (i eidx : Nat) : List XNode :=
  xnodes.set i { xnodes.getD i default with
                 incoming := (xnodes.getD i default).incoming ++ [eidx] }

/-- One iteration of the `edges.forEach` loop.  When an endpoint is absent
from the node list the source dereferences `undefined` and throws a
`TypeError`; that is the error case here. -/
def addEdge (xnodes : List XNode) (xedges : List XEdge) (e : Edge) :
    Except String (List XNode × List XEdge) :=
  match get_xnode xnodes e.src, get_xnode xnodes e.dst with
  | some fi, some ti =>
      let eidx := xedges.length
      let xe : XEdge := { edge := e, src := fi, dst := ti, weight := e.weight,
                          in_solution := false, in_first_component := false }
      .ok (pushIncoming (pushOutgoing xnodes fi eidx) ti eidx, xedges ++ [xe])
  | _, _ => .error "TypeError: cannot read property of undefined xnode"

/-- The `edges.forEach` loop, aborting at the first missing endpoint. -/
def buildEdges (xnodes : List XNode) (xedges : List XEdge) :
    List Edge → Except String (List XNode × List XEdge)
  | [] => .ok (xnodes, xedges)
  | e :: rest =>
      match addEdge xnodes xedges e with
      | .error m => .error m
      | .ok (xns2, xes2) => buildEdges xns2 xes2 rest

/-- The seed partial path `{point: n, path: [], endweight: 0}`. -/
def seedPPath (n : Nat) : PPath :=
  { point := n, path := [], endweight := 0 }

/-- Seed each required node's FIFO with its zero-length partial path. -/
def seedFifos (xnodes : List XNode) : List XNode :=
  xnodes.enum.map (fun p =>
    if p.2.reqd then { p.2 with fifo := [seedPPath p.1] } else p.2)

/-- Build the initial search state from the raw input (annotated copies,
required count, seeded queues, empty solution). -/
def initState (nodes : List Nat) (edges : List Edge) (required : List Nat) :
    Except String SState :=
  let xns0 := buildNodes nodes required
  match buildEdges xns0 [] edges with
  | .error m => .error m
  | .ok (xns, xes) =>
      .ok { xnodes := seedFifos xns, xedges := xes,
            reqds := xns0.countP (fun x => x.reqd),
            solved_reqds := 0, soln := [], log := [] }

/-- Read an xnode by index (in the source this is just an object reference). -/
def getX (s : SState) (i : Nat) : XNode :=
  s.xnodes.getD i default

/-- Write an xnode by index. -/
def setX (s : SState) (i : Nat) (x : XNode) : SState :=
  { s with xnodes := s.xnodes.set i x }

/-- `x.in_permanent_web = true` for the node at index `i`. -/
def setPerm (s : SState) (i : Nat) : SState :=
  setX s i { getX s i with in_permanent_web := true }

/-- `path.forEach(function(step) { step.from.in_permanent_web = true })`. -/
def markPathPerm (s : SState) (path : List Nat) : SState :=
  path.foldl (fun t ei => setPerm t (t.xedges.getD ei default).src) s

/-- Append a partial path at the back of the queue of node `i`
(`n.fifo.push(...)`). -/
def pushFifo (s : SState) (i : Nat) (q : PPath) : SState :=
  setX s i { getX s i with fifo := (getX s i).fifo ++ [q] }

/-- Append a ghost log event (instrumentation only, never read back). -/
def logEv (s : SState) (e : LEvent) : SState :=
  { s with log := s.log ++ [e] }

/-- The terminal-merge branch (source lines 183-200): the frontier reached a
fellow required node or the permanent web.  Appends the path plus closing
edge to the solution, marks the path sources and the destination permanent,
and updates the solved-required counter exactly as the source does: the `+2`
arm is guarded by a test of the flag that was just unconditionally set. -/
def terminalMerge (s : SState) (path : List Nat) (oidx : Nat) (toIdx : Nat) :
    SState :=
  let s1 := { s with soln := s.soln ++ path ++ [oidx] }
  let s2 := markPathPerm s1 path
  let s3 := setPerm s2 toIdx
  if (getX s3 toIdx).in_permanent_web = false then
    { s3 with solved_reqds := s3.solved_reqds + 2 }
  else
    { s3 with solved_reqds := s3.solved_reqds + 1 }

/-- The temporary-web merge branch (source lines 202-219): the frontier ran
into another source's temporary path; both paths plus the closing edge join
the solution and the destination becomes permanent. -/
def tempMerge (s : SState) (path : List Nat) (oidx : Nat) (toIdx : Nat)
    (wpath : List Nat) : SState :=
  let new_edges := path ++ wpath ++ [oidx]
  let s1 := { s with soln := s.soln ++ new_edges }
  let s2 := markPathPerm s1 new_edges
  let s3 := setPerm s2 toIdx
  { s3 with solved_reqds := s3.solved_reqds + 2 }

/-- The `for (j...)` loop over `p.outgoing` (source lines 172-223), acting on
source node `nIdx` with arrived path `path`.  Returns the updated state and
whether a merge broke the loop (`j < p.outgoing.length` in the source).
A temporary-web hit with an absent witness would throw in the source; that
is the error case. -/
def edgeLoop (nIdx : Nat) (path : List Nat) :
    SState → List Nat → Except String (SState × Bool)
  | s, [] => .ok (s, false)
  | s, oidx :: rest =>
      let oe := s.xedges.getD oidx default
      let toIdx := oe.dst
      let toN := getX s toIdx
      if (toN.reqd && toIdx != nIdx) || toN.in_permanent_web then
        .ok (terminalMerge s path oidx toIdx, true)
      else if toN.in_temporary_web then
        match toN.witness with
        | none => .error "TypeError: cannot read node of null witness"
        | some w =>
            if w.node == nIdx then
              edgeLoop nIdx path s rest
            else
              .ok (tempMerge s path oidx toIdx w.path, true)
      else
        let new_ppath : PPath :=
          { point := toIdx, path := path ++ [oidx], endweight := oe.weight }
        edgeLoop nIdx path (pushFifo s nIdx new_ppath) rest

/-- One step of the `for (i...)` round for node index `i` (source lines
145-225).  Returns `(state, popped, merged)`: `popped` is whether this node
set `fNonemptyFifo` and shifted its queue, `merged` whether the edge loop
broke with a merge. -/
def stepNode (s : SState) (i : Nat) : Except String (SState × Bool × Bool) :=
  let n := getX s i
  if n.reqd = false then .ok (s, false, false)
  else if n.fifo.isEmpty || n.in_permanent_web then .ok (s, false, false)
  else
    match n.fifo with
    | [] => .ok (s, false, false)
    | ppath :: rest =>
        let s1 := logEv (setX s i { n with fifo := rest }) (.pop i n.in_permanent_web)
        if 1 < ppath.endweight then
          .ok (pushFifo s1 i { ppath with endweight := ppath.endweight - 1 },
               true, false)
        else
          let p := ppath.point
          let s2 := logEv s1
            (.arrive i p (getX s1 p).in_permanent_web
              ((getX s1 p).witness.map (fun w => w.node)))
          let s3 := setX s2 p { getX s2 p with in_temporary_web := true }
          let s4 := setX s3 p { getX s3 p with
                                witness := some { node := i, path := ppath.path } }
          match edgeLoop i ppath.path s4 (getX s4 p).outgoing with
          | .error m => .error m
          | .ok (s5, merged) => .ok (s5, true, merged)

/-- The `for (i=0; i<xnodes.length; i++)` round, threading `fNonemptyFifo`
and breaking early after a merge. -/
def roundLoop : SState → List Nat → Bool → Except String (SState × Bool × Bool)
  | s, [], f => .ok (s, f, false)
  | s, i :: rest, f =>
      match stepNode s i with
      | .error m => .error m
      | .ok (s2, popped, merged) =>
          if merged then .ok (s2, f || popped, true)
          else roundLoop s2 rest (f || popped)

/-- The inner `while (true)` loop: repeat rounds until a merge breaks out or
no queue had work (`!fNonemptyFifo || i < xnodes.length`). -/
def innerLoop : Nat → SState → Except String (SState × Bool)
  | 0, _ => .error "fuel exhausted"
  | fuel + 1, s =>
      match roundLoop s (List.range s.xnodes.length) false with
      | .error m => .error m
      | .ok (s2, f, merged) =>
          if f = false || merged = true then .ok (s2, f)
          else innerLoop fuel s2

/-- The outer `while (solved_reqds < reqds)` loop. -/
def outerLoop : Nat → SState → Except String SState
  | 0, _ => .error "fuel exhausted"
  | fuel + 1, s =>
      if s.solved_reqds < s.reqds then
        match innerLoop (fuel + 1) s with
        | .error m => .error m
        | .ok (s2, f) =>
            if f = false then .ok s2 else outerLoop fuel s2
      else .ok s

/-- Build the annotated graph, seed the queues and run the main search
loop; the state after the loop is the input of the repair collaborator. -/
def steinerSearch (fuel : Nat) (nodes : List Nat) (edges : List Edge)
    (required : List Nat) : Except String SState :=
  match initState nodes edges required with
  | .error m => .error m
  | .ok s0 => outerLoop fuel s0

/-- Whether two xedge indices denote edges with identical `from` and `to`
object references (the comparison inside the source's `uniqueify`). -/
def samePairB (xedges : List XEdge) (a b : Nat) : Bool :=
  (xedges.getD a default).src == (xedges.getD b default).src &&
  (xedges.getD a default).dst == (xedges.getD b default).dst

/-- The accumulator recursion of the source's `uniqueify`: an element whose
`(from, to)` pair already occurs in `retval` is skipped, otherwise pushed. -/
def uniqueifyAux (xedges : List XEdge) (retval : List Nat) :
    List Nat → List Nat
  | [] => retval
  | e :: rest =>
      if retval.any (fun r => samePairB xedges r e) then
        uniqueifyAux xedges retval rest
      else
        uniqueifyAux xedges (retval ++ [e]) rest

/-- The source's `uniqueify`: drop later duplicates of the same ordered
`(from, to)` pair, first occurrence kept. -/
def uniqueify (xedges : List XEdge) (es : List Nat) : List Nat :=
  uniqueifyAux xedges [] es

/-- The tail of `steiner` after the main loop: apply the repair collaborator,
deduplicate, and project back to the original edge records. -/
def steinerFinish (connect : List Nat → List XEdge → List XNode → List Nat)
    (s : SState) : List Edge :=
  (uniqueify s.xedges (connect s.soln s.xedges s.xnodes)).map
    (fun i => (s.xedges.getD i default).edge)

/-- The whole `steiner` function, parameterised by the external repair
collaborator `connect` and by loop fuel. -/
def steiner (connect : List Nat → List XEdge → List XNode → List Nat)
    (fuel : Nat) (nodes : List Nat) (edges : List Edge)
    (required : List Nat) : Except String (List Edge) :=
  match steinerSearch fuel nodes edges required with
  | .error m => .error m
  | .ok s => .ok (steinerFinish connect s)

/-! ## Reachability and input conditions -/

/-- The ordered endpoint pairs of a list of original edge records. -/
def epairs (edges : List Edge) : List (Nat × Nat) :=
  edges.map (fun e => (e.src, e.dst))

/-- Undirected adjacency induced by a list of ordered pairs. -/
def adjU (ps : List (Nat × Nat)) (a b : Nat) : Prop :=
  (a, b) ∈ ps ∨ (b, a) ∈ ps

/-- Undirected reachability: reflexive-transitive closure of `adjU`. -/
def UReach (ps : List (Nat × Nat)) : Nat → Nat → Prop :=
  Relation.ReflTransGen (adjU ps)

/-- Every member of `l` is reachable from every other through `ps`. -/
def AllConnected (l : List Nat) (ps : List (Nat × Nat)) : Prop :=
  ∀ a ∈ l, ∀ b ∈ l, UReach ps a b

/-- All edge weights are positive integers. -/
def PosWeights (edges : List Edge) : Prop :=
  ∀ e ∈ edges, 1 ≤ e.weight

/-- The caller supplied the matching reverse edge for every edge. -/
def BothDirections (edges : List Edge) : Prop :=
  ∀ e ∈ edges, ∃ e2 ∈ edges, e2.src = e.dst ∧ e2.dst = e.src ∧ e2.weight = e.weight

/-- The original-identity endpoint pairs of a list of xedge indices. -/
def solnPairs (xedges : List XEdge) (l : List Nat) : List (Nat × Nat) :=
  l.map (fun i => ((xedges.getD i default).edge.src, (xedges.getD i default).edge.dst))

/-- The xnode-index endpoint pairs of a list of xedge indices. -/
def xpairs (xedges : List XEdge) (l : List Nat) : List (Nat × Nat) :=
  l.map (fun i => ((xedges.getD i default).src, (xedges.getD i default).dst))

/-! ## The Connectivity Repair collaborator (modelled from the spec) -/

/-- Modelled from the spec: `connect.js` is not among the sources; the spec
describes a solution as already connected when the required nodes are joined
by the solution edges.  Here: every two required annotated nodes are
connected through the solution's edges, taken as undirected. -/
def SolnConnected (soln : List Nat) (xedges : List XEdge)
    (xnodes : List XNode) : Prop :=
  ∀ i < xnodes.length, ∀ j < xnodes.length,
    (xnodes.getD i default).reqd = true → (xnodes.getD j default).reqd = true →
      UReach (xpairs xedges soln) i j

/-- Modelled from the spec: the stated contract of the Connectivity Repair
collaborator `connect.js`, whose code is not among the sources: it is
idempotent on an already-connected solution, never removes edges already
present, and draws any added edges from the supplied annotated edge list
(its search space). -/
def ConnectContract
    (connect : List Nat → List XEdge → List XNode → List Nat) : Prop :=
  (∀ soln xedges xnodes, SolnConnected soln xedges xnodes →
      connect soln xedges xnodes = soln) ∧
  (∀ soln xedges xnodes, ∀ e ∈ soln, e ∈ connect soln xedges xnodes) ∧
  (∀ soln xedges xnodes, ∀ e ∈ connect soln xedges xnodes,
      e ∈ soln ∨ e < xedges.length)

/-- A repair collaborator that returns the solution unchanged.  It satisfies
`ConnectContract`. -/
def connectId : List Nat → List XEdge → List XNode → List Nat :=
  fun soln _ _ => soln

/-- Claim C1 as stated: under the collaborator contract alone, a connected
input (with both directions supplied and positive weights) always yields an
output edge set connecting all required nodes. -/
def C1Statement : Prop :=
  ∀ connect, ConnectContract connect →
    ∀ nodes edges required fuel out,
      PosWeights edges → BothDirections edges →
      AllConnected nodes (epairs edges) →
      steiner connect fuel nodes edges required = .ok out →
      AllConnected required (epairs out)

/-! ## The per-queue scheduling discipline (for claim C5)

The queue of one required node `n` evolves only through the shift of source
lines 151-160 and the pushes of lines 220-222: the head is shifted; if its
`endweight` exceeds one it is decremented and re-pushed; otherwise it has
fully arrived and extensions of its path (each with `endweight` set to the
weight of the extending edge) are pushed.  `FifoRun` is that discipline as a
reachability relation on the queue contents, with each element paired with a
ghost count of how many times it has been shifted, and with the sequence of
fully-arrived partial paths (paired with their final shift counts) recorded.
-/

/-- Total weight of a path of xedge indices. -/
def pathWeight (xedges : List XEdge) (path : List Nat) : Nat :=
  (path.map (fun i => (xedges.getD i default).weight)).sum

/-- The weight of the last edge of a path (`0` for the empty seed path). -/
def lastPathWeight (xedges : List XEdge) (path : List Nat) : Nat :=
  match path.getLast? with
  | none => 0
  | some eidx => (xedges.getD eidx default).weight

/-- The states reachable by one required node's queue under the discipline
of the main loop.  State: the queue (each partial path paired with its ghost
shift count) and the recorded arrivals (with their final shift counts). -/
inductive FifoRun (xedges : List XEdge) (n : Nat) :
    List (PPath × Nat) → List (PPath × Nat) → Prop
  | init : FifoRun xedges n [(seedPPath n, 0)] []
  | requeue (q : PPath) (c : Nat) (rest arr : List (PPath × Nat)) :
      FifoRun xedges n ((q, c) :: rest) arr →
      1 < q.endweight →
      FifoRun xedges n
        (rest ++ [({ q with endweight := q.endweight - 1 }, c + 1)]) arr
  | arrive (q : PPath) (c : Nat) (rest arr pushes : List (PPath × Nat)) :
      FifoRun xedges n ((q, c) :: rest) arr →
      ¬ 1 < q.endweight →
      (∀ p ∈ pushes, ∃ eidx, eidx < xedges.length ∧
          p.1.path = q.path ++ [eidx] ∧
          p.1.endweight = (xedges.getD eidx default).weight ∧
          p.1.point = (xedges.getD eidx default).dst ∧ p.2 = 0) →
      FifoRun xedges n (rest ++ pushes) (arr ++ [(q, c + 1)])

/-- Positive weights, stated on annotated edges. -/
def PosW (xedges : List XEdge) : Prop :=
  ∀ xe ∈ xedges, 1 ≤ xe.weight

/-! ## Exit condition of the main loop (for claim C6) -/

/-- No required node has both a non-empty queue and a clear permanent-web
flag: the exhaustion condition under which a round leaves `fNonemptyFifo`
false. -/
def noActiveB (s : SState) : Bool :=
  (List.range s.xnodes.length).all (fun i =>
    !(getX s i).reqd || (getX s i).fifo.isEmpty || (getX s i).in_permanent_web)

/-! ## Concrete inputs used by witnesses and counterexamples -/

/-- Counterexample input for C1: a connected path `0 - 1 - 2 - 3` (all four
required, both directions, positive weights) whose cheap pairs `0 - 1` and
`2 - 3` are found first, after which the search exhausts. -/
def c1nodes : List Nat := [0, 1, 2, 3]

/-- Edges of the C1 counterexample input. -/
def c1edges : List Edge :=
  [⟨0, 1, 1⟩, ⟨1, 0, 1⟩, ⟨2, 3, 1⟩, ⟨3, 2, 1⟩, ⟨1, 2, 9⟩, ⟨2, 1, 9⟩]

/-- Counterexample input for C8: sources `0` and `1` both enqueue node `2`
before either processes it, so the second arrival overwrites the first
witness. -/
def c8nodes : List Nat := [0, 1, 2, 3]

/-- Edges of the C8 counterexample input. -/
def c8edges : List Edge := [⟨0, 2, 1⟩, ⟨1, 2, 1⟩, ⟨2, 3, 1⟩]

/-- Counterexample input for C9: node `3` becomes permanent through a
temporary-web merge of sources `1` and `2`, while source `0` still holds a
stale partial path to `3` which is later popped and processed. -/
def c9nodes : List Nat := [0, 1, 2, 3, 4, 5]

/-- Edges of the C9 counterexample input. -/
def c9edges : List Edge :=
  [⟨0, 3, 3⟩, ⟨1, 3, 1⟩, ⟨2, 5, 1⟩, ⟨5, 3, 1⟩, ⟨3, 4, 1⟩]

/-- A one-node state used to instantiate theorems about the merge branches. -/
def c3state : SState :=
  { xnodes := [default], xedges := [], reqds := 0, solved_reqds := 0,
    soln := [], log := [] }

/-- Claim C4 as stated: an edge endpoint absent from the node list, or a
required entry absent from the node list, makes `steiner` fail with an
error. -/
def C4Statement : Prop :=
  ∀ connect fuel nodes edges required,
    ((∃ e ∈ edges, ¬ e.src ∈ nodes ∨ ¬ e.dst ∈ nodes) ∨
     (∃ r ∈ required, ¬ r ∈ nodes)) →
    ∃ m, steiner connect fuel nodes edges required = .error m

/-- Claim C8 as stated, on the ghost log: an arrival that finds an existing
witness (owner `a`) on its point is always by that same owner, i.e. a
witness is never replaced by one owned by a different source. -/
def C8Statement : Prop :=
  ∀ fuel nodes edges required s,
    steinerSearch fuel nodes edges required = .ok s →
    ∀ ev ∈ s.log, ∀ src point pPerm a,
      ev = LEvent.arrive src point pPerm (some a) → src = a

/-- Claim C9 as stated, on the ghost log: no partial path whose arrival
point is already in the permanent web is ever popped and processed as a
frontier head. -/
def C9Statement : Prop :=
  ∀ fuel nodes edges required s,
    steinerSearch fuel nodes edges required = .ok s →
    ∀ ev ∈ s.log, ∀ src point a,
      ev = LEvent.arrive src point true a → False

/-- The final search state of the C8 counterexample run. -/
def c8s : SState :=
  (steinerSearch 200 c8nodes c8edges [0, 1]).toOption.getD default

/-- The final search state of the C9 counterexample run. -/
def c9s : SState :=
  (steinerSearch 200 c9nodes c9edges [0, 1, 2]).toOption.getD default

/-- The output of the C1 counterexample run (with the identity repair
collaborator). -/
def c1out : List Edge :=
  (steiner connectId 200 c1nodes c1edges [0, 1, 2, 3]).toOption.getD []

/-- The final search state of the two-required-nodes, one-edge input of
claim C7, with symbolic weight `W` (the run never branches on `W`). -/
def c7state (W : Nat) : SState :=
  (steinerSearch 4 [0, 1] [⟨0, 1, W⟩] [0, 1]).toOption.getD default

/-- The static part of the state, untouched by the whole search: the
annotated edge list, the node count, the required count, and each node's
identity, required flag and adjacency lists. -/
def SameSkeleton (s t : SState) : Prop :=
  t.xedges = s.xedges ∧ t.xnodes.length = s.xnodes.length ∧
  t.reqds = s.reqds ∧
  ∀ j, (getX t j).node = (getX s j).node ∧ (getX t j).reqd = (getX s j).reqd ∧
       (getX t j).outgoing = (getX s j).outgoing ∧
       (getX t j).incoming = (getX s j).incoming

/-- Temporary-web flags only ever go from false to true. -/
def TempMono (s t : SState) : Prop :=
  ∀ j, (getX s j).in_temporary_web = true → (getX t j).in_temporary_web = true

/-- Well-formedness of the recorded witnesses: a witness always names a
required node (within range) as owner, and a witnessed node is in the
temporary web. -/
def WitnessWF (s : SState) : Prop :=
  ∀ i w, (getX s i).witness = some w →
    w.node < s.xnodes.length ∧ (getX s w.node).reqd = true ∧
    (getX s i).in_temporary_web = true

/-- Well-formedness of the annotated edges with respect to the annotated
nodes: endpoints are in range, each endpoint index wraps exactly the node
identity of the original edge, and is the first index wrapping it (the
`get_xnode` linear scan returns first matches). -/
def edgesWFAux (xns : List XNode) (xes : List XEdge) : Prop :=
  ∀ xe ∈ xes,
    xe.src < xns.length ∧ xe.dst < xns.length ∧
    (xns.getD xe.src default).node = xe.edge.src ∧
    (xns.getD xe.dst default).node = xe.edge.dst ∧
    (∀ k < xe.src, (xns.getD k default).node ≠ xe.edge.src) ∧
    (∀ k < xe.dst, (xns.getD k default).node ≠ xe.edge.dst)

/-- `edgesWFAux` on a search state. -/
def EdgesWF (s : SState) : Prop :=
  edgesWFAux s.xnodes s.xedges

/-- Every annotated edge wraps one of the caller's original edge records. -/
def EdgesFrom (edges : List Edge) (s : SState) : Prop :=
  ∀ xe ∈ s.xedges, xe.edge ∈ edges

/-- All edge indices stored in the dynamic parts of the state (solution,
adjacency lists, queued paths, witness paths) are in range. -/
def IdxWF (s : SState) : Prop :=
  (∀ e ∈ s.soln, e < s.xedges.length) ∧
  ∀ j, (∀ e ∈ (getX s j).outgoing, e < s.xedges.length) ∧
       (∀ q ∈ (getX s j).fifo, ∀ e ∈ q.path, e < s.xedges.length) ∧
       (∀ w, (getX s j).witness = some w →
          ∀ e ∈ w.path, e < s.xedges.length)

/-! ## Invariant machinery for the queue discipline (claim C5) -/

/-- The virtual arrival total of a queued partial path: the total path
weight it would report if it fully arrived right now.  It increases by one
with each decrement-and-repush turn and equals the true total path weight
at the moment of full arrival. -/
def Tkey (xedges : List XEdge) (q : PPath) : Nat :=
  pathWeight xedges q.path - (q.endweight - 1)

/-- The total path weight of the most recent full arrival (`0` if none). -/
def lastTotal (xedges : List XEdge) (arr : List (PPath × Nat)) : Nat :=
  match arr.getLast? with
  | none => 0
  | some qc => pathWeight xedges qc.1.path

/-- The inductive invariant of one queue under the discipline of the main
loop: arrivals have non-decreasing totals and record the weight of their
last edge as their shift count; queued elements have virtual totals that
are sorted front to back, lie within a window of width one, and never fall
below the last arrival's total. -/
def FifoInv (xedges : List XEdge) (l arr : List (PPath × Nat)) : Prop :=
  arr.Pairwise
    (fun a b => pathWeight xedges a.1.path ≤ pathWeight xedges b.1.path) ∧
  (∀ qc ∈ arr, pathWeight xedges qc.1.path ≤ lastTotal xedges arr) ∧
  (∀ qc ∈ arr, qc.1.path ≠ [] → qc.2 = lastPathWeight xedges qc.1.path) ∧
  l.Pairwise (fun a b => Tkey xedges a.1 ≤ Tkey xedges b.1) ∧
  (∀ a ∈ l, ∀ b ∈ l, Tkey xedges a.1 ≤ Tkey xedges b.1 + 1) ∧
  (∀ qc ∈ l, lastTotal xedges arr ≤ Tkey xedges qc.1) ∧
  (∀ qc ∈ l, qc.1.endweight ≤ pathWeight xedges qc.1.path) ∧
  (∀ qc ∈ l, qc.1.path ≠ [] → 1 ≤ qc.1.endweight) ∧
  (∀ qc ∈ l, qc.2 + qc.1.endweight = lastPathWeight xedges qc.1.path)

/-- A one-edge annotated graph (weight `2`) used to exercise the queue
discipline concretely. -/
def cw5edges : List XEdge :=
  [{ edge := ⟨0, 1, 2⟩, src := 0, dst := 1, weight := 2,
     in_solution := false, in_first_component := false }]

/-! ## Invariant machinery for termination of the main loop (claim C6) -/

/-- The node trace of a queued partial path: the source node of each of its
edges, followed by its end point. -/
def traceOf (xedges : List XEdge) (q : PPath) : List Nat :=
  q.path.map (fun e => (xedges.getD e default).src) ++ [q.point]

/-- Well-formedness of every queued partial path: its node trace repeats no
node, its end point and edge indices are in range, and the source node of
each of its edges is already in the temporary web.  (A path's trace stays
duplicate-free because the source only pushes extensions toward nodes that
are not yet in the temporary web, while every node already on the path has
been marked.) -/
def QWF (s : SState) : Prop :=
  ∀ j, ∀ q ∈ (getX s j).fifo,
    (traceOf s.xedges q).Nodup ∧
    q.point < s.xnodes.length ∧
    (∀ e ∈ q.path, e < s.xedges.length) ∧
    (∀ e ∈ q.path,
      (getX s ((s.xedges.getD e default).src)).in_temporary_web = true)

/-- Well-formedness of the `outgoing` adjacency lists: no duplicate edge
indices, and every listed edge is in range with this node as its source. -/
def OutWF (s : SState) : Prop :=
  ∀ j, (getX s j).outgoing.Nodup ∧
    ∀ e ∈ (getX s j).outgoing,
      e < s.xedges.length ∧ (s.xedges.getD e default).src = j

/-- Every node in the temporary web carries a witness (so the temporary-web
branch of the edge loop can always read `to.witness.node`). -/
def TempWitness (s : SState) : Prop :=
  ∀ j, (getX s j).in_temporary_web = true → (getX s j).witness ≠ none

/-- All annotated edge weights are bounded by `W`. -/
def WBound (s : SState) (W : Nat) : Prop :=
  ∀ xe ∈ s.xedges, xe.weight ≤ W

/-- The termination potential of one queued partial path, with `E` edges,
`N` nodes and maximal weight `W`: its remaining end-weight plus a dominant
term that shrinks geometrically as the path gets longer. -/
def entryPhi (E N W : Nat) (q : PPath) : Nat :=
  q.endweight + (E * W + 1) * (E + 1) ^ (N - q.path.length)

/-- The termination potential of one node's queue. -/
def nodePhi (E N W : Nat) (s : SState) (j : Nat) : Nat :=
  ((getX s j).fifo.map (entryPhi E N W)).sum

/-- The termination potential of the whole state: every queue shift of the
main loop strictly decreases it. -/
def statePhi (E N W : Nat) (s : SState) : Nat :=
  ((List.range s.xnodes.length).map (nodePhi E N W s)).sum

/-- The largest annotated edge weight. -/
def maxWeight (xes : List XEdge) : Nat :=
  (xes.map (fun xe => xe.weight)).foldr max 0

/-- Concrete initial state for the C6 witness input. -/
def w6s0 : SState :=
  (initState [0, 1] [⟨0, 1, 5⟩] [0, 1]).toOption.getD default

/-- The state after the queue shift of source line 151 (pop the head,
log the ghost event); mirrors the `s1` of `stepNode`. -/
def popS1 (s : SState) (i : Nat) (rest : List PPath) : SState :=
  logEv (setX s i { getX s i with fifo := rest })
    (.pop i (getX s i).in_permanent_web)

/-- The state after the arrival processing of source lines 161-171 (mark
the point, record the witness); mirrors the `s4` of `stepNode`. -/
def arrivalS4 (s : SState) (i : Nat) (ppath : PPath) (rest : List PPath) :
    SState :=
  let s1 := popS1 s i rest
  let p := ppath.point
  let s2 := logEv s1
    (.arrive i p (getX s1 p).in_permanent_web
      ((getX s1 p).witness.map (fun w => w.node)))
  let s3 := setX s2 p { getX s2 p with in_temporary_web := true }
  setX s3 p { getX s3 p with
              witness := some { node := i, path := ppath.path } }

end Steiner

/-! ## Basic lemmas about the state operations -/

namespace Steiner

theorem getD_set_self {α : Type} (l : List α) (i : Nat) (a d : α)
    (h : i < l.length) : (l.set i a).getD i d = a := by
  simp [List.getD, List.getElem?_set_eq_of_lt, h]

theorem getD_set_ne {α : Type} (l : List α) {i j : Nat} (a d : α)
    (h : i ≠ j) : (l.set i a).getD j d = l.getD j d := by
  simp [List.getD, List.getElem?_set_ne, h]

theorem setX_xedges (s : SState) (i : Nat) (x : XNode) :
    (setX s i x).xedges = s.xedges := rfl

theorem setX_length (s : SState) (i : Nat) (x : XNode) :
    (setX s i x).xnodes.length = s.xnodes.length := by
  simp [setX]

theorem getX_setX_self (s : SState) (i : Nat) (x : XNode)
    (h : i < s.xnodes.length) : getX (setX s i x) i = x := by
  simp [getX, setX, getD_set_self, h]

theorem getX_setX_ne (s : SState) {i j : Nat} (x : XNode)
    (h : i ≠ j) : getX (setX s i x) j = getX s j := by
  simp [getX, setX, getD_set_ne, h]

theorem logEv_getX (s : SState) (e : LEvent) (j : Nat) :
    getX (logEv s e) j = getX s j := rfl

theorem logEv_xedges (s : SState) (e : LEvent) :
    (logEv s e).xedges = s.xedges := rfl

end Steiner

namespace Steiner

/-! ### Frame lemmas for the permanent-web marking helpers -/

theorem setPerm_length (s : SState) (i : Nat) :
    (setPerm s i).xnodes.length = s.xnodes.length := by
  simp [setPerm, setX]

theorem setPerm_xedges (s : SState) (i : Nat) :
    (setPerm s i).xedges = s.xedges := rfl

theorem setPerm_solved (s : SState) (i : Nat) :
    (setPerm s i).solved_reqds = s.solved_reqds := rfl

theorem setPerm_reqds (s : SState) (i : Nat) :
    (setPerm s i).reqds = s.reqds := rfl

theorem setPerm_soln (s : SState) (i : Nat) :
    (setPerm s i).soln = s.soln := rfl

theorem setPerm_log (s : SState) (i : Nat) :
    (setPerm s i).log = s.log := rfl

theorem getX_setPerm_self (s : SState) (i : Nat) (h : i < s.xnodes.length) :
    getX (setPerm s i) i = { getX s i with in_permanent_web := true } := by
  simp [setPerm, getX_setX_self, h]

theorem getX_setPerm_ne (s : SState) {i j : Nat} (h : i ≠ j) :
    getX (setPerm s i) j = getX s j := by
  simp [setPerm, getX_setX_ne, h]

theorem getX_setPerm_perm (s : SState) (i : Nat) (h : i < s.xnodes.length) :
    (getX (setPerm s i) i).in_permanent_web = true := by
  simp [getX_setPerm_self, h]

theorem markPathPerm_length (path : List Nat) : ∀ s : SState,
    (markPathPerm s path).xnodes.length = s.xnodes.length := by
  induction path with
  | nil => intro s; rfl
  | cons e rest ih =>
      intro s
      show (markPathPerm (setPerm s (s.xedges.getD e default).src) rest).xnodes.length = _
      rw [ih, setPerm_length]

theorem markPathPerm_xedges (path : List Nat) : ∀ s : SState,
    (markPathPerm s path).xedges = s.xedges := by
  induction path with
  | nil => intro s; rfl
  | cons e rest ih =>
      intro s
      show (markPathPerm (setPerm s (s.xedges.getD e default).src) rest).xedges = _
      rw [ih, setPerm_xedges]

theorem markPathPerm_solved (path : List Nat) : ∀ s : SState,
    (markPathPerm s path).solved_reqds = s.solved_reqds := by
  induction path with
  | nil => intro s; rfl
  | cons e rest ih =>
      intro s
      show (markPathPerm (setPerm s (s.xedges.getD e default).src) rest).solved_reqds = _
      rw [ih, setPerm_solved]

theorem markPathPerm_reqds (path : List Nat) : ∀ s : SState,
    (markPathPerm s path).reqds = s.reqds := by
  induction path with
  | nil => intro s; rfl
  | cons e rest ih =>
      intro s
      show (markPathPerm (setPerm s (s.xedges.getD e default).src) rest).reqds = _
      rw [ih, setPerm_reqds]

end Steiner

namespace Steiner

/-- C3: in the terminal-merge branch, the `+2` arm is unreachable: the
destination's `in_permanent_web` flag is unconditionally set to `true`
immediately before the test, so the tested condition is never `false`, and
every execution of the branch increments the solved-required counter by
exactly 1. -/
theorem C3_terminal_merge_always_increments_by_one
    (s : SState) (path : List Nat) (oidx toIdx : Nat)
    (h : toIdx < s.xnodes.length) :
    ((getX (setPerm (markPathPerm { s with soln := s.soln ++ path ++ [oidx] }
        path) toIdx) toIdx).in_permanent_web = false → False) ∧
    (terminalMerge s path oidx toIdx).solved_reqds = s.solved_reqds + 1 := by
  have hlen : toIdx <
      (markPathPerm { s with soln := s.soln ++ path ++ [oidx] } path).xnodes.length := by
    rw [markPathPerm_length]; exact h
  have hflag : (getX (setPerm (markPathPerm
      { s with soln := s.soln ++ path ++ [oidx] } path) toIdx) toIdx).in_permanent_web
      = true := getX_setPerm_perm _ _ hlen
  constructor
  · intro hfalse
    rw [hflag] at hfalse
    exact Bool.noConfusion hfalse
  · show (terminalMerge s path oidx toIdx).solved_reqds = _
    simp only [terminalMerge]
    rw [hflag]
    simp [setPerm_solved, markPathPerm_solved]

/-- Witness for C3 at a concrete state. -/
theorem C3_witness :
    (0 : Nat) < c3state.xnodes.length ∧
    (terminalMerge c3state [] 0 0).solved_reqds = c3state.solved_reqds + 1 := by
  refine ⟨by decide, ?_⟩
  exact (C3_terminal_merge_always_increments_by_one c3state [] 0 0 (by decide)).2

end Steiner

namespace Steiner

/-! ### The node-identity map through the build phase -/

theorem buildEdges_cons (xns : List XNode) (xes : List XEdge) (e : Edge)
    (rest : List Edge) :
    buildEdges xns xes (e :: rest) =
      match addEdge xns xes e with
      | .error m => .error m
      | .ok (a, b) => buildEdges a b rest := rfl

theorem buildNodes_map_node (nodes required : List Nat) :
    (buildNodes nodes required).map (fun x => x.node) = nodes := by
  unfold buildNodes
  rw [List.map_map]
  have : ((fun x => XNode.node x) ∘ mkXNode required) = fun n : Nat => n := by
    funext n
    rfl
  rw [this]
  exact List.map_id nodes

theorem set_map_node (l : List XNode) (x : XNode) : ∀ i : Nat,
    x.node = (l.getD i default).node →
    (l.set i x).map (fun y => y.node) = l.map (fun y => y.node) := by
  induction l with
  | nil => intro i _; rfl
  | cons a t ih =>
      intro i hx
      cases i with
      | zero => simp_all [List.getD]
      | succ n =>
          simp only [List.set, List.map]
          rw [ih n hx]

theorem pushOutgoing_map_node (xns : List XNode) (i eidx : Nat) :
    (pushOutgoing xns i eidx).map (fun y => y.node) =
      xns.map (fun y => y.node) := by
  apply set_map_node
  rfl

theorem pushIncoming_map_node (xns : List XNode) (i eidx : Nat) :
    (pushIncoming xns i eidx).map (fun y => y.node) =
      xns.map (fun y => y.node) := by
  apply set_map_node
  rfl

theorem addEdge_ok_map_node {xns : List XNode} {xes : List XEdge} {e : Edge}
    {xns2 : List XNode} {xes2 : List XEdge}
    (h : addEdge xns xes e = .ok (xns2, xes2)) :
    xns2.map (fun y => y.node) = xns.map (fun y => y.node) := by
  unfold addEdge at h
  cases hs : get_xnode xns e.src with
  | none => rw [hs] at h; cases hd : get_xnode xns e.dst <;> rw [hd] at h <;> cases h
  | some fi =>
      rw [hs] at h
      cases hd : get_xnode xns e.dst with
      | none => rw [hd] at h; cases h
      | some ti =>
          rw [hd] at h
          cases h
          rw [pushIncoming_map_node, pushOutgoing_map_node]

theorem get_xnode_none_of_absent {xns : List XNode} {n : Nat}
    (h : ¬ n ∈ xns.map (fun y => y.node)) : get_xnode xns n = none := by
  rw [get_xnode, List.findIdx?_eq_none_iff]
  intro x hx
  simp only [beq_eq_false_iff_ne, ne_eq]
  intro hxn
  exact h (List.mem_map.mpr ⟨x, hx, hxn⟩)

theorem buildEdges_error {es : List Edge} : ∀ {xns : List XNode}
    {xes : List XEdge},
    (∃ e ∈ es, ¬ e.src ∈ xns.map (fun y => y.node) ∨
               ¬ e.dst ∈ xns.map (fun y => y.node)) →
    ∃ m, buildEdges xns xes es = .error m := by
  induction es with
  | nil => intro xns xes h; simp at h
  | cons e rest ih =>
      intro xns xes h
      obtain ⟨e2, he2, hbad⟩ := h
      rcases List.mem_cons.mp he2 with rfl | hrest
      · refine ⟨"TypeError: cannot read property of undefined xnode", ?_⟩
        have ha : addEdge xns xes e2 = .error
            "TypeError: cannot read property of undefined xnode" := by
          rcases hbad with hb | hb
          · unfold addEdge
            rw [get_xnode_none_of_absent hb]
          · unfold addEdge
            rw [get_xnode_none_of_absent hb]
            cases get_xnode xns e2.src <;> rfl
        rw [buildEdges_cons, ha]
      · cases ha : addEdge xns xes e with
        | error m =>
            refine ⟨m, ?_⟩
            rw [buildEdges_cons, ha]
        | ok pr =>
            obtain ⟨xns2, xes2⟩ := pr
            have hmap := addEdge_ok_map_node ha
            obtain ⟨m, hm⟩ := @ih xns2 xes2
              ⟨e2, hrest, by rw [hmap]; exact hbad⟩
            refine ⟨m, ?_⟩
            rw [buildEdges_cons, ha]
            exact hm

end Steiner

namespace Steiner

theorem initState_error {nodes edges required m}
    (h : buildEdges (buildNodes nodes required) [] edges = .error m) :
    initState nodes edges required = .error m := by
  simp only [initState]
  rw [h]

theorem steinerSearch_of_initState_error {fuel nodes edges required m}
    (h : initState nodes edges required = .error m) :
    steinerSearch fuel nodes edges required = .error m := by
  unfold steinerSearch
  rw [h]

theorem steiner_of_search_error {connect fuel nodes edges required m}
    (h : steinerSearch fuel nodes edges required = .error m) :
    steiner connect fuel nodes edges required = .error m := by
  unfold steiner
  rw [h]

/-- C4, amended: `steiner` fails with an error (raised in the annotation
phase, before the search begins, so no partial result reaches the caller)
whenever some edge references a node absent from the node list; a required
entry absent from the node list, by contrast, is not detected. -/
theorem C4_edge_with_absent_endpoint_errors
    (nodes : List Nat) (edges : List Edge) (required : List Nat)
    (h : ∃ e ∈ edges, ¬ e.src ∈ nodes ∨ ¬ e.dst ∈ nodes)
    (connect : List Nat → List XEdge → List XNode → List Nat) (fuel : Nat) :
    ∃ m, steiner connect fuel nodes edges required = .error m := by
  have h2 : ∃ e ∈ edges,
      ¬ e.src ∈ (buildNodes nodes required).map (fun y => y.node) ∨
      ¬ e.dst ∈ (buildNodes nodes required).map (fun y => y.node) := by
    rw [buildNodes_map_node]
    exact h
  obtain ⟨m, hm⟩ := buildEdges_error h2
  exact ⟨m, steiner_of_search_error
    (steinerSearch_of_initState_error (initState_error hm))⟩

/-- Counterexample for C4: a required entry absent from the node list does
not make `steiner` fail; on `nodes = [0]`, `required = [5]` the call
succeeds with an empty output. -/
theorem C4_counterexample : ¬ C4Statement := by
  intro h
  obtain ⟨m, hm⟩ := h connectId 20 [0] [] [5]
    (Or.inr ⟨5, by decide, by decide⟩)
  rw [show steiner connectId 20 [0] [] [5] = .ok [] from rfl] at hm
  exact Except.noConfusion hm

/-- Witness for the amended C4 at a concrete input: the single edge
references node `7`, absent from `nodes = [0]`. -/
theorem C4_witness :
    (∃ e ∈ [Edge.mk 0 7 1], ¬ e.src ∈ [0] ∨ ¬ e.dst ∈ ([0] : List Nat)) ∧
    ∃ m, steiner connectId 20 [0] [Edge.mk 0 7 1] [0] = .error m := by
  refine ⟨⟨Edge.mk 0 7 1, by decide, Or.inr (by decide)⟩, ?_⟩
  exact C4_edge_with_absent_endpoint_errors [0] [Edge.mk 0 7 1] [0]
    ⟨Edge.mk 0 7 1, by decide, Or.inr (by decide)⟩ connectId 20

end Steiner

namespace Steiner

/-! ### Log preservation through the merge helpers -/

theorem markPathPerm_log (path : List Nat) : ∀ s : SState,
    (markPathPerm s path).log = s.log := by
  induction path with
  | nil => intro s; rfl
  | cons e rest ih =>
      intro s
      show (markPathPerm (setPerm s (s.xedges.getD e default).src) rest).log = _
      rw [ih, setPerm_log]

theorem terminalMerge_log (s : SState) (path : List Nat) (oidx toIdx : Nat) :
    (terminalMerge s path oidx toIdx).log = s.log := by
  simp only [terminalMerge]
  split <;> simp [markPathPerm_log, setPerm_log]

theorem tempMerge_log (s : SState) (path : List Nat) (oidx toIdx : Nat)
    (wpath : List Nat) : (tempMerge s path oidx toIdx wpath).log = s.log := by
  simp only [tempMerge]
  simp [markPathPerm_log, setPerm_log]

theorem pushFifo_log (s : SState) (i : Nat) (q : PPath) :
    (pushFifo s i q).log = s.log := rfl

theorem setX_log (s : SState) (i : Nat) (x : XNode) :
    (setX s i x).log = s.log := rfl

theorem logEv_log (s : SState) (e : LEvent) :
    (logEv s e).log = s.log ++ [e] := rfl

theorem edgeLoop_log (nIdx : Nat) (path : List Nat) : ∀ (outs : List Nat)
    (s : SState) (r : SState × Bool),
    edgeLoop nIdx path s outs = .ok r → r.1.log = s.log := by
  intro outs
  induction outs with
  | nil =>
      intro s r h
      cases h
      rfl
  | cons oidx rest ih =>
      intro s r h
      simp only [edgeLoop] at h
      split at h
      · cases h
        exact terminalMerge_log s path oidx _
      · split at h
        · split at h
          · cases h
          · split at h
            · exact ih s r h
            · cases h
              exact tempMerge_log s path oidx _ _
        · have := ih (pushFifo s nIdx _) r h
          rw [this, pushFifo_log]

/-- Every log entry appended by one node step is either a pop with a false
source-permanent flag (enforced by the guard of source line 148) or an
arrival record. -/
theorem stepNode_log_events {s : SState} {i : Nat} {r : SState × Bool × Bool}
    (h : stepNode s i = .ok r) :
    ∀ ev ∈ r.1.log, ev ∈ s.log ∨
      (∃ j, ev = LEvent.pop j false) ∨
      (∃ a b c d, ev = LEvent.arrive a b c d) := by
  simp only [stepNode] at h
  split at h
  · cases h
    intro ev hev
    exact Or.inl hev
  · split at h
    · cases h
      intro ev hev
      exact Or.inl hev
    · rename_i hguard
      have hperm : (getX s i).in_permanent_web = false := by
        cases hpw : (getX s i).in_permanent_web with
        | false => rfl
        | true => exact absurd (by simp [hpw]) hguard
      split at h
      · cases h
        intro ev hev
        exact Or.inl hev
      · rename_i ppath rest hfifo
        split at h
        · cases h
          intro ev hev
          simp only [pushFifo_log, logEv_log, setX_log, List.mem_append,
            List.mem_singleton] at hev
          rcases hev with h1 | h1
          · exact Or.inl h1
          · subst h1
            exact Or.inr (Or.inl ⟨i, by rw [hperm]⟩)
        · split at h
          · cases h
          · rename_i s5 merged hEL
            cases h
            have hlog := edgeLoop_log i ppath.path _ _ _ hEL
            intro ev hev
            rw [hlog] at hev
            simp only [setX_log, logEv_log, List.mem_append,
              List.mem_singleton] at hev
            rcases hev with (h1 | h1) | h1
            · exact Or.inl h1
            · subst h1
              exact Or.inr (Or.inl ⟨i, by rw [hperm]⟩)
            · subst h1
              exact Or.inr (Or.inr ⟨_, _, _, _, rfl⟩)

end Steiner

namespace Steiner

theorem roundLoop_log_events : ∀ (idxs : List Nat) (s : SState) (f : Bool)
    (r : SState × Bool × Bool), roundLoop s idxs f = .ok r →
    ∀ ev ∈ r.1.log, ev ∈ s.log ∨
      (∃ j, ev = LEvent.pop j false) ∨
      (∃ a b c d, ev = LEvent.arrive a b c d) := by
  intro idxs
  induction idxs with
  | nil =>
      intro s f r h ev hev
      cases h
      exact Or.inl hev
  | cons i rest ih =>
      intro s f r h ev hev
      simp only [roundLoop] at h
      cases hstep : stepNode s i with
      | error m => rw [hstep] at h; cases h
      | ok r2 =>
          rw [hstep] at h
          obtain ⟨s2, popped, merged⟩ := r2
          by_cases hm : merged = true
      
          · rw [hm] at h
            simp only [if_pos rfl] at h
            cases h
            exact stepNode_log_events hstep ev hev
          · have hm2 : merged = false := by
              cases merged
              · rfl
              · exact absurd rfl hm
            rw [hm2] at h
            simp only [Bool.false_eq_true, if_false] at h
            rcases ih s2 (f || popped) r h ev hev with h1 | h1
            · exact stepNode_log_events hstep ev h1
            · exact Or.inr h1

theorem innerLoop_log_events : ∀ (fuel : Nat) (s : SState)
    (r : SState × Bool), innerLoop fuel s = .ok r →
    ∀ ev ∈ r.1.log, ev ∈ s.log ∨
      (∃ j, ev = LEvent.pop j false) ∨
      (∃ a b c d, ev = LEvent.arrive a b c d) := by
  intro fuel
  induction fuel with
  | zero => intro s r h; cases h
  | succ fuel ih =>
      intro s r h ev hev
      simp only [innerLoop] at h
      cases hrd : roundLoop s (List.range s.xnodes.length) false with
      | error m => rw [hrd] at h; cases h
      | ok r2 =>
          rw [hrd] at h
          obtain ⟨s2, f, merged⟩ := r2
          dsimp only at h
          split at h
          · cases h
            exact roundLoop_log_events _ s false _ hrd ev hev
          · rcases ih s2 r h ev hev with h1 | h1
            · exact roundLoop_log_events _ s false _ hrd ev h1
            · exact Or.inr h1

theorem outerLoop_log_events : ∀ (fuel : Nat) (s : SState) (r : SState),
    outerLoop fuel s = .ok r →
    ∀ ev ∈ r.log, ev ∈ s.log ∨
      (∃ j, ev = LEvent.pop j false) ∨
      (∃ a b c d, ev = LEvent.arrive a b c d) := by
  intro fuel
  induction fuel with
  | zero => intro s r h; cases h
  | succ fuel ih =>
      intro s r h ev hev
      simp only [outerLoop] at h
      split at h
      · cases hin : innerLoop (fuel + 1) s with
        | error m => rw [hin] at h; cases h
        | ok r2 =>
            rw [hin] at h
            obtain ⟨s2, f⟩ := r2
            dsimp only at h
            split at h
            · cases h
              exact innerLoop_log_events _ s _ hin ev hev
            · rcases ih s2 r h ev hev with h1 | h1
              · exact innerLoop_log_events _ s _ hin ev h1
              · exact Or.inr h1
      · cases h
        exact Or.inl hev

theorem initState_ok_log {nodes edges required s0}
    (h : initState nodes edges required = .ok s0) : s0.log = [] := by
  simp only [initState] at h
  split at h
  · cases h
  · cases h
    rfl

/-- C9, amended: a node in the permanent web never advances its own queue
again: every `pop` recorded in the log carries a false source-permanent
flag, by the guard of source line 148.  (A partial path already enqueued
whose arrival point has since become permanent may still be popped and
processed; see the counterexample.) -/
theorem C9_permanent_source_never_pops
    (fuel : Nat) (nodes : List Nat) (edges : List Edge)
    (required : List Nat) (s : SState)
    (h : steinerSearch fuel nodes edges required = .ok s) :
    ∀ ev ∈ s.log, ∀ j b, ev = LEvent.pop j b → b = false := by
  intro ev hev j b hevb
  unfold steinerSearch at h
  cases hinit : initState nodes edges required with
  | error m => rw [hinit] at h; cases h
  | ok s0 =>
      rw [hinit] at h
      rcases outerLoop_log_events fuel s0 s h ev hev with h1 | h1 | h1
      · rw [initState_ok_log hinit] at h1
        cases h1
      · obtain ⟨j2, rfl⟩ := h1
        cases hevb
        rfl
      · obtain ⟨a, b2, c, d, rfl⟩ := h1
        cases hevb

/-- Witness for the amended C9 on the concrete C9 input. -/
theorem C9_witness :
    steinerSearch 200 c9nodes c9edges [0, 1, 2] = .ok c9s ∧
    ∀ ev ∈ c9s.log, ∀ j b, ev = LEvent.pop j b → b = false := by
  refine ⟨rfl, ?_⟩
  exact C9_permanent_source_never_pops 200 c9nodes c9edges [0, 1, 2] c9s rfl

/-- Counterexample for C9: on the C9 input, source `0` pops and processes a
partial path whose arrival point `3` is already in the permanent web (the
log records the arrival with a true point-permanent flag), re-marking it and
examining its outgoing edges. -/
theorem C9_counterexample : ¬ C9Statement := by
  intro h
  have hev : LEvent.arrive 0 3 true (some 1) ∈ c9s.log := by decide
  exact h 200 c9nodes c9edges [0, 1, 2] c9s rfl _ hev 0 3 (some 1) rfl

/-- Counterexample for C8: on the C8 input, the arrival of source `1` at
node `2` finds a witness owned by source `0` and overwrites it (the log
records the old owner `0` under the arrival of source `1`). -/
theorem C8_counterexample : ¬ C8Statement := by
  intro h
  have hev : LEvent.arrive 1 2 false (some 0) ∈ c8s.log := by decide
  have := h 200 c8nodes c8edges [0, 1] c8s rfl _ hev 1 2 false 0 rfl
  exact absurd this (by decide)

end Steiner

namespace Steiner

/-! ### Skeleton preservation through the search operations -/

theorem getX_out_of_range {s : SState} {i : Nat}
    (h : ¬ i < s.xnodes.length) : getX s i = default := by
  unfold getX
  rw [List.getD_eq_default]
  omega

theorem setX_out_of_range {s : SState} {i : Nat} (x : XNode)
    (h : ¬ i < s.xnodes.length) : (setX s i x).xnodes = s.xnodes := by
  simp only [setX]
  exact List.set_eq_of_length_le (by omega)

theorem sameSkeleton_refl (s : SState) : SameSkeleton s s :=
  ⟨rfl, rfl, rfl, fun _ => ⟨rfl, rfl, rfl, rfl⟩⟩

theorem sameSkeleton_trans {s t u : SState}
    (h1 : SameSkeleton s t) (h2 : SameSkeleton t u) : SameSkeleton s u := by
  obtain ⟨e1, l1, r1, f1⟩ := h1
  obtain ⟨e2, l2, r2, f2⟩ := h2
  refine ⟨e2.trans e1, l2.trans l1, r2.trans r1, fun j => ?_⟩
  obtain ⟨a1, b1, c1, d1⟩ := f1 j
  obtain ⟨a2, b2, c2, d2⟩ := f2 j
  exact ⟨a2.trans a1, b2.trans b1, c2.trans c1, d2.trans d1⟩

/-- A `setX` whose record keeps the skeleton fields of the node it replaces
preserves the skeleton. -/
theorem sameSkeleton_setX {s : SState} {i : Nat} {x : XNode}
    (hn : x.node = (getX s i).node) (hr : x.reqd = (getX s i).reqd)
    (ho : x.outgoing = (getX s i).outgoing)
    (hi : x.incoming = (getX s i).incoming) :
    SameSkeleton s (setX s i x) := by
  refine ⟨rfl, setX_length s i x, rfl, fun j => ?_⟩
  by_cases hj : i = j
  · subst hj
    by_cases hlen : i < s.xnodes.length
    · rw [getX_setX_self s i x hlen]
      exact ⟨hn, hr, ho, hi⟩
    · have : getX (setX s i x) i = getX s i := by
        unfold getX
        rw [setX_out_of_range x hlen]
      rw [this]
      exact ⟨rfl, rfl, rfl, rfl⟩
  · rw [getX_setX_ne s x hj]
    exact ⟨rfl, rfl, rfl, rfl⟩

theorem sameSkeleton_setPerm (s : SState) (i : Nat) :
    SameSkeleton s (setPerm s i) :=
  sameSkeleton_setX rfl rfl rfl rfl

theorem sameSkeleton_pushFifo (s : SState) (i : Nat) (q : PPath) :
    SameSkeleton s (pushFifo s i q) :=
  sameSkeleton_setX rfl rfl rfl rfl

theorem sameSkeleton_logEv (s : SState) (e : LEvent) :
    SameSkeleton s (logEv s e) :=
  sameSkeleton_refl _ 

theorem sameSkeleton_solnExt (s : SState) (l : List Nat) :
    SameSkeleton s { s with soln := l } :=
  ⟨rfl, rfl, rfl, fun _ => ⟨rfl, rfl, rfl, rfl⟩⟩

theorem sameSkeleton_markPathPerm (path : List Nat) : ∀ s : SState,
    SameSkeleton s (markPathPerm s path) := by
  induction path with
  | nil => intro s; exact sameSkeleton_refl s
  | cons e rest ih =>
      intro s
      show SameSkeleton s
        (markPathPerm (setPerm s (s.xedges.getD e default).src) rest)
      exact sameSkeleton_trans (sameSkeleton_setPerm s _) (ih _)

theorem sameSkeleton_terminalMerge (s : SState) (path : List Nat)
    (oidx toIdx : Nat) : SameSkeleton s (terminalMerge s path oidx toIdx) := by
  have h1 : SameSkeleton s { s with soln := s.soln ++ path ++ [oidx] } :=
    sameSkeleton_solnExt s _
  have h2 := sameSkeleton_markPathPerm path
    { s with soln := s.soln ++ path ++ [oidx] }
  have h3 := sameSkeleton_setPerm
    (markPathPerm { s with soln := s.soln ++ path ++ [oidx] } path) toIdx
  have h123 := sameSkeleton_trans (sameSkeleton_trans h1 h2) h3
  simp only [terminalMerge]
  split
  · exact sameSkeleton_trans h123 ⟨rfl, rfl, rfl, fun _ => ⟨rfl, rfl, rfl, rfl⟩⟩
  · exact sameSkeleton_trans h123 ⟨rfl, rfl, rfl, fun _ => ⟨rfl, rfl, rfl, rfl⟩⟩

theorem sameSkeleton_tempMerge (s : SState) (path : List Nat)
    (oidx toIdx : Nat) (wpath : List Nat) :
    SameSkeleton s (tempMerge s path oidx toIdx wpath) := by
  have h1 : SameSkeleton s
      { s with soln := s.soln ++ (path ++ wpath ++ [oidx]) } :=
    sameSkeleton_solnExt s _
  have h2 := sameSkeleton_markPathPerm (path ++ wpath ++ [oidx])
    { s with soln := s.soln ++ (path ++ wpath ++ [oidx]) }
  have h3 := sameSkeleton_setPerm
    (markPathPerm { s with soln := s.soln ++ (path ++ wpath ++ [oidx]) }
      (path ++ wpath ++ [oidx])) toIdx
  have h123 := sameSkeleton_trans (sameSkeleton_trans h1 h2) h3
  simp only [tempMerge]
  exact sameSkeleton_trans h123 ⟨rfl, rfl, rfl, fun _ => ⟨rfl, rfl, rfl, rfl⟩⟩

theorem sameSkeleton_edgeLoop (nIdx : Nat) (path : List Nat) :
    ∀ (outs : List Nat) (s : SState) (r : SState × Bool),
    edgeLoop nIdx path s outs = .ok r → SameSkeleton s r.1 := by
  intro outs
  induction outs with
  | nil =>
      intro s r h
      cases h
      exact sameSkeleton_refl s
  | cons oidx rest ih =>
      intro s r h
      simp only [edgeLoop] at h
      split at h
      · cases h
        exact sameSkeleton_terminalMerge s path oidx _
      · split at h
        · split at h
          · cases h
          · split at h
            · exact ih s r h
            · cases h
              exact sameSkeleton_tempMerge s path oidx _ _
        · exact sameSkeleton_trans (sameSkeleton_pushFifo s nIdx _) (ih _ r h)

theorem sameSkeleton_stepNode {s : SState} {i : Nat} {r : SState × Bool × Bool}
    (h : stepNode s i = .ok r) : SameSkeleton s r.1 := by
  simp only [stepNode] at h
  split at h
  · cases h; exact sameSkeleton_refl s
  · split at h
    · cases h; exact sameSkeleton_refl s
    · split at h
      · cases h; exact sameSkeleton_refl s
      · rename_i ppath rest hfifo
        split at h
        · cases h
          refine sameSkeleton_trans ?_ (sameSkeleton_pushFifo _ i _)
          refine sameSkeleton_trans ?_ (sameSkeleton_logEv _ _)
          exact sameSkeleton_setX rfl rfl rfl rfl
        · split at h
          · cases h
          · rename_i s5 merged hEL
            cases h
            refine sameSkeleton_trans ?_
              (sameSkeleton_edgeLoop i ppath.path _ _ _ hEL)
            refine sameSkeleton_trans ?_ (sameSkeleton_setX rfl rfl rfl rfl)
            refine sameSkeleton_trans ?_ (sameSkeleton_setX rfl rfl rfl rfl)
            refine sameSkeleton_trans ?_ (sameSkeleton_logEv _ _)
            refine sameSkeleton_trans ?_ (sameSkeleton_logEv _ _)
            exact sameSkeleton_setX rfl rfl rfl rfl

theorem sameSkeleton_roundLoop : ∀ (idxs : List Nat) (s : SState) (f : Bool)
    (r : SState × Bool × Bool), roundLoop s idxs f = .ok r →
    SameSkeleton s r.1 := by
  intro idxs
  induction idxs with
  | nil => intro s f r h; cases h; exact sameSkeleton_refl s
  | cons i rest ih =>
      intro s f r h
      simp only [roundLoop] at h
      cases hstep : stepNode s i with
      | error m => rw [hstep] at h; cases h
      | ok r2 =>
          rw [hstep] at h
          obtain ⟨s2, popped, merged⟩ := r2
          dsimp only at h
          split at h
          · cases h
            have hss := sameSkeleton_stepNode hstep
            exact hss
          · exact sameSkeleton_trans (sameSkeleton_stepNode hstep) (ih s2 _ r h)

theorem sameSkeleton_innerLoop : ∀ (fuel : Nat) (s : SState)
    (r : SState × Bool), innerLoop fuel s = .ok r → SameSkeleton s r.1 := by
  intro fuel
  induction fuel with
  | zero => intro s r h; cases h
  | succ fuel ih =>
      intro s r h
      simp only [innerLoop] at h
      cases hrd : roundLoop s (List.range s.xnodes.length) false with
      | error m => rw [hrd] at h; cases h
      | ok r2 =>
          rw [hrd] at h
          obtain ⟨s2, f, merged⟩ := r2
          dsimp only at h
          split at h
          · cases h
            exact sameSkeleton_roundLoop _ s false _ hrd
          · exact sameSkeleton_trans (sameSkeleton_roundLoop _ s false _ hrd) (ih s2 r h)

theorem sameSkeleton_outerLoop : ∀ (fuel : Nat) (s : SState) (r : SState),
    outerLoop fuel s = .ok r → SameSkeleton s r := by
  intro fuel
  induction fuel with
  | zero => intro s r h; cases h
  | succ fuel ih =>
      intro s r h
      simp only [outerLoop] at h
      split at h
      · cases hin : innerLoop (fuel + 1) s with
        | error m => rw [hin] at h; cases h
        | ok r2 =>
            rw [hin] at h
            obtain ⟨s2, f⟩ := r2
            dsimp only at h
            split at h
            · cases h
              exact sameSkeleton_innerLoop _ s _ hin
            · exact sameSkeleton_trans (sameSkeleton_innerLoop _ s _ hin) (ih s2 r h)
      · cases h
        exact sameSkeleton_refl s

end Steiner

namespace Steiner

/-! ### Witness and temporary-web flags through the search operations -/

theorem getX_setX_proj {α : Type} (g : XNode → α) {s : SState} {i : Nat}
    {x : XNode} (hg : g x = g (getX s i)) (j : Nat) :
    g (getX (setX s i x) j) = g (getX s j) := by
  by_cases hj : i = j
  · subst hj
    by_cases hlen : i < s.xnodes.length
    · rw [getX_setX_self s i x hlen, hg]
    · have : getX (setX s i x) i = getX s i := by
        unfold getX
        rw [setX_out_of_range x hlen]
      rw [this]
  · rw [getX_setX_ne s x hj]

theorem setPerm_witness_all (s : SState) (i j : Nat) :
    (getX (setPerm s i) j).witness = (getX s j).witness := by
  refine getX_setX_proj (fun x => x.witness) ?_ j
  rfl

theorem setPerm_temp_all (s : SState) (i j : Nat) :
    (getX (setPerm s i) j).in_temporary_web = (getX s j).in_temporary_web := by
  refine getX_setX_proj (fun x => x.in_temporary_web) ?_ j
  rfl

theorem pushFifo_witness_all (s : SState) (i : Nat) (q : PPath) (j : Nat) :
    (getX (pushFifo s i q) j).witness = (getX s j).witness := by
  refine getX_setX_proj (fun x => x.witness) ?_ j
  rfl

theorem pushFifo_temp_all (s : SState) (i : Nat) (q : PPath) (j : Nat) :
    (getX (pushFifo s i q) j).in_temporary_web = (getX s j).in_temporary_web := by
  refine getX_setX_proj (fun x => x.in_temporary_web) ?_ j
  rfl

theorem markPathPerm_witness_all (path : List Nat) : ∀ (s : SState) (j : Nat),
    (getX (markPathPerm s path) j).witness = (getX s j).witness := by
  induction path with
  | nil => intro s j; rfl
  | cons e rest ih =>
      intro s j
      show (getX (markPathPerm (setPerm s (s.xedges.getD e default).src) rest) j).witness = _
      rw [ih, setPerm_witness_all]

theorem markPathPerm_temp_all (path : List Nat) : ∀ (s : SState) (j : Nat),
    (getX (markPathPerm s path) j).in_temporary_web =
      (getX s j).in_temporary_web := by
  induction path with
  | nil => intro s j; rfl
  | cons e rest ih =>
      intro s j
      show (getX (markPathPerm (setPerm s (s.xedges.getD e default).src) rest) j).in_temporary_web = _
      rw [ih, setPerm_temp_all]

theorem terminalMerge_witness_all (s : SState) (path : List Nat)
    (oidx toIdx j : Nat) :
    (getX (terminalMerge s path oidx toIdx) j).witness = (getX s j).witness := by
  simp only [terminalMerge]
  split
  all_goals
    show (getX { setPerm (markPathPerm { s with soln := s.soln ++ path ++ [oidx] } path) toIdx
      with solved_reqds := _ } j).witness = _
  all_goals
    have h1 : (getX { setPerm (markPathPerm { s with soln := s.soln ++ path ++ [oidx] } path) toIdx
        with solved_reqds := (setPerm (markPathPerm { s with soln := s.soln ++ path ++ [oidx] } path) toIdx).solved_reqds + 2 } j) =
        (getX (setPerm (markPathPerm { s with soln := s.soln ++ path ++ [oidx] } path) toIdx) j) := rfl
  all_goals
    rw [show ∀ t : SState, ∀ v : Nat, getX { t with solved_reqds := v } j = getX t j
          from fun t v => rfl]
    rw [setPerm_witness_all, markPathPerm_witness_all]
    rfl

theorem terminalMerge_temp_all (s : SState) (path : List Nat)
    (oidx toIdx j : Nat) :
    (getX (terminalMerge s path oidx toIdx) j).in_temporary_web =
      (getX s j).in_temporary_web := by
  simp only [terminalMerge]
  split
  all_goals
    rw [show ∀ t : SState, ∀ v : Nat, getX { t with solved_reqds := v } j = getX t j
          from fun t v => rfl]
    rw [setPerm_temp_all, markPathPerm_temp_all]
    rfl

theorem tempMerge_witness_all (s : SState) (path : List Nat)
    (oidx toIdx : Nat) (wpath : List Nat) (j : Nat) :
    (getX (tempMerge s path oidx toIdx wpath) j).witness =
      (getX s j).witness := by
  simp only [tempMerge]
  rw [show ∀ t : SState, ∀ v : Nat, getX { t with solved_reqds := v } j = getX t j
        from fun t v => rfl]
  rw [setPerm_witness_all, markPathPerm_witness_all]
  rfl

theorem tempMerge_temp_all (s : SState) (path : List Nat)
    (oidx toIdx : Nat) (wpath : List Nat) (j : Nat) :
    (getX (tempMerge s path oidx toIdx wpath) j).in_temporary_web =
      (getX s j).in_temporary_web := by
  simp only [tempMerge]
  rw [show ∀ t : SState, ∀ v : Nat, getX { t with solved_reqds := v } j = getX t j
        from fun t v => rfl]
  rw [setPerm_temp_all, markPathPerm_temp_all]
  rfl

theorem edgeLoop_witness_all (nIdx : Nat) (path : List Nat) :
    ∀ (outs : List Nat) (s : SState) (r : SState × Bool),
    edgeLoop nIdx path s outs = .ok r →
    ∀ j, (getX r.1 j).witness = (getX s j).witness := by
  intro outs
  induction outs with
  | nil => intro s r h j; cases h; rfl
  | cons oidx rest ih =>
      intro s r h j
      simp only [edgeLoop] at h
      split at h
      · cases h
        exact terminalMerge_witness_all s path oidx _ j
      · split at h
        · split at h
          · cases h
          · split at h
            · exact ih s r h j
            · cases h
              exact tempMerge_witness_all s path oidx _ _ j
        · rw [ih _ r h j, pushFifo_witness_all]

theorem edgeLoop_temp_all (nIdx : Nat) (path : List Nat) :
    ∀ (outs : List Nat) (s : SState) (r : SState × Bool),
    edgeLoop nIdx path s outs = .ok r →
    ∀ j, (getX r.1 j).in_temporary_web = (getX s j).in_temporary_web := by
  intro outs
  induction outs with
  | nil => intro s r h j; cases h; rfl
  | cons oidx rest ih =>
      intro s r h j
      simp only [edgeLoop] at h
      split at h
      · cases h
        exact terminalMerge_temp_all s path oidx _ j
      · split at h
        · split at h
          · cases h
          · split at h
            · exact ih s r h j
            · cases h
              exact tempMerge_temp_all s path oidx _ _ j
        · rw [ih _ r h j, pushFifo_temp_all]

end Steiner

namespace Steiner

theorem setX_eq_self {s : SState} {i : Nat} (x : XNode)
    (h : ¬ i < s.xnodes.length) : setX s i x = s := by
  show { s with xnodes := s.xnodes.set i x } = s
  rw [List.set_eq_of_length_le (by omega)]

theorem witnessWF_transfer {s t : SState}
    (hL : t.xnodes.length = s.xnodes.length)
    (hR : ∀ j, (getX t j).reqd = (getX s j).reqd)
    (hW : ∀ j, (getX t j).witness = (getX s j).witness)
    (hT : ∀ j, (getX t j).in_temporary_web = (getX s j).in_temporary_web)
    (hwf : WitnessWF s) : WitnessWF t := by
  intro i0 w hw
  rw [hW] at hw
  obtain ⟨h1, h2, h3⟩ := hwf i0 w hw
  refine ⟨?_, ?_, ?_⟩
  · rw [hL]; exact h1
  · rw [hR w.node]; exact h2
  · rw [hT]; exact h3

theorem reqd_true_lt {s : SState} {i : Nat}
    (h : (getX s i).reqd = true) : i < s.xnodes.length := by
  by_contra hlen
  rw [getX_out_of_range hlen] at h
  exact Bool.noConfusion h

/-- The arrival processing of source lines 161-171 (mark the point, record
the witness) preserves witness well-formedness. -/
theorem witnessWF_arrival {s t2 : SState} (p i : Nat) (pa : List Nat)
    (hL : t2.xnodes.length = s.xnodes.length)
    (hW : ∀ j, (getX t2 j).witness = (getX s j).witness)
    (hT : ∀ j, (getX t2 j).in_temporary_web = (getX s j).in_temporary_web)
    (hR : ∀ j, (getX t2 j).reqd = (getX s j).reqd)
    (hreqd : (getX s i).reqd = true)
    (hwf : WitnessWF s) :
    WitnessWF (setX (setX t2 p { getX t2 p with in_temporary_web := true }) p
      { getX (setX t2 p { getX t2 p with in_temporary_web := true }) p with
        witness := some { node := i, path := pa } }) := by
  have e1 : ∀ j, (getX (setX (setX t2 p
      { getX t2 p with in_temporary_web := true }) p
      { getX (setX t2 p { getX t2 p with in_temporary_web := true }) p with
        witness := some { node := i, path := pa } }) j).reqd
      = (getX t2 j).reqd := by
    intro j
    refine Eq.trans (getX_setX_proj (fun x => x.reqd) ?_ j) ?_
    · rfl
    refine getX_setX_proj (fun x => x.reqd) ?_ j
    rfl
  by_cases hp : p < t2.xnodes.length
  · have hp3 : p < (setX t2 p { getX t2 p with in_temporary_web := true }).xnodes.length := by
      rw [setX_length]; exact hp
    intro i0 w hw
    by_cases hip : i0 = p
    · subst hip
      rw [getX_setX_self _ _ _ hp3] at hw
      have hww : w = { node := i, path := pa } := (Option.some.inj hw).symm
      subst hww
      refine ⟨?_, ?_, ?_⟩
      · simp only [setX_length]
        rw [hL]
        exact reqd_true_lt hreqd
      · rw [e1, hR]
        exact hreqd
      · rw [getX_setX_self _ _ _ hp3]
        show (getX (setX t2 i0 { getX t2 i0 with in_temporary_web := true })
          i0).in_temporary_web = true
        rw [getX_setX_self _ _ _ hp]
    · rw [getX_setX_ne _ _ (fun hh => hip hh.symm),
          getX_setX_ne _ _ (fun hh => hip hh.symm)] at hw
      rw [hW] at hw
      obtain ⟨h1, h2, h3⟩ := hwf i0 w hw
      refine ⟨?_, ?_, ?_⟩
      · simp only [setX_length]
        rw [hL]
        exact h1
      · rw [e1, hR]
        exact h2
      · rw [getX_setX_ne _ _ (fun hh => hip hh.symm),
            getX_setX_ne _ _ (fun hh => hip hh.symm), hT]
        exact h3
  · rw [setX_eq_self _ (by rw [setX_length]; exact hp), setX_eq_self _ hp]
    exact witnessWF_transfer hL hR hW hT hwf

theorem stepNode_witnessWF {s : SState} {i : Nat} {r : SState × Bool × Bool}
    (h : stepNode s i = .ok r) (hwf : WitnessWF s) : WitnessWF r.1 := by
  simp only [stepNode] at h
  split at h
  · cases h; exact hwf
  · split at h
    · cases h; exact hwf
    · rename_i hreq hguard
      have hreqd : (getX s i).reqd = true := by
        cases hr : (getX s i).reqd
        · exact absurd hr hreq
        · rfl
      split at h
      · cases h; exact hwf
      · rename_i ppath rest hfifo
        split at h
        · cases h
          refine witnessWF_transfer ?_ ?_ ?_ ?_ hwf
          · exact (setX_length _ _ _).trans (setX_length _ _ _)
          · intro j
            refine Eq.trans (getX_setX_proj (fun x => x.reqd) ?_ j)
              (getX_setX_proj (fun x => x.reqd) ?_ j) <;> rfl
          · intro j
            refine Eq.trans (getX_setX_proj (fun x => x.witness) ?_ j)
              (getX_setX_proj (fun x => x.witness) ?_ j) <;> rfl
          · intro j
            refine Eq.trans (getX_setX_proj (fun x => x.in_temporary_web) ?_ j)
              (getX_setX_proj (fun x => x.in_temporary_web) ?_ j) <;> rfl
        · split at h
          · cases h
          · rename_i s5 merged hEL
            cases h
            have hsk := sameSkeleton_edgeLoop i ppath.path _ _ _ hEL
            refine witnessWF_transfer hsk.2.1 (fun j => (hsk.2.2.2 j).2.1)
              (edgeLoop_witness_all i ppath.path _ _ _ hEL)
              (edgeLoop_temp_all i ppath.path _ _ _ hEL) ?_
            refine witnessWF_arrival ppath.point i ppath.path ?_ ?_ ?_ ?_ hreqd hwf
            · exact setX_length _ _ _
            · intro j
              refine getX_setX_proj (fun x => x.witness) ?_ j
              rfl
            · intro j
              refine getX_setX_proj (fun x => x.in_temporary_web) ?_ j
              rfl
            · intro j
              refine getX_setX_proj (fun x => x.reqd) ?_ j
              rfl

end Steiner


namespace Steiner

theorem getD_mem_of_lt {α : Type} [Inhabited α] (l : List α) {i : Nat}
    (h : i < l.length) : l.getD i default ∈ l := by
  rw [List.getD_eq_getElem l default h]
  exact List.getElem_mem h

theorem roundLoop_witnessWF : ∀ (idxs : List Nat) (s : SState) (f : Bool)
    (r : SState × Bool × Bool), roundLoop s idxs f = .ok r →
    WitnessWF s → WitnessWF r.1 := by
  intro idxs
  induction idxs with
  | nil => intro s f r h hwf; cases h; exact hwf
  | cons i rest ih =>
      intro s f r h hwf
      simp only [roundLoop] at h
      cases hstep : stepNode s i with
      | error m => rw [hstep] at h; cases h
      | ok r2 =>
          rw [hstep] at h
          obtain ⟨s2, popped, merged⟩ := r2
          dsimp only at h
          split at h
          · cases h
            have hh := stepNode_witnessWF hstep hwf
            exact hh
          · exact ih s2 _ r h (stepNode_witnessWF hstep hwf)

theorem innerLoop_witnessWF : ∀ (fuel : Nat) (s : SState)
    (r : SState × Bool), innerLoop fuel s = .ok r →
    WitnessWF s → WitnessWF r.1 := by
  intro fuel
  induction fuel with
  | zero => intro s r h; cases h
  | succ fuel ih =>
      intro s r h hwf
      simp only [innerLoop] at h
      cases hrd : roundLoop s (List.range s.xnodes.length) false with
      | error m => rw [hrd] at h; cases h
      | ok r2 =>
          rw [hrd] at h
          obtain ⟨s2, f, merged⟩ := r2
          dsimp only at h
          split at h
          · cases h
            exact roundLoop_witnessWF _ s false _ hrd hwf
          · exact ih s2 r h (roundLoop_witnessWF _ s false _ hrd hwf)

theorem outerLoop_witnessWF : ∀ (fuel : Nat) (s : SState) (r : SState),
    outerLoop fuel s = .ok r → WitnessWF s → WitnessWF r := by
  intro fuel
  induction fuel with
  | zero => intro s r h; cases h
  | succ fuel ih =>
      intro s r h hwf
      simp only [outerLoop] at h
      split at h
      · cases hin : innerLoop (fuel + 1) s with
        | error m => rw [hin] at h; cases h
        | ok r2 =>
            rw [hin] at h
            obtain ⟨s2, f⟩ := r2
            dsimp only at h
            split at h
            · cases h
              exact innerLoop_witnessWF _ s _ hin hwf
            · exact ih s2 r h (innerLoop_witnessWF _ s _ hin hwf)
      · cases h
        exact hwf

theorem buildEdges_witness_none {es : List Edge} : ∀ {xns : List XNode}
    {xes : List XEdge} {xns2 : List XNode} {xes2 : List XEdge},
    buildEdges xns xes es = .ok (xns2, xes2) →
    (∀ x ∈ xns, x.witness = none) → ∀ x ∈ xns2, x.witness = none := by
  induction es with
  | nil =>
      intro xns xes xns2 xes2 h hall
      cases h
      exact hall
  | cons e rest ih =>
      intro xns xes xns2 xes2 h hall
      rw [buildEdges_cons] at h
      cases ha : addEdge xns xes e with
      | error m => rw [ha] at h; cases h
      | ok pr =>
          rw [ha] at h
          obtain ⟨xnsA, xesA⟩ := pr
          refine ih h ?_
          have hstep : ∀ (l : List XNode) (i eidx : Nat),
              (∀ x ∈ l, x.witness = none) →
              ∀ x ∈ l.set i { l.getD i default with
                outgoing := (l.getD i default).outgoing ++ [eidx] }, x.witness = none := by
            intro l i eidx hl x hx
            rcases List.mem_or_eq_of_mem_set hx with h1 | h1
            · exact hl x h1
            · subst h1
              show (l.getD i default).witness = none
              by_cases hi : i < l.length
              · exact hl _ (getD_mem_of_lt _ hi)
              · rw [List.getD_eq_default _ _ (by omega)]
                rfl
          have hstep2 : ∀ (l : List XNode) (i eidx : Nat),
              (∀ x ∈ l, x.witness = none) →
              ∀ x ∈ l.set i { l.getD i default with
                incoming := (l.getD i default).incoming ++ [eidx] }, x.witness = none := by
            intro l i eidx hl x hx
            rcases List.mem_or_eq_of_mem_set hx with h1 | h1
            · exact hl x h1
            · subst h1
              show (l.getD i default).witness = none
              by_cases hi : i < l.length
              · exact hl _ (getD_mem_of_lt _ hi)
              · rw [List.getD_eq_default _ _ (by omega)]
                rfl
          simp only [addEdge] at ha
          split at ha
          · rename_i fi ti hfi hti
            cases ha
            exact hstep2 _ _ _ (hstep _ _ _ hall)
          · cases ha

theorem initState_witnessWF {nodes edges required s0}
    (h : initState nodes edges required = .ok s0) : WitnessWF s0 := by
  have hnone : ∀ i, (getX s0 i).witness = none := by
    simp only [initState] at h
    cases hb : buildEdges (buildNodes nodes required) [] edges with
    | error m => rw [hb] at h; cases h
    | ok pr =>
        rw [hb] at h
        obtain ⟨xns, xes⟩ := pr
        dsimp only at h
        cases h
        intro i
        show ((seedFifos xns).getD i default).witness = none
        have hseed : ∀ x ∈ seedFifos xns, x.witness = none := by
          intro x hx
          simp only [seedFifos] at hx
          obtain ⟨q, hq, rfl⟩ := List.mem_map.mp hx
          have hq2 : q.2 ∈ xns := by
            obtain ⟨a, b⟩ := q
            exact List.snd_mem_of_mem_enum hq
          have hb2 := buildEdges_witness_none hb
            (by
              intro x hx
              simp only [buildNodes] at hx
              obtain ⟨n, _, rfl⟩ := List.mem_map.mp hx
              rfl) q.2 hq2
          split
          · exact hb2
          · exact hb2
        by_cases hi : i < (seedFifos xns).length
        · exact hseed _ (getD_mem_of_lt _ hi)
        · rw [List.getD_eq_default _ _ (by omega)]
          rfl
  intro i w hw
  rw [hnone i] at hw
  cases hw

/-- C8, amended: the witness on a node records the most recent source whose
expansion arrived there — a later arrival by a different source overwrites
it (see the counterexample) — and every recorded witness is well formed:
its owner is a required node (within range) and the witnessed node is in
the temporary web. -/
theorem C8_witness_owner_required
    (fuel : Nat) (nodes : List Nat) (edges : List Edge)
    (required : List Nat) (s : SState)
    (h : steinerSearch fuel nodes edges required = .ok s) :
    WitnessWF s := by
  unfold steinerSearch at h
  cases hinit : initState nodes edges required with
  | error m => rw [hinit] at h; cases h
  | ok s0 =>
      rw [hinit] at h
      exact outerLoop_witnessWF fuel s0 s h (initState_witnessWF hinit)

/-- Witness for the amended C8 on the concrete C8 input: node 2 ends with a
witness owned by source 1, which is required and in range, and node 2 is in
the temporary web. -/
theorem C8_amended_witness :
    steinerSearch 200 c8nodes c8edges [0, 1] = .ok c8s ∧
    ((getX c8s 2).witness = some { node := 1, path := [1] } ∧
      (getX c8s 1).reqd = true ∧ (getX c8s 2).in_temporary_web = true) := by
  refine ⟨rfl, by decide, ?_, ?_⟩
  · exact ((C8_witness_owner_required 200 c8nodes c8edges [0, 1] c8s rfl) 2
      { node := 1, path := [1] } (by decide)).2.1
  · exact ((C8_witness_owner_required 200 c8nodes c8edges [0, 1] c8s rfl) 2
      { node := 1, path := [1] } (by decide)).2.2

end Steiner

namespace Steiner

/-! ### Build-phase edge well-formedness -/

theorem node_eq_of_map_eq {xns xns2 : List XNode}
    (h : xns2.map (fun y => y.node) = xns.map (fun y => y.node)) :
    xns2.length = xns.length ∧
    ∀ k, (xns2.getD k default).node = (xns.getD k default).node := by
  have hlen : xns2.length = xns.length := by
    have := congrArg List.length h
    simpa using this
  refine ⟨hlen, fun k => ?_⟩
  by_cases hk : k < xns.length
  · have hk2 : k < xns2.length := by omega
    rw [List.getD_eq_getElem _ _ hk2, List.getD_eq_getElem _ _ hk]
    have hk2m : k < (xns2.map (fun y => y.node)).length := by simpa using hk2
    have hkm : k < (xns.map (fun y => y.node)).length := by simpa using hk
    have h1 : (xns2.map (fun y => y.node)).getD k ((default : XNode).node)
        = (xns.map (fun y => y.node)).getD k ((default : XNode).node) := by
      rw [h]
    rw [List.getD_eq_getElem _ _ hk2m, List.getD_eq_getElem _ _ hkm,
      List.getElem_map, List.getElem_map] at h1
    simpa using h1
  · rw [List.getD_eq_default _ _ (by omega), List.getD_eq_default _ _ (by omega)]

theorem get_xnode_spec {xns : List XNode} {n fi : Nat}
    (h : get_xnode xns n = some fi) :
    fi < xns.length ∧ (xns.getD fi default).node = n ∧
    ∀ k < fi, (xns.getD k default).node ≠ n := by
  rw [get_xnode, List.findIdx?_eq_some_iff_getElem] at h
  obtain ⟨hlt, hp, hprev⟩ := h
  refine ⟨hlt, ?_, ?_⟩
  · rw [List.getD_eq_getElem _ _ hlt]
    exact eq_of_beq hp
  · intro k hk hnode
    have hk2 : k < xns.length := by omega
    have := hprev k hk
    rw [List.getD_eq_getElem _ _ hk2] at hnode
    rw [hnode] at this
    simp at this

theorem buildEdges_edgesWF {es : List Edge} : ∀ {xns : List XNode}
    {xes : List XEdge} {xns2 : List XNode} {xes2 : List XEdge},
    buildEdges xns xes es = .ok (xns2, xes2) →
    edgesWFAux xns xes → edgesWFAux xns2 xes2 := by
  induction es with
  | nil =>
      intro xns xes xns2 xes2 h hwf
      cases h
      exact hwf
  | cons e rest ih =>
      intro xns xes xns2 xes2 h hwf
      rw [buildEdges_cons] at h
      cases ha : addEdge xns xes e with
      | error m => rw [ha] at h; cases h
      | ok pr =>
          rw [ha] at h
          obtain ⟨xnsA, xesA⟩ := pr
          have hmap := addEdge_ok_map_node ha
          obtain ⟨hlen, hnode⟩ := node_eq_of_map_eq hmap
          refine ih h ?_
          simp only [addEdge] at ha
          split at ha
          · rename_i fi ti hfi hti
            cases ha
            obtain ⟨hf1, hf2, hf3⟩ := get_xnode_spec hfi
            obtain ⟨ht1, ht2, ht3⟩ := get_xnode_spec hti
            intro xe hxe
            rcases List.mem_append.mp hxe with hold | hnew
            · obtain ⟨g1, g2, g3, g4, g5, g6⟩ := hwf xe hold
              rw [hlen]
              refine ⟨g1, g2, ?_, ?_, ?_, ?_⟩
              · rw [hnode]; exact g3
              · rw [hnode]; exact g4
              · intro k hk; rw [hnode]; exact g5 k hk
              · intro k hk; rw [hnode]; exact g6 k hk
            · rcases List.mem_singleton.mp hnew with rfl
              rw [hlen]
              refine ⟨hf1, ht1, ?_, ?_, ?_, ?_⟩
              · rw [hnode]; exact hf2
              · rw [hnode]; exact ht2
              · intro k hk; rw [hnode]; exact hf3 k hk
              · intro k hk; rw [hnode]; exact ht3 k hk
          · cases ha

theorem buildEdges_edgesFrom {edges : List Edge} {es : List Edge} :
    ∀ {xns : List XNode} {xes : List XEdge} {xns2 : List XNode}
    {xes2 : List XEdge},
    buildEdges xns xes es = .ok (xns2, xes2) →
    (∀ e ∈ es, e ∈ edges) →
    (∀ xe ∈ xes, xe.edge ∈ edges) → ∀ xe ∈ xes2, xe.edge ∈ edges := by
  induction es with
  | nil =>
      intro xns xes xns2 xes2 h _ hall
      cases h
      exact hall
  | cons e rest ih =>
      intro xns xes xns2 xes2 h hmem hall
      rw [buildEdges_cons] at h
      cases ha : addEdge xns xes e with
      | error m => rw [ha] at h; cases h
      | ok pr =>
          rw [ha] at h
          obtain ⟨xnsA, xesA⟩ := pr
          refine ih h (fun x hx => hmem x (List.mem_cons_of_mem e hx)) ?_
          simp only [addEdge] at ha
          split at ha
          · cases ha
            intro xe hxe
            rcases List.mem_append.mp hxe with hold | hnew
            · exact hall xe hold
            · rcases List.mem_singleton.mp hnew with rfl
              exact hmem e (List.mem_cons_self e rest)
          · cases ha

theorem seedFifos_map_node (xns : List XNode) :
    (seedFifos xns).map (fun y => y.node) = xns.map (fun y => y.node) := by
  unfold seedFifos
  rw [List.map_map]
  have h1 : ((fun y => XNode.node y) ∘ fun p : Nat × XNode =>
      if p.2.reqd then { p.2 with fifo := [seedPPath p.1] } else p.2)
      = fun p : Nat × XNode => p.2.node := by
    funext p
    show (if p.2.reqd then { p.2 with fifo := [seedPPath p.1] } else p.2).node = p.2.node
    split <;> rfl
  rw [h1]
  have h2 : (fun p : Nat × XNode => p.2.node)
      = (fun y : XNode => y.node) ∘ Prod.snd := rfl
  rw [h2, ← List.map_map, List.enum_map_snd]

theorem initState_edgesWF {nodes edges required s0}
    (h : initState nodes edges required = .ok s0) : EdgesWF s0 := by
  simp only [initState] at h
  cases hb : buildEdges (buildNodes nodes required) [] edges with
  | error m => rw [hb] at h; cases h
  | ok pr =>
      rw [hb] at h
      obtain ⟨xns, xes⟩ := pr
      dsimp only at h
      cases h
      have hwf : edgesWFAux xns xes :=
        buildEdges_edgesWF hb (by intro xe hxe; cases hxe)
      obtain ⟨hlen, hnode⟩ := node_eq_of_map_eq (seedFifos_map_node xns)
      intro xe hxe
      obtain ⟨g1, g2, g3, g4, g5, g6⟩ := hwf xe hxe
      show xe.src < (seedFifos xns).length ∧ _
      rw [hlen]
      refine ⟨g1, g2, ?_, ?_, ?_, ?_⟩
      · rw [hnode]; exact g3
      · rw [hnode]; exact g4
      · intro k hk; rw [hnode]; exact g5 k hk
      · intro k hk; rw [hnode]; exact g6 k hk

theorem initState_edgesFrom {nodes edges required s0}
    (h : initState nodes edges required = .ok s0) : EdgesFrom edges s0 := by
  simp only [initState] at h
  cases hb : buildEdges (buildNodes nodes required) [] edges with
  | error m => rw [hb] at h; cases h
  | ok pr =>
      rw [hb] at h
      obtain ⟨xns, xes⟩ := pr
      dsimp only at h
      cases h
      exact buildEdges_edgesFrom hb (fun e he => he) (fun xe hxe => by cases hxe)

theorem sameSkeleton_edgesWF {s t : SState} (hsk : SameSkeleton s t)
    (h : EdgesWF s) : EdgesWF t := by
  intro xe hxe
  rw [hsk.1] at hxe
  obtain ⟨g1, g2, g3, g4, g5, g6⟩ := h xe hxe
  rw [hsk.2.1]
  have hn : ∀ k, (t.xnodes.getD k default).node = (s.xnodes.getD k default).node :=
    fun k => (hsk.2.2.2 k).1
  refine ⟨g1, g2, ?_, ?_, ?_, ?_⟩
  · rw [hn]; exact g3
  · rw [hn]; exact g4
  · intro k hk; rw [hn]; exact g5 k hk
  · intro k hk; rw [hn]; exact g6 k hk

theorem sameSkeleton_edgesFrom {edges : List Edge} {s t : SState}
    (hsk : SameSkeleton s t) (h : EdgesFrom edges s) : EdgesFrom edges t := by
  intro xe hxe
  rw [hsk.1] at hxe
  exact h xe hxe

end Steiner

namespace Steiner

/-! ### Index well-formedness through the search -/

theorem idxWF_setX {s : SState} {i : Nat} {x : XNode}
    (hout : ∀ e ∈ x.outgoing, e < s.xedges.length)
    (hfifo : ∀ q ∈ x.fifo, ∀ e ∈ q.path, e < s.xedges.length)
    (hwit : ∀ w, x.witness = some w → ∀ e ∈ w.path, e < s.xedges.length)
    (h : IdxWF s) : IdxWF (setX s i x) := by
  refine ⟨fun e he => h.1 e he, fun j => ?_⟩
  by_cases hij : i = j
  · subst hij
    by_cases hlen : i < s.xnodes.length
    · rw [getX_setX_self s i x hlen]
      exact ⟨hout, hfifo, hwit⟩
    · have heq : getX (setX s i x) i = getX s i := by
        unfold getX
        rw [setX_out_of_range x hlen]
      rw [heq]
      exact h.2 i
  · rw [getX_setX_ne s x hij]
    exact h.2 j

theorem idxWF_setPerm {s : SState} (i : Nat) (h : IdxWF s) :
    IdxWF (setPerm s i) :=
  idxWF_setX (h.2 i).1 (h.2 i).2.1 (h.2 i).2.2 h

theorem idxWF_markPathPerm (path : List Nat) : ∀ s : SState,
    IdxWF s → IdxWF (markPathPerm s path) := by
  induction path with
  | nil => intro s h; exact h
  | cons e rest ih =>
      intro s h
      show IdxWF (markPathPerm (setPerm s (s.xedges.getD e default).src) rest)
      exact ih _ (idxWF_setPerm _ h)

theorem idxWF_solnExt {s : SState} {l : List Nat}
    (hl : ∀ e ∈ l, e < s.xedges.length) (h : IdxWF s) :
    IdxWF { s with soln := s.soln ++ l } := by
  refine ⟨fun e he => ?_, h.2⟩
  rcases List.mem_append.mp he with h1 | h1
  · exact h.1 e h1
  · exact hl e h1

theorem idxWF_terminalMerge {s : SState} {path : List Nat} {oidx toIdx : Nat}
    (hpath : ∀ e ∈ path, e < s.xedges.length) (ho : oidx < s.xedges.length)
    (h : IdxWF s) : IdxWF (terminalMerge s path oidx toIdx) := by
  have h1 : IdxWF { s with soln := s.soln ++ path ++ [oidx] } := by
    rw [List.append_assoc]
    refine idxWF_solnExt ?_ h
    intro e he
    rcases List.mem_append.mp he with h1 | h1
    · exact hpath e h1
    · rcases List.mem_singleton.mp h1 with rfl
      exact ho
  have h2 := idxWF_setPerm toIdx
    (idxWF_markPathPerm path { s with soln := s.soln ++ path ++ [oidx] } h1)
  simp only [terminalMerge]
  split
  · exact h2
  · exact h2

theorem idxWF_tempMerge {s : SState} {path : List Nat} {oidx toIdx : Nat}
    {wpath : List Nat}
    (hpath : ∀ e ∈ path, e < s.xedges.length)
    (hwpath : ∀ e ∈ wpath, e < s.xedges.length)
    (ho : oidx < s.xedges.length)
    (h : IdxWF s) : IdxWF (tempMerge s path oidx toIdx wpath) := by
  have hall : ∀ e ∈ path ++ wpath ++ [oidx], e < s.xedges.length := by
    intro e he
    rcases List.mem_append.mp he with h1 | h1
    · rcases List.mem_append.mp h1 with h2 | h2
      · exact hpath e h2
      · exact hwpath e h2
    · rcases List.mem_singleton.mp h1 with rfl
      exact ho
  simp only [tempMerge]
  exact idxWF_setPerm toIdx
    (idxWF_markPathPerm _ _ (idxWF_solnExt hall h))

theorem idxWF_pushFifo {s : SState} {i : Nat} {q : PPath}
    (hq : ∀ e ∈ q.path, e < s.xedges.length) (h : IdxWF s) :
    IdxWF (pushFifo s i q) := by
  refine idxWF_setX (h.2 i).1 ?_ (h.2 i).2.2 h
  intro q2 hq2
  rcases List.mem_append.mp hq2 with h1 | h1
  · exact (h.2 i).2.1 q2 h1
  · rcases List.mem_singleton.mp h1 with rfl
    exact hq

theorem idxWF_edgeLoop (nIdx : Nat) (path : List Nat) :
    ∀ (outs : List Nat) (s : SState) (r : SState × Bool),
    edgeLoop nIdx path s outs = .ok r → IdxWF s →
    (∀ e ∈ path, e < s.xedges.length) →
    (∀ o ∈ outs, o < s.xedges.length) → IdxWF r.1 := by
  intro outs
  induction outs with
  | nil =>
      intro s r h hwf _ _
      cases h
      exact hwf
  | cons oidx rest ih =>
      intro s r h hwf hpath houts
      simp only [edgeLoop] at h
      split at h
      · cases h
        exact idxWF_terminalMerge hpath
          (houts oidx (List.mem_cons_self _ _)) hwf
      · split at h
        · split at h
          · cases h
          · rename_i w hwit
            split at h
            · exact ih s r h hwf hpath
                (fun o ho => houts o (List.mem_cons_of_mem _ ho))
            · cases h
              refine idxWF_tempMerge hpath ?_
                (houts oidx (List.mem_cons_self _ _)) hwf
              exact (hwf.2 _).2.2 w hwit
        · refine ih _ r h
            (idxWF_pushFifo ?_ hwf) hpath
            (fun o ho => houts o (List.mem_cons_of_mem _ ho))
          intro e he
          rcases List.mem_append.mp he with h1 | h1
          · exact hpath e h1
          · rcases List.mem_singleton.mp h1 with rfl
            exact houts _ (List.mem_cons_self _ _)

theorem idxWF_logEv {t : SState} (e : LEvent) (h : IdxWF t) :
    IdxWF (logEv t e) :=
  h

/-- The arrival processing (mark the point, record the witness) preserves
index well-formedness when the recorded path is in range. -/
theorem idxWF_arrivalPrefix {t2 : SState} (p i : Nat) (pa : List Nat)
    (h : IdxWF t2)
    (hpa : ∀ e ∈ pa, e < t2.xedges.length) :
    IdxWF (setX (setX t2 p { getX t2 p with in_temporary_web := true }) p
      { getX (setX t2 p { getX t2 p with in_temporary_web := true }) p with
        witness := some { node := i, path := pa } }) := by
  have h3 : IdxWF (setX t2 p { getX t2 p with in_temporary_web := true }) := by
    refine idxWF_setX ?_ ?_ ?_ h
    · exact (h.2 p).1
    · exact (h.2 p).2.1
    · exact (h.2 p).2.2
  refine idxWF_setX ?_ ?_ ?_ h3
  · exact (h3.2 p).1
  · exact (h3.2 p).2.1
  · intro w hw
    have hww : w = { node := i, path := pa } := (Option.some.inj hw).symm
    subst hww
    exact hpa

theorem idxWF_stepNode {s : SState} {i : Nat} {r : SState × Bool × Bool}
    (h : stepNode s i = .ok r) (hwf : IdxWF s) : IdxWF r.1 := by
  simp only [stepNode] at h
  split at h
  · cases h; exact hwf
  · split at h
    · cases h; exact hwf
    · split at h
      · cases h; exact hwf
      · rename_i ppath rest hfifo
        have hmem : ppath ∈ (getX s i).fifo := by
          rw [hfifo]
          exact List.mem_cons_self _ _
        have hppath : ∀ e ∈ ppath.path, e < s.xedges.length :=
          (hwf.2 i).2.1 ppath hmem
        have hs0 : IdxWF (setX s i { getX s i with fifo := rest }) := by
          refine idxWF_setX ?_ ?_ ?_ hwf
          · exact (hwf.2 i).1
          · intro q hq
            exact (hwf.2 i).2.1 q
              (by rw [hfifo]; exact List.mem_cons_of_mem _ hq)
          · exact (hwf.2 i).2.2
        split at h
        · cases h
          refine idxWF_pushFifo ?_ (idxWF_logEv _ hs0)
          exact hppath
        · split at h
          · cases h
          · rename_i s5 merged hEL
            cases h
            refine idxWF_edgeLoop i ppath.path _ _ _ hEL
              (idxWF_arrivalPrefix ppath.point i ppath.path
                (idxWF_logEv _ (idxWF_logEv _ hs0)) hppath) hppath ?_
            exact ((idxWF_arrivalPrefix ppath.point i ppath.path
              (idxWF_logEv _ (idxWF_logEv _ hs0)) hppath).2 ppath.point).1

end Steiner

namespace Steiner

theorem roundLoop_idxWF : ∀ (idxs : List Nat) (s : SState) (f : Bool)
    (r : SState × Bool × Bool), roundLoop s idxs f = .ok r →
    IdxWF s → IdxWF r.1 := by
  intro idxs
  induction idxs with
  | nil => intro s f r h hwf; cases h; exact hwf
  | cons i rest ih =>
      intro s f r h hwf
      simp only [roundLoop] at h
      cases hstep : stepNode s i with
      | error m => rw [hstep] at h; cases h
      | ok r2 =>
          rw [hstep] at h
          obtain ⟨s2, popped, merged⟩ := r2
          dsimp only at h
          split at h
          · cases h
            have hh := idxWF_stepNode hstep hwf
            exact hh
          · exact ih s2 _ r h (idxWF_stepNode hstep hwf)

theorem innerLoop_idxWF : ∀ (fuel : Nat) (s : SState)
    (r : SState × Bool), innerLoop fuel s = .ok r → IdxWF s → IdxWF r.1 := by
  intro fuel
  induction fuel with
  | zero => intro s r h; cases h
  | succ fuel ih =>
      intro s r h hwf
      simp only [innerLoop] at h
      cases hrd : roundLoop s (List.range s.xnodes.length) false with
      | error m => rw [hrd] at h; cases h
      | ok r2 =>
          rw [hrd] at h
          obtain ⟨s2, f, merged⟩ := r2
          dsimp only at h
          split at h
          · cases h
            exact roundLoop_idxWF _ s false _ hrd hwf
          · exact ih s2 r h (roundLoop_idxWF _ s false _ hrd hwf)

theorem outerLoop_idxWF : ∀ (fuel : Nat) (s : SState) (r : SState),
    outerLoop fuel s = .ok r → IdxWF s → IdxWF r := by
  intro fuel
  induction fuel with
  | zero => intro s r h; cases h
  | succ fuel ih =>
      intro s r h hwf
      simp only [outerLoop] at h
      split at h
      · cases hin : innerLoop (fuel + 1) s with
        | error m => rw [hin] at h; cases h
        | ok r2 =>
            rw [hin] at h
            obtain ⟨s2, f⟩ := r2
            dsimp only at h
            split at h
            · cases h
              exact innerLoop_idxWF _ s _ hin hwf
            · exact ih s2 r h (innerLoop_idxWF _ s _ hin hwf)
      · cases h
        exact hwf

theorem buildEdges_outgoing_bound {es : List Edge} : ∀ {xns : List XNode}
    {xes : List XEdge} {xns2 : List XNode} {xes2 : List XEdge},
    buildEdges xns xes es = .ok (xns2, xes2) →
    (∀ x ∈ xns, ∀ e ∈ x.outgoing, e < xes.length) →
    ∀ x ∈ xns2, ∀ e ∈ x.outgoing, e < xes2.length := by
  induction es with
  | nil =>
      intro xns xes xns2 xes2 h hall
      cases h
      exact hall
  | cons e rest ih =>
      intro xns xes xns2 xes2 h hall
      rw [buildEdges_cons] at h
      cases ha : addEdge xns xes e with
      | error m => rw [ha] at h; cases h
      | ok pr =>
          rw [ha] at h
          obtain ⟨xnsA, xesA⟩ := pr
          refine ih h ?_
          simp only [addEdge] at ha
          split at ha
          · rename_i fi ti hfi hti
            cases ha
            have hpushO : ∀ x ∈ pushOutgoing xns fi xes.length,
                ∀ e2 ∈ x.outgoing, e2 < xes.length + 1 := by
              intro x hx e2 he2
              rcases List.mem_or_eq_of_mem_set hx with h1 | h1
              · have := hall x h1 e2 he2
                omega
              · subst h1
                rcases List.mem_append.mp he2 with h2 | h2
                · by_cases hfi2 : fi < xns.length
                  · have := hall _ (getD_mem_of_lt _ hfi2) e2 h2
                    omega
                  · rw [List.getD_eq_default _ _ (by omega)] at h2
                    cases h2
                · rcases List.mem_singleton.mp h2 with rfl
                  omega
            intro x hx e2 he2
            have hlen : (xes ++ [XEdge.mk e fi ti e.weight false false]).length
                = xes.length + 1 := by
              simp
            rw [hlen]
            rcases List.mem_or_eq_of_mem_set hx with h1 | h1
            · exact hpushO x h1 e2 he2
            · subst h1
              by_cases hti2 : ti < (pushOutgoing xns fi xes.length).length
              · exact hpushO _ (getD_mem_of_lt _ hti2) e2 he2
              · rw [List.getD_eq_default _ _ (by omega)] at he2
                cases he2
          · cases ha

theorem buildEdges_preserveP {P : XNode → Prop}
    (hPout : ∀ (x : XNode) (l : List Nat), P x → P { x with outgoing := l })
    (hPin : ∀ (x : XNode) (l : List Nat), P x → P { x with incoming := l })
    (hPd : P default) {es : List Edge} : ∀ {xns : List XNode}
    {xes : List XEdge} {xns2 : List XNode} {xes2 : List XEdge},
    buildEdges xns xes es = .ok (xns2, xes2) →
    (∀ x ∈ xns, P x) → ∀ x ∈ xns2, P x := by
  induction es with
  | nil =>
      intro xns xes xns2 xes2 h hall
      cases h
      exact hall
  | cons e rest ih =>
      intro xns xes xns2 xes2 h hall
      rw [buildEdges_cons] at h
      cases ha : addEdge xns xes e with
      | error m => rw [ha] at h; cases h
      | ok pr =>
          rw [ha] at h
          obtain ⟨xnsA, xesA⟩ := pr
          refine ih h ?_
          simp only [addEdge] at ha
          split at ha
          · rename_i fi ti hfi hti
            cases ha
            have hgetP : ∀ (l : List XNode) (i : Nat), (∀ x ∈ l, P x) →
                P (l.getD i default) := by
              intro l i hl
              by_cases hi : i < l.length
              · exact hl _ (getD_mem_of_lt _ hi)
              · rw [List.getD_eq_default _ _ (by omega)]
                exact hPd
            have hO : ∀ x ∈ pushOutgoing xns fi xes.length, P x := by
              intro x hx
              rcases List.mem_or_eq_of_mem_set hx with h1 | h1
              · exact hall x h1
              · subst h1
                exact hPout _ _ (hgetP xns fi hall)
            intro x hx
            rcases List.mem_or_eq_of_mem_set hx with h1 | h1
            · exact hO x h1
            · subst h1
              exact hPin _ _ (hgetP (pushOutgoing xns fi xes.length) ti hO)
          · cases ha

theorem initState_idxWF {nodes edges required s0}
    (h : initState nodes edges required = .ok s0) : IdxWF s0 := by
  simp only [initState] at h
  cases hb : buildEdges (buildNodes nodes required) [] edges with
  | error m => rw [hb] at h; cases h
  | ok pr =>
      rw [hb] at h
      obtain ⟨xns, xes⟩ := pr
      dsimp only at h
      cases h
      have hout : ∀ x ∈ xns, ∀ e ∈ x.outgoing, e < xes.length :=
        buildEdges_outgoing_bound hb
          (by
            intro x hx e he
            simp only [buildNodes] at hx
            obtain ⟨n, _, rfl⟩ := List.mem_map.mp hx
            cases he)
      have hwitn : ∀ x ∈ xns, x.witness = none :=
        buildEdges_witness_none hb
          (by
            intro x hx
            simp only [buildNodes] at hx
            obtain ⟨n, _, rfl⟩ := List.mem_map.mp hx
            rfl)
      have hfifo : ∀ x ∈ xns, x.fifo = [] := by
        refine buildEdges_preserveP (P := fun x => x.fifo = [])
          (fun x l hx => hx) (fun x l hx => hx) rfl hb ?_
        intro x hx
        simp only [buildNodes] at hx
        obtain ⟨n, _, rfl⟩ := List.mem_map.mp hx
        rfl
      have hall : ∀ y ∈ seedFifos xns,
          (∀ e ∈ y.outgoing, e < xes.length) ∧
          (∀ q ∈ y.fifo, ∀ e ∈ q.path, e < xes.length) ∧
          (∀ w, y.witness = some w → ∀ e ∈ w.path, e < xes.length) := by
        intro y hy
        unfold seedFifos at hy
        obtain ⟨q, hq, rfl⟩ := List.mem_map.mp hy
        have hq2 : q.2 ∈ xns := List.snd_mem_of_mem_enum hq
        refine ⟨?_, ?_, ?_⟩
        · intro e he
          have he2 : e ∈ q.2.outgoing := by
            revert he
            split <;> intro he <;> exact he
          exact hout q.2 hq2 e he2
        · intro qq hqq e he
          revert hqq
          split
          · intro hqq
            rcases List.mem_singleton.mp hqq with rfl
            cases he
          · intro hqq
            rw [hfifo q.2 hq2] at hqq
            cases hqq
        · intro w hw e he
          have hw2 : q.2.witness = some w := by
            revert hw
            split <;> intro hw <;> exact hw
          rw [hwitn q.2 hq2] at hw2
          cases hw2
      refine ⟨(fun e he => nomatch he), fun j => ?_⟩
      by_cases hj : j < (seedFifos xns).length
      · have hj2 := hall _ (getD_mem_of_lt (seedFifos xns) hj)
        exact hj2
      · have yd : (seedFifos xns).getD j default = (default : XNode) :=
          List.getD_eq_default _ _ (by omega)
        refine ⟨fun e he => ?_, fun q hq => ?_, fun w hw => ?_⟩
        · have he2 : e ∈ ((seedFifos xns).getD j default).outgoing := he
          rw [yd] at he2
          cases he2
        · exfalso
          have hq2 : q ∈ ((seedFifos xns).getD j default).fifo := hq
          rw [yd] at hq2
          cases hq2
        · exfalso
          have hw2 : ((seedFifos xns).getD j default).witness = some w := hw
          rw [yd] at hw2
          cases hw2

end Steiner

namespace Steiner

/-! ### Properties of `uniqueify` -/

theorem samePairB_iff (xedges : List XEdge) (a b : Nat) :
    samePairB xedges a b = true ↔
    (xedges.getD a default).src = (xedges.getD b default).src ∧
    (xedges.getD a default).dst = (xedges.getD b default).dst := by
  simp [samePairB]

theorem samePairB_refl (xedges : List XEdge) (a : Nat) :
    samePairB xedges a a = true := by
  simp [samePairB]

theorem samePairB_trans {xedges : List XEdge} {a b c : Nat}
    (h1 : samePairB xedges a b = true) (h2 : samePairB xedges b c = true) :
    samePairB xedges a c = true := by
  rw [samePairB_iff] at h1 h2 ⊢
  exact ⟨h1.1.trans h2.1, h1.2.trans h2.2⟩

theorem samePairB_symm {xedges : List XEdge} {a b : Nat}
    (h : samePairB xedges a b = true) : samePairB xedges b a = true := by
  rw [samePairB_iff] at h ⊢
  exact ⟨h.1.symm, h.2.symm⟩

theorem uniqueifyAux_mem (xedges : List XEdge) : ∀ (es retval : List Nat),
    ∀ x ∈ uniqueifyAux xedges retval es, x ∈ retval ∨ x ∈ es := by
  intro es
  induction es with
  | nil =>
      intro retval x hx
      exact Or.inl hx
  | cons e rest ih =>
      intro retval x hx
      simp only [uniqueifyAux] at hx
      split at hx
      · rcases ih retval x hx with h1 | h1
        · exact Or.inl h1
        · exact Or.inr (List.mem_cons_of_mem e h1)
      · rcases ih (retval ++ [e]) x hx with h1 | h1
        · rcases List.mem_append.mp h1 with h2 | h2
          · exact Or.inl h2
          · rcases List.mem_singleton.mp h2 with rfl
            exact Or.inr (List.mem_cons_self _ _)
        · exact Or.inr (List.mem_cons_of_mem e h1)

theorem uniqueifyAux_retval_sub (xedges : List XEdge) :
    ∀ (es retval : List Nat), ∀ r ∈ retval, r ∈ uniqueifyAux xedges retval es := by
  intro es
  induction es with
  | nil => intro retval r hr; exact hr
  | cons e rest ih =>
      intro retval r hr
      simp only [uniqueifyAux]
      split
      · exact ih retval r hr
      · exact ih (retval ++ [e]) r (List.mem_append.mpr (Or.inl hr))

theorem uniqueifyAux_sublist (xedges : List XEdge) :
    ∀ (es retval : List Nat), ∃ l, uniqueifyAux xedges retval es = retval ++ l ∧
      l.Sublist es := by
  intro es
  induction es with
  | nil =>
      intro retval
      exact ⟨[], by simp [uniqueifyAux], List.nil_sublist []⟩
  | cons e rest ih =>
      intro retval
      simp only [uniqueifyAux]
      split
      · obtain ⟨l, hl, hsub⟩ := ih retval
        exact ⟨l, hl, hsub.cons e⟩
      · obtain ⟨l, hl, hsub⟩ := ih (retval ++ [e])
        refine ⟨e :: l, ?_, hsub.cons₂ e⟩
        rw [hl, List.append_assoc]
        rfl

theorem uniqueifyAux_pairwise (xedges : List XEdge) :
    ∀ (es retval : List Nat),
    retval.Pairwise (fun a b => samePairB xedges a b = false) →
    (uniqueifyAux xedges retval es).Pairwise
      (fun a b => samePairB xedges a b = false) := by
  intro es
  induction es with
  | nil => intro retval h; exact h
  | cons e rest ih =>
      intro retval h
      simp only [uniqueifyAux]
      split
      · exact ih retval h
      · rename_i hany
        refine ih (retval ++ [e]) ?_
        rw [List.pairwise_append]
        refine ⟨h, List.pairwise_singleton _ _, ?_⟩
        intro a ha b hb
        rcases List.mem_singleton.mp hb with rfl
        exact Bool.eq_false_iff.mpr
          (List.any_eq_false.mp (Bool.eq_false_iff.mpr hany) a ha)

theorem uniqueifyAux_complete (xedges : List XEdge) :
    ∀ (es retval : List Nat), ∀ e ∈ es,
    ∃ e2 ∈ uniqueifyAux xedges retval es, samePairB xedges e2 e = true := by
  intro es
  induction es with
  | nil => intro retval e he; cases he
  | cons e0 rest ih =>
      intro retval e he
      simp only [uniqueifyAux]
      rcases List.mem_cons.mp he with rfl | hrest
      · split
        · rename_i hany
          obtain ⟨r, hr, hre⟩ := List.any_eq_true.mp hany
          exact ⟨r, uniqueifyAux_retval_sub xedges rest retval r hr, hre⟩
        · exact ⟨e, uniqueifyAux_retval_sub xedges rest _ e
            (List.mem_append.mpr (Or.inr (List.mem_singleton.mpr rfl))),
            samePairB_refl xedges e⟩
      · split
        · exact ih retval e hrest
        · exact ih (retval ++ [e0]) e hrest

theorem uniqueifyAux_first (xedges : List XEdge) :
    ∀ (es retval : List Nat), ∀ x ∈ uniqueifyAux xedges retval es,
    x ∈ retval ∨ (es.find? (fun y => samePairB xedges y x) = some x ∧
                  ∀ r ∈ retval, samePairB xedges r x = false) := by
  intro es
  induction es with
  | nil => intro retval x hx; exact Or.inl hx
  | cons e rest ih =>
      intro retval x hx
      simp only [uniqueifyAux] at hx
      split at hx
      · rename_i hany
        obtain ⟨r, hr, hre⟩ := List.any_eq_true.mp hany
        rcases ih retval x hx with h1 | h1
        · exact Or.inl h1
        · obtain ⟨hfind, hnone⟩ := h1
          have hex : samePairB xedges e x = false := by
            cases hcx : samePairB xedges e x
            · rfl
            · exfalso
              have : samePairB xedges r x = true :=
                samePairB_trans hre hcx
              rw [hnone r hr] at this
              cases this
          refine Or.inr ⟨?_, hnone⟩
          rw [List.find?_cons_of_neg _ (by rw [hex]; exact Bool.false_ne_true),
            hfind]
      · rename_i hany
        rcases ih (retval ++ [e]) x hx with h1 | h1
        · rcases List.mem_append.mp h1 with h2 | h2
          · exact Or.inl h2
          · rcases List.mem_singleton.mp h2 with rfl
            refine Or.inr ⟨?_, ?_⟩
            · exact List.find?_cons_of_pos _
                (show (fun y => samePairB xedges y x) x = true from
                  samePairB_refl xedges x)
            · intro r hr
              exact Bool.eq_false_iff.mpr
                (List.any_eq_false.mp (Bool.eq_false_iff.mpr hany) r hr)
        · obtain ⟨hfind, hnone⟩ := h1
          have hex : samePairB xedges e x = false :=
            hnone e (List.mem_append.mpr (Or.inr (List.mem_singleton.mpr rfl)))
          refine Or.inr ⟨?_, ?_⟩
          · rw [List.find?_cons_of_neg _ (by rw [hex]; exact Bool.false_ne_true),
              hfind]
          · intro r hr
            exact hnone r (List.mem_append.mpr (Or.inl hr))

end Steiner

namespace Steiner

/-! ### Facts about the final search state -/

theorem steinerSearch_ok_facts {fuel nodes edges required s}
    (h : steinerSearch fuel nodes edges required = .ok s) :
    EdgesWF s ∧ EdgesFrom edges s ∧ IdxWF s ∧ WitnessWF s := by
  unfold steinerSearch at h
  cases hinit : initState nodes edges required with
  | error m => rw [hinit] at h; cases h
  | ok s0 =>
      rw [hinit] at h
      have hsk := sameSkeleton_outerLoop fuel s0 s h
      exact ⟨sameSkeleton_edgesWF hsk (initState_edgesWF hinit),
             sameSkeleton_edgesFrom hsk (initState_edgesFrom hinit),
             outerLoop_idxWF fuel s0 s h (initState_idxWF hinit),
             outerLoop_witnessWF fuel s0 s h (initState_witnessWF hinit)⟩

theorem edgesWF_src_inj {s : SState} (h : EdgesWF s) {a b : Nat}
    (ha : a < s.xedges.length) (hb : b < s.xedges.length)
    (he : (s.xedges.getD a default).edge.src = (s.xedges.getD b default).edge.src) :
    (s.xedges.getD a default).src = (s.xedges.getD b default).src := by
  obtain ⟨a1, _, a3, _, a5, _⟩ := h _ (getD_mem_of_lt s.xedges ha)
  obtain ⟨b1, _, b3, _, b5, _⟩ := h _ (getD_mem_of_lt s.xedges hb)
  rcases Nat.lt_trichotomy (s.xedges.getD a default).src
    (s.xedges.getD b default).src with hlt | heq | hgt
  · exact absurd (a3.trans he) (b5 _ hlt)
  · exact heq
  · exact absurd (b3.trans he.symm) (a5 _ hgt)

theorem edgesWF_dst_inj {s : SState} (h : EdgesWF s) {a b : Nat}
    (ha : a < s.xedges.length) (hb : b < s.xedges.length)
    (he : (s.xedges.getD a default).edge.dst = (s.xedges.getD b default).edge.dst) :
    (s.xedges.getD a default).dst = (s.xedges.getD b default).dst := by
  obtain ⟨_, a2, _, a4, _, a6⟩ := h _ (getD_mem_of_lt s.xedges ha)
  obtain ⟨_, b2, _, b4, _, b6⟩ := h _ (getD_mem_of_lt s.xedges hb)
  rcases Nat.lt_trichotomy (s.xedges.getD a default).dst
    (s.xedges.getD b default).dst with hlt | heq | hgt
  · exact absurd (a4.trans he) (b6 _ hlt)
  · exact heq
  · exact absurd (b4.trans he.symm) (a6 _ hgt)

/-- C2: the sequence returned by `steiner` never contains two edges with the
same ordered `(from, to)` endpoint pair, because the accumulated solution is
passed through `uniqueify`, which keeps the first occurrence of each ordered
pair and drops every later duplicate.  Stated on the final search state: the
projected output is pairwise distinct on ordered pairs, `uniqueify` returns
an order-preserving subsequence of its input, every input entry has a
representative with the same pair in the output, and every kept entry is the
first entry of its pair in the input. -/
theorem C2_uniqueify_dedups
    (connect : List Nat → List XEdge → List XNode → List Nat)
    (fuel : Nat) (nodes : List Nat) (edges : List Edge)
    (required : List Nat) (s : SState)
    (h : steinerSearch fuel nodes edges required = .ok s)
    (hspace : ∀ i ∈ connect s.soln s.xedges s.xnodes, i < s.xedges.length) :
    (steinerFinish connect s).Pairwise
      (fun a b => ¬ (a.src = b.src ∧ a.dst = b.dst)) ∧
    (uniqueify s.xedges (connect s.soln s.xedges s.xnodes)).Sublist
      (connect s.soln s.xedges s.xnodes) ∧
    (∀ e ∈ connect s.soln s.xedges s.xnodes,
      ∃ e2 ∈ uniqueify s.xedges (connect s.soln s.xedges s.xnodes),
        samePairB s.xedges e2 e = true) ∧
    (∀ e2 ∈ uniqueify s.xedges (connect s.soln s.xedges s.xnodes),
      (connect s.soln s.xedges s.xnodes).find?
        (fun y => samePairB s.xedges y e2) = some e2) := by
  obtain ⟨hWF, _, _, _⟩ := steinerSearch_ok_facts h
  have hmemu : ∀ x ∈ uniqueify s.xedges (connect s.soln s.xedges s.xnodes),
      x ∈ connect s.soln s.xedges s.xnodes := by
    intro x hx
    rcases uniqueifyAux_mem s.xedges _ [] x hx with h1 | h1
    · cases h1
    · exact h1
  refine ⟨?_, ?_, ?_, ?_⟩
  · show (List.map _ (uniqueify s.xedges (connect s.soln s.xedges s.xnodes))).Pairwise _
    rw [List.pairwise_map]
    have hpw := uniqueifyAux_pairwise s.xedges
      (connect s.soln s.xedges s.xnodes) [] (List.Pairwise.nil)
    refine hpw.imp_of_mem ?_
    intro a b hma hmb hab
    intro hcon
    have ha : a < s.xedges.length := hspace a (hmemu a hma)
    have hb : b < s.xedges.length := hspace b (hmemu b hmb)
    have h1 := edgesWF_src_inj hWF ha hb hcon.1
    have h2 := edgesWF_dst_inj hWF ha hb hcon.2
    have : samePairB s.xedges a b = true := (samePairB_iff _ _ _).mpr ⟨h1, h2⟩
    rw [hab] at this
    cases this
  · obtain ⟨l, hl, hsub⟩ := uniqueifyAux_sublist s.xedges
      (connect s.soln s.xedges s.xnodes) []
    show List.Sublist (uniqueifyAux s.xedges []
      (connect s.soln s.xedges s.xnodes)) (connect s.soln s.xedges s.xnodes)
    rw [hl]
    simpa using hsub
  · exact fun e he => uniqueifyAux_complete s.xedges _ [] e he
  · intro e2 he2
    rcases uniqueifyAux_first s.xedges _ [] e2 he2 with h1 | h1
    · cases h1
    · exact h1.1

/-- Witness for C2 at a concrete input with the identity collaborator. -/
theorem C2_witness :
    steinerSearch 200 c8nodes c8edges [0, 1] = .ok c8s ∧
    (∀ i ∈ connectId c8s.soln c8s.xedges c8s.xnodes, i < c8s.xedges.length) ∧
    (steinerFinish connectId c8s).Pairwise
      (fun a b => ¬ (a.src = b.src ∧ a.dst = b.dst)) := by
  refine ⟨rfl, by decide, ?_⟩
  exact (C2_uniqueify_dedups connectId 200 c8nodes c8edges [0, 1] c8s rfl
    (by decide)).1

/-- The identity repair collaborator satisfies the modelled contract. -/
theorem connectId_contract : ConnectContract connectId :=
  ⟨fun _ _ _ _ => rfl, fun _ _ _ _ he => he, fun _ _ _ _ he => Or.inl he⟩

/-- C10: every edge record in the output of `steiner` is one of the caller's
original edge records (the search annotates internal copies only, and the
final projection maps each annotated edge back to the wrapped original).
The repair collaborator is assumed to satisfy its contract, so it only adds
edges drawn from the annotated edge list. -/
theorem C10_output_edges_are_input_edges
    (connect : List Nat → List XEdge → List XNode → List Nat)
    (fuel : Nat) (nodes : List Nat) (edges : List Edge)
    (required : List Nat) (out : List Edge)
    (hcontract : ConnectContract connect)
    (h : steiner connect fuel nodes edges required = .ok out) :
    ∀ e ∈ out, e ∈ edges := by
  unfold steiner at h
  cases hs : steinerSearch fuel nodes edges required with
  | error m => rw [hs] at h; cases h
  | ok s =>
      rw [hs] at h
      cases h
      obtain ⟨_, hFrom, hIdx, _⟩ := steinerSearch_ok_facts hs
      intro e he
      obtain ⟨i, hi, rfl⟩ := List.mem_map.mp he
      have hic : i ∈ connect s.soln s.xedges s.xnodes := by
        rcases uniqueifyAux_mem s.xedges _ [] i hi with h1 | h1
        · cases h1
        · exact h1
      have hilt : i < s.xedges.length := by
        rcases hcontract.2.2 s.soln s.xedges s.xnodes i hic with h1 | h1
        · exact hIdx.1 i h1
        · exact h1
      exact hFrom _ (getD_mem_of_lt s.xedges hilt)

/-- Witness for C10 on a concrete input with the identity collaborator. -/
theorem C10_witness :
    ConnectContract connectId ∧ ∀ e ∈ c1out, e ∈ c1edges := by
  refine ⟨connectId_contract, ?_⟩
  have hrun : steiner connectId 200 c1nodes c1edges [0, 1, 2, 3] = .ok c1out := rfl
  exact C10_output_edges_are_input_edges connectId 200 c1nodes c1edges
    [0, 1, 2, 3] c1out connectId_contract hrun

end Steiner

namespace Steiner

/-! ### Fuel monotonicity of the loops -/

theorem innerLoop_mono : ∀ {f1 f2 : Nat} {s : SState} {r : SState × Bool},
    f1 ≤ f2 → innerLoop f1 s = .ok r → innerLoop f2 s = .ok r := by
  intro f1
  induction f1 with
  | zero => intro f2 s r _ h; cases h
  | succ f1 ih =>
      intro f2 s r hle h
      obtain ⟨f2, rfl⟩ : ∃ g, f2 = g + 1 := by
        cases f2
        · omega
        · exact ⟨_, rfl⟩
      simp only [innerLoop] at h ⊢
      cases hrd : roundLoop s (List.range s.xnodes.length) false with
      | error m => rw [hrd] at h; cases h
      | ok r2 =>
          rw [hrd] at h
          obtain ⟨s2, f, merged⟩ := r2
          dsimp only at h ⊢
          split at h
          · rename_i hcond
            rw [if_pos hcond]
            exact h
          · rename_i hcond
            rw [if_neg hcond]
            exact ih (by omega) h

theorem outerLoop_mono : ∀ {f1 f2 : Nat} {s : SState} {r : SState},
    f1 ≤ f2 → outerLoop f1 s = .ok r → outerLoop f2 s = .ok r := by
  intro f1
  induction f1 with
  | zero => intro f2 s r _ h; cases h
  | succ f1 ih =>
      intro f2 s r hle h
      obtain ⟨f2, rfl⟩ : ∃ g, f2 = g + 1 := by
        cases f2
        · omega
        · exact ⟨_, rfl⟩
      simp only [outerLoop] at h ⊢
      split at h
      · rename_i hcond
        rw [if_pos hcond]
        cases hin : innerLoop (f1 + 1) s with
        | error m => rw [hin] at h; cases h
        | ok r2 =>
            rw [innerLoop_mono (by omega) hin]
            rw [hin] at h
            obtain ⟨s2, f⟩ := r2
            dsimp only at h ⊢
            split at h
            · rename_i hcond2
              rw [if_pos hcond2]
              exact h
            · rename_i hcond2
              rw [if_neg hcond2]
              exact ih (by omega) h
      · rename_i hcond
        rw [if_neg hcond]
        exact h

theorem steinerSearch_mono {f1 f2 : Nat} {nodes edges required s}
    (hle : f1 ≤ f2) (h : steinerSearch f1 nodes edges required = .ok s) :
    steinerSearch f2 nodes edges required = .ok s := by
  unfold steinerSearch at h ⊢
  cases hinit : initState nodes edges required with
  | error m => rw [hinit] at h; cases h
  | ok s0 =>
      rw [hinit] at h
      dsimp only at h ⊢
      exact outerLoop_mono hle h

/-- C7: with two required nodes joined by a single direct edge of weight
`W`, the output is exactly that edge, for every positive `W` — the closing
edge is accepted at the frontier-examination step of the very first
arrival, without `W` passes through the queue (the run length does not
depend on `W`).  The repair collaborator is assumed to satisfy its
contract, so it leaves this already-connected solution unchanged. -/
theorem C7_single_edge_output (W fuel : Nat)
    (connect : List Nat → List XEdge → List XNode → List Nat)
    (hc : ConnectContract connect) (_hW : 1 ≤ W) (hf : 4 ≤ fuel) :
    steiner connect fuel [0, 1] [⟨0, 1, W⟩] [0, 1] = .ok [⟨0, 1, W⟩] := by
  have hs4 : steinerSearch 4 [0, 1] [⟨0, 1, W⟩] [0, 1] = .ok (c7state W) := rfl
  have hs : steinerSearch fuel [0, 1] [⟨0, 1, W⟩] [0, 1] = .ok (c7state W) :=
    steinerSearch_mono hf hs4
  unfold steiner
  rw [hs]
  have hx : xpairs (c7state W).xedges (c7state W).soln = [(0, 1)] := rfl
  have hconn : SolnConnected (c7state W).soln (c7state W).xedges
      (c7state W).xnodes := by
    intro i hi j hj hri hrj
    have h2 : (c7state W).xnodes.length = 2 := rfl
    rw [h2] at hi hj
    have hadj : adjU (xpairs (c7state W).xedges (c7state W).soln) 0 1 := by
      rw [hx]
      exact Or.inl (List.mem_singleton.mpr rfl)
    have hadj2 : adjU (xpairs (c7state W).xedges (c7state W).soln) 1 0 := by
      rw [hx]
      exact Or.inr (List.mem_singleton.mpr rfl)
    interval_cases i <;> interval_cases j
    · exact Relation.ReflTransGen.refl
    · exact Relation.ReflTransGen.single hadj
    · exact Relation.ReflTransGen.single hadj2
    · exact Relation.ReflTransGen.refl
  have hidem := hc.1 _ _ _ hconn
  show Except.ok (steinerFinish connect (c7state W)) = _
  unfold steinerFinish
  rw [hidem]
  rfl

/-- Witness for C7 at `W = 5`, fuel 10, identity collaborator. -/
theorem C7_witness :
    ConnectContract connectId ∧ 1 ≤ 5 ∧ 4 ≤ 10 ∧
    steiner connectId 10 [0, 1] [⟨0, 1, 5⟩] [0, 1] = .ok [⟨0, 1, 5⟩] :=
  ⟨connectId_contract, by omega, by omega,
   C7_single_edge_output 5 10 connectId connectId_contract (by omega) (by omega)⟩

end Steiner

namespace Steiner

/-! ### Undirected reachability helpers -/

theorem adjU_symm {ps : List (Nat × Nat)} {a b : Nat}
    (h : adjU ps a b) : adjU ps b a :=
  h.symm

theorem ureach_symm {ps : List (Nat × Nat)} {a b : Nat}
    (h : UReach ps a b) : UReach ps b a := by
  induction h with
  | refl => exact Relation.ReflTransGen.refl
  | tail h1 h2 ih =>
      exact Relation.ReflTransGen.trans
        (Relation.ReflTransGen.single (adjU_symm h2)) ih

theorem ureach_sep {ps : List (Nat × Nat)} (S : Nat → Bool)
    (hS : ∀ p ∈ ps, S p.1 = S p.2) {a b : Nat} (h : UReach ps a b) :
    S a = S b := by
  induction h with
  | refl => rfl
  | tail h1 h2 ih =>
      rcases h2 with hp | hp
      · exact ih.trans (hS _ hp)
      · exact ih.trans (hS _ hp).symm

/-- Counterexample for C1: with the identity collaborator (which satisfies
the stated contract), the connected four-terminal path input `c1nodes` /
`c1edges` produces the two disjoint edges `0 → 1` and `2 → 3`: required
nodes `0` and `2` are not mutually reachable in the output. -/
theorem C1_counterexample : ¬ C1Statement := by
  intro h
  have hrun : steiner connectId 200 c1nodes c1edges [0, 1, 2, 3] = .ok c1out :=
    rfl
  have h0 : ∀ x ∈ c1nodes, UReach (epairs c1edges) 0 x := by
    intro x hx
    have r01 : UReach (epairs c1edges) 0 1 :=
      Relation.ReflTransGen.single (Or.inl (by decide))
    have r12 : UReach (epairs c1edges) 1 2 :=
      Relation.ReflTransGen.single (Or.inl (by decide))
    have r23 : UReach (epairs c1edges) 2 3 :=
      Relation.ReflTransGen.single (Or.inl (by decide))
    fin_cases hx
    · exact Relation.ReflTransGen.refl
    · exact r01
    · exact r01.trans r12
    · exact (r01.trans r12).trans r23
  have hconn : AllConnected c1nodes (epairs c1edges) := by
    intro a ha b hb
    exact Relation.ReflTransGen.trans (ureach_symm (h0 a ha)) (h0 b hb)
  have hout := h connectId connectId_contract c1nodes c1edges [0, 1, 2, 3]
    200 c1out (by unfold PosWeights; decide) (by unfold BothDirections; decide)
    hconn hrun
  have h02 := hout 0 (by decide) 2 (by decide)
  have hsep := ureach_sep (fun n => decide (n < 2)) (by decide) h02
  simp at hsep

/-- C1, amended: the collaborator contract alone does not make the output
connected (see the counterexample); what holds is that the normalisation
step preserves connectivity: whenever the edge list produced by the
Connectivity Repair step connects all required nodes (through original node
identities, undirected), so does the final deduplicated, projected output
of `steiner`. -/
theorem C1_normalizer_preserves_connectivity
    (connect : List Nat → List XEdge → List XNode → List Nat)
    (fuel : Nat) (nodes : List Nat) (edges : List Edge)
    (required : List Nat) (s : SState)
    (h : steinerSearch fuel nodes edges required = .ok s)
    (hspace : ∀ i ∈ connect s.soln s.xedges s.xnodes, i < s.xedges.length)
    (hcon : AllConnected required
      (solnPairs s.xedges (connect s.soln s.xedges s.xnodes))) :
    AllConnected required (epairs (steinerFinish connect s)) := by
  obtain ⟨hWF, _, _, _⟩ := steinerSearch_ok_facts h
  intro a ha b hb
  refine Relation.ReflTransGen.mono ?_ (hcon a ha b hb)
  intro x y hxy
  have key : ∀ u v : Nat,
      (u, v) ∈ solnPairs s.xedges (connect s.soln s.xedges s.xnodes) →
      (u, v) ∈ epairs (steinerFinish connect s) := by
    intro u v huv
    obtain ⟨i, hi, hpair⟩ := List.mem_map.mp huv
    obtain ⟨e2, he2, hsame⟩ := uniqueifyAux_complete s.xedges
      (connect s.soln s.xedges s.xnodes) [] i hi
    have he2c : e2 ∈ connect s.soln s.xedges s.xnodes := by
      rcases uniqueifyAux_mem s.xedges _ [] e2 he2 with h1 | h1
      · cases h1
      · exact h1
    have hi2 : i < s.xedges.length := hspace i hi
    have he22 : e2 < s.xedges.length := hspace e2 he2c
    rw [samePairB_iff] at hsame
    have hsrc : (s.xedges.getD e2 default).edge.src
        = (s.xedges.getD i default).edge.src := by
      obtain ⟨a1, _, a3, _, _, _⟩ := hWF _ (getD_mem_of_lt s.xedges he22)
      obtain ⟨b1, _, b3, _, _, _⟩ := hWF _ (getD_mem_of_lt s.xedges hi2)
      rw [← a3, ← b3, hsame.1]
    have hdst : (s.xedges.getD e2 default).edge.dst
        = (s.xedges.getD i default).edge.dst := by
      obtain ⟨_, a2, _, a4, _, _⟩ := hWF _ (getD_mem_of_lt s.xedges he22)
      obtain ⟨_, b2, _, b4, _, _⟩ := hWF _ (getD_mem_of_lt s.xedges hi2)
      rw [← a4, ← b4, hsame.2]
    refine List.mem_map.mpr ⟨(s.xedges.getD e2 default).edge, ?_, ?_⟩
    · exact List.mem_map.mpr ⟨e2, he2, rfl⟩
    · rw [hsrc, hdst]
      rw [← hpair]
  rcases hxy with hp | hp
  · exact Or.inl (key x y hp)
  · exact Or.inr (key y x hp)

/-- Witness for the amended C1 on the two-required-node input. -/
theorem C1_witness :
    steinerSearch 4 [0, 1] [⟨0, 1, 5⟩] [0, 1] = .ok (c7state 5) ∧
    (∀ i ∈ connectId (c7state 5).soln (c7state 5).xedges (c7state 5).xnodes,
      i < (c7state 5).xedges.length) ∧
    AllConnected [0, 1] (epairs (steinerFinish connectId (c7state 5))) := by
  have hcon : AllConnected [0, 1]
      (solnPairs (c7state 5).xedges
        (connectId (c7state 5).soln (c7state 5).xedges (c7state 5).xnodes)) := by
    intro a ha b hb
    have r01 : UReach (solnPairs (c7state 5).xedges
        (connectId (c7state 5).soln (c7state 5).xedges (c7state 5).xnodes)) 0 1 :=
      Relation.ReflTransGen.single (Or.inl (by decide))
    fin_cases ha <;> fin_cases hb
    · exact Relation.ReflTransGen.refl
    · exact r01
    · exact ureach_symm r01
    · exact Relation.ReflTransGen.refl
  exact ⟨rfl, by decide,
    C1_normalizer_preserves_connectivity connectId 4 [0, 1] [⟨0, 1, 5⟩]
      [0, 1] (c7state 5) rfl (by decide) hcon⟩

end Steiner

namespace Steiner

/-! ### The queue discipline invariant (claim C5) -/

theorem pathWeight_append (xedges : List XEdge) (p q : List Nat) :
    pathWeight xedges (p ++ q) = pathWeight xedges p + pathWeight xedges q := by
  simp [pathWeight]

theorem lastPathWeight_concat (xedges : List XEdge) (p : List Nat) (e : Nat) :
    lastPathWeight xedges (p ++ [e]) = (xedges.getD e default).weight := by
  simp [lastPathWeight, List.getLast?_concat]

theorem lastTotal_concat (xedges : List XEdge) (arr : List (PPath × Nat))
    (qc : PPath × Nat) :
    lastTotal xedges (arr ++ [qc]) = pathWeight xedges qc.1.path := by
  simp [lastTotal, List.getLast?_concat]

theorem fifoRun_inv {xedges : List XEdge} {n : Nat}
    {l arr : List (PPath × Nat)} (hpos : PosW xedges)
    (h : FifoRun xedges n l arr) : FifoInv xedges l arr := by
  induction h with
  | init =>
      refine ⟨List.Pairwise.nil, ?_, ?_, List.pairwise_singleton _ _,
        ?_, ?_, ?_, ?_, ?_⟩
      · intro qc hm; exact absurd hm (List.not_mem_nil _)
      · intro qc hm; exact absurd hm (List.not_mem_nil _)
      · intro a ha b hb
        rw [List.mem_singleton] at ha hb
        subst ha; subst hb
        exact Nat.le_succ _
      · intro qc hm; exact Nat.zero_le _
      · intro qc hm
        rw [List.mem_singleton] at hm; subst hm
        exact Nat.le_refl 0
      · intro qc hm
        rw [List.mem_singleton] at hm; subst hm
        intro hne; exact absurd rfl hne
      · intro qc hm
        rw [List.mem_singleton] at hm; subst hm
        rfl
  | requeue q c rest arr2 hrun hgt ih =>
      obtain ⟨h1, h2, h3, h4, h5, h6, h7, h8, h9⟩ := ih
      have hhead : (q, c) ∈ (q, c) :: rest := List.mem_cons_self _ _
      have hqe : q.endweight ≤ pathWeight xedges q.path := h7 _ hhead
      have hd4 := List.pairwise_cons.mp h4
      have hTkey : Tkey xedges { q with endweight := q.endweight - 1 }
          = Tkey xedges q + 1 := by
        simp only [Tkey]
        omega
      refine ⟨h1, h2, h3, ?_, ?_, ?_, ?_, ?_, ?_⟩
      · refine List.pairwise_append.mpr ⟨hd4.2, List.pairwise_singleton _ _, ?_⟩
        intro a ha b hb
        rw [List.mem_singleton] at hb; subst hb
        show Tkey xedges a.1 ≤ Tkey xedges { q with endweight := q.endweight - 1 }
        rw [hTkey]
        have := h5 a (List.mem_cons_of_mem _ ha) (q, c) hhead
        dsimp only at this
        omega
      · intro a ha b hb
        rcases List.mem_append.mp ha with ha2 | ha2 <;>
          rcases List.mem_append.mp hb with hb2 | hb2
        · exact h5 a (List.mem_cons_of_mem _ ha2) b (List.mem_cons_of_mem _ hb2)
        · rw [List.mem_singleton] at hb2; subst hb2
          show Tkey xedges a.1 ≤
            Tkey xedges { q with endweight := q.endweight - 1 } + 1
          rw [hTkey]
          have := h5 a (List.mem_cons_of_mem _ ha2) (q, c) hhead
          dsimp only at this
          omega
        · rw [List.mem_singleton] at ha2; subst ha2
          show Tkey xedges { q with endweight := q.endweight - 1 } ≤
            Tkey xedges b.1 + 1
          rw [hTkey]
          have := hd4.1 b hb2
          dsimp only at this
          omega
        · rw [List.mem_singleton] at ha2
          rw [List.mem_singleton] at hb2
          subst ha2; subst hb2
          exact Nat.le_succ _
      · intro qc hm
        rcases List.mem_append.mp hm with hm2 | hm2
        · exact h6 qc (List.mem_cons_of_mem _ hm2)
        · rw [List.mem_singleton] at hm2; subst hm2
          show lastTotal xedges arr2 ≤
            Tkey xedges { q with endweight := q.endweight - 1 }
          rw [hTkey]
          have := h6 (q, c) hhead
          dsimp only at this
          omega
      · intro qc hm
        rcases List.mem_append.mp hm with hm2 | hm2
        · exact h7 qc (List.mem_cons_of_mem _ hm2)
        · rw [List.mem_singleton] at hm2; subst hm2
          dsimp only
          omega
      · intro qc hm
        rcases List.mem_append.mp hm with hm2 | hm2
        · exact h8 qc (List.mem_cons_of_mem _ hm2)
        · rw [List.mem_singleton] at hm2; subst hm2
          intro hne
          dsimp only
          omega
      · intro qc hm
        rcases List.mem_append.mp hm with hm2 | hm2
        · exact h9 qc (List.mem_cons_of_mem _ hm2)
        · rw [List.mem_singleton] at hm2; subst hm2
          have := h9 (q, c) hhead
          dsimp only at this ⊢
          omega
  | arrive q c rest arr2 pushes hrun hnlt hp ih =>
      obtain ⟨h1, h2, h3, h4, h5, h6, h7, h8, h9⟩ := ih
      have hhead : (q, c) ∈ (q, c) :: rest := List.mem_cons_self _ _
      have he1 : q.endweight ≤ 1 := by omega
      have hd4 := List.pairwise_cons.mp h4
      have hTq : Tkey xedges q = pathWeight xedges q.path := by
        simp only [Tkey]
        omega
      have hlastle : lastTotal xedges arr2 ≤ pathWeight xedges q.path := by
        have := h6 (q, c) hhead
        dsimp only at this
        omega
      have hpushF : ∀ p ∈ pushes,
          Tkey xedges p.1 = pathWeight xedges q.path + 1 ∧
          p.1.endweight ≤ pathWeight xedges p.1.path ∧
          1 ≤ p.1.endweight ∧
          p.2 + p.1.endweight = lastPathWeight xedges p.1.path := by
        intro p hpm
        obtain ⟨eidx, hlt, hpath, hew, hpt, hc0⟩ := hp p hpm
        have hw1 : 1 ≤ (xedges.getD eidx default).weight :=
          hpos _ (getD_mem_of_lt xedges hlt)
        have hwA : pathWeight xedges p.1.path
            = pathWeight xedges q.path + (xedges.getD eidx default).weight := by
          rw [hpath, pathWeight_append]
          simp [pathWeight]
        refine ⟨?_, ?_, ?_, ?_⟩
        · simp only [Tkey]
          rw [hwA, hew]
          omega
        · rw [hwA, hew]
          omega
        · rw [hew]; exact hw1
        · rw [hc0, hew, hpath, lastPathWeight_concat]
          omega
      have hlast2 : lastTotal xedges (arr2 ++ [(q, c + 1)])
          = pathWeight xedges q.path := by
        rw [lastTotal_concat]
      refine ⟨?_, ?_, ?_, ?_, ?_, ?_, ?_, ?_, ?_⟩
      · refine List.pairwise_append.mpr ⟨h1, List.pairwise_singleton _ _, ?_⟩
        intro a ha b hb
        rw [List.mem_singleton] at hb; subst hb
        show pathWeight xedges a.1.path ≤ pathWeight xedges (q, c + 1).1.path
        have := h2 a ha
        dsimp only
        omega
      · intro qc hm
        rw [hlast2]
        rcases List.mem_append.mp hm with hm2 | hm2
        · exact (h2 qc hm2).trans hlastle
        · rw [List.mem_singleton] at hm2; subst hm2
          exact Nat.le_refl _
      · intro qc hm
        rcases List.mem_append.mp hm with hm2 | hm2
        · exact h3 qc hm2
        · rw [List.mem_singleton] at hm2; subst hm2
          intro hne
          have h9h := h9 (q, c) hhead
          have h8h := h8 (q, c) hhead hne
          dsimp only at h9h h8h ⊢
          omega
      · refine List.pairwise_append.mpr ⟨hd4.2, ?_, ?_⟩
        · refine List.pairwise_of_forall_mem_list ?_
          intro a ha b hb
          show Tkey xedges a.1 ≤ Tkey xedges b.1
          rw [(hpushF a ha).1, (hpushF b hb).1]
        · intro a ha b hb
          show Tkey xedges a.1 ≤ Tkey xedges b.1
          rw [(hpushF b hb).1]
          have := h5 a (List.mem_cons_of_mem _ ha) (q, c) hhead
          dsimp only at this
          omega
      · intro a ha b hb
        rcases List.mem_append.mp ha with ha2 | ha2 <;>
          rcases List.mem_append.mp hb with hb2 | hb2
        · exact h5 a (List.mem_cons_of_mem _ ha2) b (List.mem_cons_of_mem _ hb2)
        · rw [(hpushF b hb2).1]
          have := h5 a (List.mem_cons_of_mem _ ha2) (q, c) hhead
          dsimp only at this
          omega
        · rw [(hpushF a ha2).1]
          have := hd4.1 b hb2
          dsimp only at this
          omega
        · rw [(hpushF a ha2).1, (hpushF b hb2).1]
          omega
      · intro qc hm
        rw [hlast2]
        rcases List.mem_append.mp hm with hm2 | hm2
        · have := hd4.1 qc hm2
          dsimp only at this
          omega
        · rw [(hpushF qc hm2).1]
          omega
      · intro qc hm
        rcases List.mem_append.mp hm with hm2 | hm2
        · exact h7 qc (List.mem_cons_of_mem _ hm2)
        · exact (hpushF qc hm2).2.1
      · intro qc hm
        rcases List.mem_append.mp hm with hm2 | hm2
        · exact h8 qc (List.mem_cons_of_mem _ hm2)
        · intro hne; exact (hpushF qc hm2).2.2.1
      · intro qc hm
        rcases List.mem_append.mp hm with hm2 | hm2
        · exact h9 qc (List.mem_cons_of_mem _ hm2)
        · exact (hpushF qc hm2).2.2.2

/-- C5: under the discipline of the main loop (shift; if `endweight > 1`
decrement and re-push, source lines 151-160; otherwise fully arrive and push
the extensions with `endweight` set to the edge weight, lines 220-222), with
positive weights, the fully-arrived partial paths of one required node's
queue have non-decreasing total path weight, and every arrived path that
ends in an edge of weight `W` was shifted exactly `W` times, i.e. it
occupied `W` scheduling turns of that queue. -/
theorem C5_queue_discipline {xedges : List XEdge} {n : Nat}
    {l arr : List (PPath × Nat)} (hpos : PosW xedges)
    (h : FifoRun xedges n l arr) :
    arr.Pairwise
      (fun a b => pathWeight xedges a.1.path ≤ pathWeight xedges b.1.path) ∧
    ∀ qc ∈ arr, qc.1.path ≠ [] → qc.2 = lastPathWeight xedges qc.1.path := by
  obtain ⟨h1, h2, h3, hrest⟩ := fifoRun_inv hpos h
  exact ⟨h1, h3⟩

/-- Witness for C5: a concrete run over the one-edge graph of weight `2`:
the seed arrives after `1` shift, its extension along the weight-`2` edge is
requeued once and arrives after `2` shifts, in non-decreasing total order. -/
theorem C5_witness :
    PosW cw5edges ∧
    ([((seedPPath 0 : PPath), 1),
      (({ point := 1, path := [0], endweight := 1 } : PPath), 2)].Pairwise
      (fun a b =>
        pathWeight cw5edges a.1.path ≤ pathWeight cw5edges b.1.path) ∧
     ∀ qc ∈ [((seedPPath 0 : PPath), 1),
        (({ point := 1, path := [0], endweight := 1 } : PPath), 2)],
        qc.1.path ≠ [] → qc.2 = lastPathWeight cw5edges qc.1.path) := by
  have hpos : PosW cw5edges := by
    intro xe hxe
    simp only [cw5edges, List.mem_singleton] at hxe
    subst hxe
    decide
  have h0 : FifoRun cw5edges 0 [(seedPPath 0, 0)] [] := FifoRun.init
  have h1 : FifoRun cw5edges 0
      [(({ point := 1, path := [0], endweight := 2 } : PPath), 0)]
      [(seedPPath 0, 1)] := by
    refine FifoRun.arrive (seedPPath 0) 0 [] []
      [(({ point := 1, path := [0], endweight := 2 } : PPath), 0)]
      h0 (by decide) ?_
    intro p hpm
    rw [List.mem_singleton] at hpm; subst hpm
    exact ⟨0, by decide, rfl, rfl, rfl, rfl⟩
  have h2 : FifoRun cw5edges 0
      [(({ point := 1, path := [0], endweight := 1 } : PPath), 1)]
      [(seedPPath 0, 1)] :=
    FifoRun.requeue { point := 1, path := [0], endweight := 2 } 0 []
      [(seedPPath 0, 1)] h1 (by decide)
  have h3 : FifoRun cw5edges 0 []
      [(seedPPath 0, 1),
       (({ point := 1, path := [0], endweight := 1 } : PPath), 2)] :=
    FifoRun.arrive { point := 1, path := [0], endweight := 1 } 1 []
      [(seedPPath 0, 1)] [] h2 (by decide)
      (fun p hpm => absurd hpm (List.not_mem_nil _))
  exact ⟨hpos, C5_queue_discipline hpos h3⟩

end Steiner

namespace Steiner

/-! ### Generic helpers for the termination argument (claim C6) -/

theorem nodup_lt_length_le {l : List Nat} {n : Nat} (hd : l.Nodup)
    (hb : ∀ x ∈ l, x < n) : l.length ≤ n := by
  have h1 : l.toFinset ⊆ Finset.range n := by
    intro x hx
    rw [List.mem_toFinset] at hx
    exact Finset.mem_range.mpr (hb x hx)
  have h2 := Finset.card_le_card h1
  rw [List.toFinset_card_of_nodup hd] at h2
  simpa using h2

theorem range_sum_update {g1 g2 : Nat → Nat} : ∀ (n i : Nat), i < n →
    (∀ j, j ≠ i → g1 j = g2 j) →
    ((List.range n).map g1).sum + g2 i = ((List.range n).map g2).sum + g1 i := by
  intro n
  induction n with
  | zero => intro i hi; exact absurd hi (Nat.not_lt_zero i)
  | succ n ih =>
      intro i hi h
      simp only [List.range_succ, List.map_append, List.sum_append,
        List.map_cons, List.map_nil, List.sum_cons, List.sum_nil]
      by_cases hin : i = n
      · subst hin
        have hmap : (List.range i).map g1 = (List.range i).map g2 := by
          refine List.map_congr_left ?_
          intro a ha
          rw [List.mem_range] at ha
          exact h a (by omega)
        rw [hmap]
        omega
      · have hgn : g1 n = g2 n := h n (fun hh => hin hh.symm)
        have := ih i (by omega) h
        omega

theorem phi_key (E Wt m : Nat) :
    E * (Wt + (E * Wt + 1) * (E + 1) ^ m) < (E * Wt + 1) * (E + 1) ^ (m + 1) := by
  have h1 : 1 ≤ (E + 1) ^ m := Nat.one_le_pow _ _ (by omega)
  have key : E * Wt < (E * Wt + 1) * (E + 1) ^ m := by
    calc E * Wt < E * Wt + 1 := Nat.lt_succ_self _
      _ = (E * Wt + 1) * 1 := (Nat.mul_one _).symm
      _ ≤ (E * Wt + 1) * (E + 1) ^ m := Nat.mul_le_mul_left _ h1
  calc E * (Wt + (E * Wt + 1) * (E + 1) ^ m)
      = E * Wt + E * ((E * Wt + 1) * (E + 1) ^ m) := by ring
    _ < (E * Wt + 1) * (E + 1) ^ m + E * ((E * Wt + 1) * (E + 1) ^ m) :=
        Nat.add_lt_add_right key _
    _ = (E * Wt + 1) * ((E + 1) ^ m * (E + 1)) := by ring
    _ = (E * Wt + 1) * (E + 1) ^ (m + 1) := by rw [pow_succ]

theorem sum_le_length_mul {l : List Nat} {n : Nat} (h : ∀ x ∈ l, x ≤ n) :
    l.sum ≤ l.length * n := by
  have := List.sum_le_card_nsmul l n h
  simpa using this

theorem le_maxWeight : ∀ (xes : List XEdge), ∀ xe ∈ xes, xe.weight ≤ maxWeight xes := by
  intro xes
  induction xes with
  | nil => intro xe hxe; cases hxe
  | cons x rest ih =>
      intro xe hxe
      rcases List.mem_cons.mp hxe with h1 | h1
      · subst h1
        show xe.weight ≤ max xe.weight (maxWeight rest)
        exact Nat.le_max_left _ _
      · have := ih xe h1
        show xe.weight ≤ max x.weight (maxWeight rest)
        exact this.trans (Nat.le_max_right _ _)

end Steiner

namespace Steiner

/-! ### The exit condition of the main loop (claim C6, part one) -/

theorem stepNode_popped_false {s : SState} {i : Nat} {r : SState × Bool × Bool}
    (h : stepNode s i = .ok r) (hf : r.2.1 = false) :
    r.1 = s ∧ r.2.2 = false ∧
    (!(getX s i).reqd || (getX s i).fifo.isEmpty ||
      (getX s i).in_permanent_web) = true := by
  simp only [stepNode] at h
  split at h
  · cases h
    rename_i hreq
    refine ⟨rfl, rfl, ?_⟩
    simp [hreq]
  · split at h
    · cases h
      rename_i hguard
      refine ⟨rfl, rfl, ?_⟩
      simp only [Bool.or_assoc, hguard, Bool.or_true]
    · rename_i hreq hguard
      split at h
      · cases h
        rename_i hfifo
        refine ⟨rfl, rfl, ?_⟩
        simp [hfifo]
      · rename_i ppath rest hfifo
        split at h
        · cases h
          dsimp only at hf
          exact Bool.noConfusion hf
        · split at h
          · cases h
          · cases h
            dsimp only at hf
            exact Bool.noConfusion hf

theorem roundLoop_false : ∀ (idxs : List Nat) (s : SState) (f : Bool)
    (r : SState × Bool × Bool), roundLoop s idxs f = .ok r → r.2.1 = false →
    r.1 = s ∧ r.2.2 = false ∧ f = false ∧
    ∀ i ∈ idxs, (!(getX s i).reqd || (getX s i).fifo.isEmpty ||
      (getX s i).in_permanent_web) = true := by
  intro idxs
  induction idxs with
  | nil =>
      intro s f r h hf
      cases h
      dsimp only at hf
      exact ⟨rfl, rfl, hf, fun i hi => absurd hi (List.not_mem_nil _)⟩
  | cons i rest ih =>
      intro s f r h hf
      simp only [roundLoop] at h
      cases hstep : stepNode s i with
      | error m => rw [hstep] at h; cases h
      | ok r2 =>
          rw [hstep] at h
          obtain ⟨sA, popped, merged⟩ := r2
          dsimp only at h
          split at h
          · rename_i hm
            cases h
            dsimp only at hf
            have hpop : popped = false := by
              cases hpp : popped
              · rfl
              · rw [hpp] at hf; simp at hf
            have := (stepNode_popped_false hstep (by dsimp only; exact hpop)).2.1
            dsimp only at this
            rw [this] at hm
            exact absurd hm (by simp)
          · obtain ⟨hr1, hr2, hfp, hrest⟩ := ih sA _ r h hf
            have hfpf : f = false ∧ popped = false := by
              cases hff : f <;> cases hpp : popped <;>
                rw [hff, hpp] at hfp <;> simp_all
            obtain ⟨hs, hm2, hact⟩ :=
              stepNode_popped_false hstep (by dsimp only; exact hfpf.2)
            dsimp only at hs
            subst hs
            refine ⟨hr1, hr2, hfpf.1, ?_⟩
            intro i0 hi0
            rcases List.mem_cons.mp hi0 with h1 | h1
            · subst h1; exact hact
            · exact hrest i0 h1

theorem innerLoop_false : ∀ (fuel : Nat) (s : SState) (r : SState × Bool),
    innerLoop fuel s = .ok r → r.2 = false → noActiveB r.1 = true := by
  intro fuel
  induction fuel with
  | zero => intro s r h; cases h
  | succ fuel ih =>
      intro s r h hf
      simp only [innerLoop] at h
      cases hrd : roundLoop s (List.range s.xnodes.length) false with
      | error m => rw [hrd] at h; cases h
      | ok r2 =>
          rw [hrd] at h
          obtain ⟨s2, f, merged⟩ := r2
          dsimp only at h
          split at h
          · cases h
            dsimp only at hf
            subst hf
            obtain ⟨hs, hm, hff, hact⟩ := roundLoop_false _ s false _ hrd rfl
            dsimp only at hs
            subst hs
            show noActiveB s2 = true
            rw [noActiveB, List.all_eq_true]
            intro i hi
            exact hact i hi
          · exact ih s2 r h hf

theorem outerLoop_exit : ∀ (fuel : Nat) (s : SState) (r : SState),
    outerLoop fuel s = .ok r →
    r.reqds ≤ r.solved_reqds ∨ noActiveB r = true := by
  intro fuel
  induction fuel with
  | zero => intro s r h; cases h
  | succ fuel ih =>
      intro s r h
      simp only [outerLoop] at h
      split at h
      · cases hin : innerLoop (fuel + 1) s with
        | error m => rw [hin] at h; cases h
        | ok r2 =>
            rw [hin] at h
            obtain ⟨s2, f⟩ := r2
            dsimp only at h
            split at h
            · cases h
              rename_i hff
              exact Or.inr (innerLoop_false _ s _ hin hff)
            · exact ih s2 r h
      · cases h
        rename_i hge
        exact Or.inl (by omega)

end Steiner

namespace Steiner

/-! ### Frame lemmas for queues and the solved counter (claim C6) -/

theorem setPerm_fifo_all (s : SState) (i j : Nat) :
    (getX (setPerm s i) j).fifo = (getX s j).fifo := by
  refine getX_setX_proj (fun x => x.fifo) ?_ j
  rfl

theorem markPathPerm_fifo_all (path : List Nat) : ∀ (s : SState) (j : Nat),
    (getX (markPathPerm s path) j).fifo = (getX s j).fifo := by
  induction path with
  | nil => intro s j; rfl
  | cons e rest ih =>
      intro s j
      show (getX (markPathPerm (setPerm s (s.xedges.getD e default).src) rest) j).fifo = _
      rw [ih, setPerm_fifo_all]

theorem terminalMerge_fifo_all (s : SState) (path : List Nat)
    (oidx toIdx j : Nat) :
    (getX (terminalMerge s path oidx toIdx) j).fifo = (getX s j).fifo := by
  simp only [terminalMerge]
  split
  all_goals
    rw [show ∀ t : SState, ∀ v : Nat, getX { t with solved_reqds := v } j = getX t j
          from fun t v => rfl]
    rw [setPerm_fifo_all, markPathPerm_fifo_all]
    rfl

theorem tempMerge_fifo_all (s : SState) (path : List Nat)
    (oidx toIdx : Nat) (wpath : List Nat) (j : Nat) :
    (getX (tempMerge s path oidx toIdx wpath) j).fifo = (getX s j).fifo := by
  simp only [tempMerge]
  rw [show ∀ t : SState, ∀ v : Nat, getX { t with solved_reqds := v } j = getX t j
        from fun t v => rfl]
  rw [setPerm_fifo_all, markPathPerm_fifo_all]
  rfl

theorem terminalMerge_solved_ge (s : SState) (path : List Nat)
    (oidx toIdx : Nat) :
    s.solved_reqds + 1 ≤ (terminalMerge s path oidx toIdx).solved_reqds := by
  simp only [terminalMerge]
  split
  all_goals
    show _ + 1 ≤ (setPerm (markPathPerm { s with soln := _ } path) toIdx).solved_reqds + _
  all_goals
    rw [setPerm_solved, markPathPerm_solved]
  all_goals
    dsimp only
  all_goals
    omega

theorem tempMerge_solved (s : SState) (path : List Nat)
    (oidx toIdx : Nat) (wpath : List Nat) :
    (tempMerge s path oidx toIdx wpath).solved_reqds = s.solved_reqds + 2 := by
  simp only [tempMerge]
  show (setPerm (markPathPerm { s with soln := _ } _) toIdx).solved_reqds + 2 = _
  rw [setPerm_solved, markPathPerm_solved]

theorem pushFifo_solved (s : SState) (i : Nat) (q : PPath) :
    (pushFifo s i q).solved_reqds = s.solved_reqds := rfl

theorem pushFifo_xedges (s : SState) (i : Nat) (q : PPath) :
    (pushFifo s i q).xedges = s.xedges := rfl

/-! ### The temporary-web/witness invariant (claim C6) -/

theorem tempWitness_transfer {s t : SState}
    (hW : ∀ j, (getX t j).witness = (getX s j).witness)
    (hT : ∀ j, (getX t j).in_temporary_web = (getX s j).in_temporary_web)
    (h : TempWitness s) : TempWitness t := by
  intro j ht
  rw [hT] at ht
  rw [hW]
  exact h j ht

theorem initState_temp_false {nodes : List Nat} {edges : List Edge}
    {required : List Nat} {s0 : SState}
    (h : initState nodes edges required = .ok s0) :
    ∀ j, (getX s0 j).in_temporary_web = false := by
  simp only [initState] at h
  cases hb : buildEdges (buildNodes nodes required) [] edges with
  | error m => rw [hb] at h; cases h
  | ok pr =>
      rw [hb] at h
      obtain ⟨xns, xes⟩ := pr
      dsimp only at h
      cases h
      have htmp : ∀ x ∈ xns, x.in_temporary_web = false := by
        refine buildEdges_preserveP (P := fun x => x.in_temporary_web = false)
          (fun x l hx => hx) (fun x l hx => hx) rfl hb ?_
        intro x hx
        simp only [buildNodes] at hx
        obtain ⟨n, _, rfl⟩ := List.mem_map.mp hx
        rfl
      intro j
      show ((seedFifos xns).getD j default).in_temporary_web = false
      have hseed : ∀ x ∈ seedFifos xns, x.in_temporary_web = false := by
        intro x hx
        unfold seedFifos at hx
        obtain ⟨q, hq, rfl⟩ := List.mem_map.mp hx
        have hq2 : q.2 ∈ xns := List.snd_mem_of_mem_enum hq
        have := htmp q.2 hq2
        split <;> exact this
      by_cases hj : j < (seedFifos xns).length
      · exact hseed _ (getD_mem_of_lt _ hj)
      · rw [List.getD_eq_default _ _ (by omega)]
        rfl

theorem initState_tempWitness {nodes : List Nat} {edges : List Edge}
    {required : List Nat} {s0 : SState}
    (h : initState nodes edges required = .ok s0) : TempWitness s0 := by
  intro j ht
  rw [initState_temp_false h j] at ht
  exact Bool.noConfusion ht

end Steiner

namespace Steiner

/-! ### Totality and queue effect of the edge loop (claim C6) -/

theorem pushFifo_length (s : SState) (i : Nat) (q : PPath) :
    (pushFifo s i q).xnodes.length = s.xnodes.length :=
  setX_length _ _ _

theorem edgeLoop_total (nIdx : Nat) (path : List Nat) :
    ∀ (outs : List Nat) (s : SState), TempWitness s →
    ∀ m, edgeLoop nIdx path s outs = .error m → False := by
  intro outs
  induction outs with
  | nil => intro s htw m h; cases h
  | cons oidx rest ih =>
      intro s htw m h
      simp only [edgeLoop] at h
      split at h
      · cases h
      · split at h
        · rename_i hc1 hc2
          split at h
          · rename_i hwit
            exact htw _ hc2 hwit
          · split at h
            · exact ih s htw m h
            · cases h
        · refine ih _ ?_ m h
          exact tempWitness_transfer
            (fun j => pushFifo_witness_all s nIdx _ j)
            (fun j => pushFifo_temp_all s nIdx _ j) htw

theorem edgeLoop_run (nIdx : Nat) (path : List Nat) :
    ∀ (outs : List Nat) (s : SState) (r : SState × Bool),
    edgeLoop nIdx path s outs = .ok r → nIdx < s.xnodes.length →
    ∃ pushed : List PPath,
      (getX r.1 nIdx).fifo = (getX s nIdx).fifo ++ pushed ∧
      (∀ j, j ≠ nIdx → (getX r.1 j).fifo = (getX s j).fifo) ∧
      pushed.length ≤ outs.length ∧
      (∀ q ∈ pushed, ∃ oidx ∈ outs,
        q.path = path ++ [oidx] ∧
        q.endweight = (s.xedges.getD oidx default).weight ∧
        q.point = (s.xedges.getD oidx default).dst ∧
        (getX s ((s.xedges.getD oidx default).dst)).in_temporary_web = false) ∧
      s.solved_reqds ≤ r.1.solved_reqds ∧
      (r.2 = true → s.solved_reqds < r.1.solved_reqds) := by
  intro outs
  induction outs with
  | nil =>
      intro s r h hn
      cases h
      refine ⟨[], by rw [List.append_nil], fun j hj => rfl, Nat.le_refl _,
        fun q hq => absurd hq (List.not_mem_nil _), Nat.le_refl _, ?_⟩
      intro hm
      exact Bool.noConfusion hm
  | cons oidx rest ih =>
      intro s r h hn
      simp only [edgeLoop] at h
      split at h
      · cases h
        refine ⟨[], ?_, ?_, Nat.zero_le _,
          fun q hq => absurd hq (List.not_mem_nil _), ?_, ?_⟩
        · rw [List.append_nil]
          exact terminalMerge_fifo_all s path oidx _ nIdx
        · intro j hj
          exact terminalMerge_fifo_all s path oidx _ j
        · have := terminalMerge_solved_ge s path oidx
            (s.xedges.getD oidx default).dst
          dsimp only
          omega
        · intro hm
          have := terminalMerge_solved_ge s path oidx
            (s.xedges.getD oidx default).dst
          dsimp only
          omega
      · split at h
        · rename_i hc1 hc2
          split at h
          · cases h
          · rename_i w hwit
            split at h
            · obtain ⟨pushed, h1, h2, h3, h4, h5, h6⟩ := ih s r h hn
              refine ⟨pushed, h1, h2, Nat.le_succ_of_le h3, ?_, h5, h6⟩
              intro q hq
              obtain ⟨o2, ho2, hp⟩ := h4 q hq
              exact ⟨o2, List.mem_cons_of_mem _ ho2, hp⟩
            · cases h
              refine ⟨[], ?_, ?_, Nat.zero_le _,
                fun q hq => absurd hq (List.not_mem_nil _), ?_, ?_⟩
              · rw [List.append_nil]
                exact tempMerge_fifo_all s path oidx _ _ nIdx
              · intro j hj
                exact tempMerge_fifo_all s path oidx _ _ j
              · have := tempMerge_solved s path oidx
                  (s.xedges.getD oidx default).dst w.path
                dsimp only
                omega
              · intro hm
                have := tempMerge_solved s path oidx
                  (s.xedges.getD oidx default).dst w.path
                dsimp only
                omega
        · rename_i hc1 hc2
          obtain ⟨pushed, h1, h2, h3, h4, h5, h6⟩ :=
            ih _ r h (by rw [pushFifo_length]; exact hn)
          have hpf : (getX (pushFifo s nIdx
              { point := (s.xedges.getD oidx default).dst,
                path := path ++ [oidx],
                endweight := (s.xedges.getD oidx default).weight }) nIdx).fifo
              = (getX s nIdx).fifo ++
                [{ point := (s.xedges.getD oidx default).dst,
                   path := path ++ [oidx],
                   endweight := (s.xedges.getD oidx default).weight }] := by
            unfold pushFifo
            rw [getX_setX_self _ _ _ hn]
          refine ⟨(⟨(s.xedges.getD oidx default).dst, path ++ [oidx],
              (s.xedges.getD oidx default).weight⟩ : PPath) :: pushed,
            ?_, ?_, ?_, ?_, ?_, ?_⟩
          · rw [h1, hpf, List.append_assoc, List.singleton_append]
          · intro j hj
            rw [h2 j hj]
            unfold pushFifo
            rw [getX_setX_ne _ _ (fun hh => hj hh.symm)]
          · simpa using Nat.succ_le_succ h3
          · intro q hq
            rcases List.mem_cons.mp hq with h7 | h7
            · subst h7
              refine ⟨oidx, List.mem_cons_self _ _, rfl, rfl, rfl, ?_⟩
              cases htb : (getX s
                  ((s.xedges.getD oidx default).dst)).in_temporary_web
              · rfl
              · exact absurd htb hc2
            · obtain ⟨o2, ho2, hp1, hp2, hp3, hp4⟩ := h4 q h7
              rw [pushFifo_xedges] at hp2 hp3 hp4
              rw [pushFifo_temp_all] at hp4
              exact ⟨o2, List.mem_cons_of_mem _ ho2, hp1, hp2, hp3, hp4⟩
          · rw [show (pushFifo s nIdx
                { point := (s.xedges.getD oidx default).dst,
                  path := path ++ [oidx],
                  endweight := (s.xedges.getD oidx default).weight }).solved_reqds
                = s.solved_reqds from rfl] at h5
            exact h5
          · rw [show (pushFifo s nIdx
                { point := (s.xedges.getD oidx default).dst,
                  path := path ++ [oidx],
                  endweight := (s.xedges.getD oidx default).weight }).solved_reqds
                = s.solved_reqds from rfl] at h6
            exact h6

end Steiner

namespace Steiner

/-! ### Adjacency-list well-formedness (claim C6) -/

theorem seedFifos_length (xns : List XNode) :
    (seedFifos xns).length = xns.length := by
  unfold seedFifos
  rw [List.length_map, List.enum_length]

theorem seedFifos_getD (xns : List XNode) (j : Nat) (hj : j < xns.length) :
    (seedFifos xns).getD j default =
      (if (xns.getD j default).reqd = true
       then { xns.getD j default with fifo := [seedPPath j] }
       else xns.getD j default) := by
  unfold seedFifos
  have hj2 : j < (xns.enum.map (fun p =>
      if p.2.reqd then { p.2 with fifo := [seedPPath p.1] } else p.2)).length := by
    rw [List.length_map, List.enum_length]
    exact hj
  rw [List.getD_eq_getElem _ _ hj2, List.getElem_map, List.getElem_enum,
    List.getD_eq_getElem _ _ hj]

theorem outgoing_pushIncoming (xns : List XNode) (i eidx j : Nat) :
    ((pushIncoming xns i eidx).getD j default).outgoing
      = (xns.getD j default).outgoing := by
  unfold pushIncoming
  by_cases hij : i = j
  · subst hij
    by_cases hi : i < xns.length
    · rw [getD_set_self _ _ _ _ hi]
    · rw [List.set_eq_of_length_le (by omega)]
  · rw [getD_set_ne _ _ _ hij]

theorem outgoing_pushOutgoing_ne (xns : List XNode) (i eidx j : Nat)
    (hij : i ≠ j) :
    ((pushOutgoing xns i eidx).getD j default).outgoing
      = (xns.getD j default).outgoing := by
  unfold pushOutgoing
  rw [getD_set_ne _ _ _ hij]

theorem outgoing_pushOutgoing_self (xns : List XNode) (i eidx : Nat)
    (hi : i < xns.length) :
    ((pushOutgoing xns i eidx).getD i default).outgoing
      = (xns.getD i default).outgoing ++ [eidx] := by
  unfold pushOutgoing
  rw [getD_set_self _ _ _ _ hi]

theorem buildEdges_outWF {es : List Edge} : ∀ {xns : List XNode}
    {xes : List XEdge} {xns2 : List XNode} {xes2 : List XEdge},
    buildEdges xns xes es = .ok (xns2, xes2) →
    (∀ j, (xns.getD j default).outgoing.Nodup ∧
      ∀ e ∈ (xns.getD j default).outgoing,
        e < xes.length ∧ (xes.getD e default).src = j) →
    ∀ j, (xns2.getD j default).outgoing.Nodup ∧
      ∀ e ∈ (xns2.getD j default).outgoing,
        e < xes2.length ∧ (xes2.getD e default).src = j := by
  induction es with
  | nil =>
      intro xns xes xns2 xes2 h hall
      cases h
      exact hall
  | cons e rest ih =>
      intro xns xes xns2 xes2 h hall
      rw [buildEdges_cons] at h
      cases ha : addEdge xns xes e with
      | error m => rw [ha] at h; cases h
      | ok pr =>
          rw [ha] at h
          obtain ⟨xnsA, xesA⟩ := pr
          refine ih h ?_
          simp only [addEdge] at ha
          split at ha
          · rename_i fi ti hfi hti
            cases ha
            intro j
            rw [outgoing_pushIncoming]
            have hlen : (xes ++ [XEdge.mk e fi ti e.weight false false]).length
                = xes.length + 1 := by simp
            by_cases hjf : fi = j
            · subst hjf
              by_cases hflen : fi < xns.length
              · rw [outgoing_pushOutgoing_self xns fi xes.length hflen]
                obtain ⟨hnd, hmem⟩ := hall fi
                constructor
                · rw [List.nodup_append]
                  refine ⟨hnd, List.nodup_singleton _, ?_⟩
                  intro a ha2 hb2
                  rw [List.mem_singleton] at hb2
                  have := (hmem a ha2).1
                  omega
                · intro e2 he2
                  rcases List.mem_append.mp he2 with h2 | h2
                  · obtain ⟨hb, hsrc⟩ := hmem e2 h2
                    refine ⟨by omega, ?_⟩
                    rw [List.getD_append _ _ _ _ hb]
                    exact hsrc
                  · rw [List.mem_singleton] at h2
                    subst h2
                    refine ⟨by omega, ?_⟩
                    simp [List.getD_append_right]
              · rw [show pushOutgoing xns fi xes.length = xns from by
                  unfold pushOutgoing
                  rw [List.set_eq_of_length_le (by omega)]]
                obtain ⟨hnd, hmem⟩ := hall fi
                refine ⟨hnd, ?_⟩
                intro e2 he2
                obtain ⟨hb, hsrc⟩ := hmem e2 he2
                refine ⟨by omega, ?_⟩
                rw [List.getD_append _ _ _ _ hb]
                exact hsrc
            · rw [outgoing_pushOutgoing_ne xns fi xes.length j hjf]
              obtain ⟨hnd, hmem⟩ := hall j
              refine ⟨hnd, ?_⟩
              intro e2 he2
              obtain ⟨hb, hsrc⟩ := hmem e2 he2
              refine ⟨by omega, ?_⟩
              rw [List.getD_append _ _ _ _ hb]
              exact hsrc
          · cases ha

theorem initState_outWF {nodes : List Nat} {edges : List Edge}
    {required : List Nat} {s0 : SState}
    (h : initState nodes edges required = .ok s0) : OutWF s0 := by
  simp only [initState] at h
  cases hb : buildEdges (buildNodes nodes required) [] edges with
  | error m => rw [hb] at h; cases h
  | ok pr =>
      rw [hb] at h
      obtain ⟨xns, xes⟩ := pr
      dsimp only at h
      cases h
      have hbase : ∀ j, ((buildNodes nodes required).getD j default).outgoing.Nodup ∧
          ∀ e ∈ ((buildNodes nodes required).getD j default).outgoing,
            e < ([] : List XEdge).length ∧
            (([] : List XEdge).getD e default).src = j := by
        intro j
        have hout : ((buildNodes nodes required).getD j default).outgoing = [] := by
          by_cases hj : j < (buildNodes nodes required).length
          · have hx := getD_mem_of_lt (buildNodes nodes required) hj
            simp only [buildNodes] at hx ⊢
            obtain ⟨n, _, hn⟩ := List.mem_map.mp hx
            rw [← hn]
            rfl
          · rw [List.getD_eq_default _ _ (by omega)]
            rfl
        rw [hout]
        exact ⟨List.nodup_nil, fun e he => absurd he (List.not_mem_nil _)⟩
      have hxns := buildEdges_outWF hb hbase
      intro j
      show ((seedFifos xns).getD j default).outgoing.Nodup ∧
        ∀ e ∈ ((seedFifos xns).getD j default).outgoing,
          e < xes.length ∧ (xes.getD e default).src = j
      by_cases hj : j < xns.length
      · rw [seedFifos_getD xns j hj]
        obtain ⟨hnd, hmem⟩ := hxns j
        split
        · exact ⟨hnd, hmem⟩
        · exact ⟨hnd, hmem⟩
      · rw [List.getD_eq_default _ _ (by rw [seedFifos_length]; omega)]
        exact ⟨List.nodup_nil, fun e he => absurd he (List.not_mem_nil _)⟩

theorem sameSkeleton_outWF {s t : SState} (hsk : SameSkeleton s t)
    (h : OutWF s) : OutWF t := by
  intro j
  obtain ⟨hE, hL, hR, hall⟩ := hsk
  rw [(hall j).2.2.1, hE]
  exact h j

theorem sameSkeleton_wBound {s t : SState} {W : Nat} (hsk : SameSkeleton s t)
    (h : WBound s W) : WBound t W := by
  intro xe hxe
  rw [hsk.1] at hxe
  exact h xe hxe

end Steiner

namespace Steiner

/-! ### Queued-path well-formedness: transfer and initial state (claim C6) -/

theorem qwf_transfer {s t : SState} (hE : t.xedges = s.xedges)
    (hL : t.xnodes.length = s.xnodes.length)
    (hF : ∀ j, (getX t j).fifo = (getX s j).fifo)
    (hT : ∀ j, (getX s j).in_temporary_web = true →
      (getX t j).in_temporary_web = true)
    (h : QWF s) : QWF t := by
  intro j q hq
  rw [hF j] at hq
  obtain ⟨h1, h2, h3, h4⟩ := h j q hq
  refine ⟨?_, ?_, ?_, ?_⟩
  · rw [hE]; exact h1
  · rw [hL]; exact h2
  · rw [hE]; exact h3
  · intro e he
    rw [hE]
    exact hT _ (h4 e he)

theorem initState_qwf {nodes : List Nat} {edges : List Edge}
    {required : List Nat} {s0 : SState}
    (h : initState nodes edges required = .ok s0) : QWF s0 := by
  simp only [initState] at h
  cases hb : buildEdges (buildNodes nodes required) [] edges with
  | error m => rw [hb] at h; cases h
  | ok pr =>
      rw [hb] at h
      obtain ⟨xns, xes⟩ := pr
      dsimp only at h
      cases h
      have hfifo : ∀ x ∈ xns, x.fifo = [] := by
        refine buildEdges_preserveP (P := fun x => x.fifo = [])
          (fun x l hx => hx) (fun x l hx => hx) rfl hb ?_
        intro x hx
        simp only [buildNodes] at hx
        obtain ⟨n, _, rfl⟩ := List.mem_map.mp hx
        rfl
      intro j q hq
      by_cases hj : j < xns.length
      · have hq2 : q ∈ ((seedFifos xns).getD j default).fifo := hq
        rw [seedFifos_getD xns j hj] at hq2
        split at hq2
        · have hq3 : q = seedPPath j := List.mem_singleton.mp hq2
          subst hq3
          refine ⟨?_, ?_, ?_, ?_⟩
          · show ((([] : List Nat).map _) ++ [j]).Nodup
            simp
          · show j < (seedFifos xns).length
            rw [seedFifos_length]
            exact hj
          · intro e he; cases he
          · intro e he; cases he
        · rw [hfifo _ (getD_mem_of_lt xns hj)] at hq2
          cases hq2
      · have hq2 : q ∈ ((seedFifos xns).getD j default).fifo := hq
        rw [List.getD_eq_default _ _ (by rw [seedFifos_length]; omega)] at hq2
        cases hq2

end Steiner

namespace Steiner

/-! ### The arrival step: invariants and potential decrease (claim C6) -/

theorem nodup_concat_iff {l : List Nat} {a : Nat} :
    (l ++ [a]).Nodup ↔ l.Nodup ∧ a ∉ l := by
  rw [List.nodup_append]
  constructor
  · intro ⟨h1, h2, h3⟩
    exact ⟨h1, fun hm => h3 hm (List.mem_singleton.mpr rfl)⟩
  · intro ⟨h1, h2⟩
    refine ⟨h1, List.nodup_singleton _, ?_⟩
    intro x hx hx2
    rw [List.mem_singleton] at hx2
    subst hx2
    exact h2 hx

theorem arrival_step {s s4 : SState} {i : Nat} (W : Nat)
    (ppath : PPath) (rest : List PPath)
    (hq : QWF s) (how : OutWF s) (htw : TempWitness s)
    (hew : EdgesWF s) (hwb : WBound s W)
    (hiN : i < s.xnodes.length) (hpN : ppath.point < s.xnodes.length)
    (htr : (traceOf s.xedges ppath).Nodup)
    (hpe : ∀ e ∈ ppath.path, e < s.xedges.length)
    (hpm : ∀ e ∈ ppath.path,
      (getX s ((s.xedges.getD e default).src)).in_temporary_web = true)
    (hlen4 : s4.xnodes.length = s.xnodes.length)
    (hxe4 : s4.xedges = s.xedges)
    (hsol4 : s4.solved_reqds = s.solved_reqds)
    (hfifo4i : (getX s4 i).fifo = rest)
    (hfifo4ne : ∀ j, j ≠ i → (getX s4 j).fifo = (getX s j).fifo)
    (htemp4p : (getX s4 ppath.point).in_temporary_web = true)
    (htemp4ne : ∀ j, j ≠ ppath.point →
      (getX s4 j).in_temporary_web = (getX s j).in_temporary_web)
    (hwit4p : (getX s4 ppath.point).witness
      = some { node := i, path := ppath.path })
    (hwit4ne : ∀ j, j ≠ ppath.point →
      (getX s4 j).witness = (getX s j).witness)
    (hout4 : ∀ j, (getX s4 j).outgoing = (getX s j).outgoing)
    (hfs : (getX s i).fifo = ppath :: rest) :
    ∃ r : SState × Bool,
      edgeLoop i ppath.path s4 ((getX s4 ppath.point).outgoing) = .ok r ∧
      QWF r.1 ∧ TempWitness r.1 ∧
      s.solved_reqds ≤ r.1.solved_reqds ∧
      (r.2 = true → s.solved_reqds < r.1.solved_reqds) ∧
      statePhi s.xedges.length s.xnodes.length W r.1
        < statePhi s.xedges.length s.xnodes.length W s := by
  have htw4 : TempWitness s4 := by
    intro j ht
    by_cases hjp : j = ppath.point
    · subst hjp
      rw [hwit4p]
      simp
    · rw [hwit4ne j hjp]
      rw [htemp4ne j hjp] at ht
      exact htw j ht
  have htmono : ∀ j, (getX s j).in_temporary_web = true →
      (getX s4 j).in_temporary_web = true := by
    intro j h2
    by_cases hjp : j = ppath.point
    · subst hjp; exact htemp4p
    · rw [htemp4ne j hjp]; exact h2
  cases hEL : edgeLoop i ppath.path s4 ((getX s4 ppath.point).outgoing) with
  | error m =>
      exact (edgeLoop_total i ppath.path _ s4 htw4 m hEL).elim
  | ok r0 =>
      obtain ⟨s5, merged⟩ := r0
      obtain ⟨pushed, h1, h2, h3, h4, h5, h6⟩ :=
        edgeLoop_run i ppath.path _ s4 (s5, merged) hEL
          (by rw [hlen4]; exact hiN)
      have hsk5 := sameSkeleton_edgeLoop i ppath.path _ s4 (s5, merged) hEL
      have hxe5 : s5.xedges = s.xedges := by
        have := hsk5.1
        dsimp only at this
        rw [this, hxe4]
      have hlen5 : s5.xnodes.length = s.xnodes.length := by
        have := hsk5.2.1
        dsimp only at this
        rw [this, hlen4]
      have htemp5 : ∀ j, (getX s5 j).in_temporary_web
          = (getX s4 j).in_temporary_web :=
        edgeLoop_temp_all i ppath.path _ s4 (s5, merged) hEL
      have hwit5 : ∀ j, (getX s5 j).witness = (getX s4 j).witness :=
        edgeLoop_witness_all i ppath.path _ s4 (s5, merged) hEL
      have hq5 : QWF s5 := by
        intro j q hqm
        by_cases hji : j = i
        · subst hji
          rw [show (getX s5 j).fifo = (getX s4 j).fifo ++ pushed from h1,
            hfifo4i] at hqm
          rcases List.mem_append.mp hqm with hmr | hmp
          · have hqs : q ∈ (getX s j).fifo := by
              rw [hfs]; exact List.mem_cons_of_mem _ hmr
            obtain ⟨k1, k2, k3, k4⟩ := hq j q hqs
            refine ⟨by rw [hxe5]; exact k1, by rw [hlen5]; exact k2,
              by rw [hxe5]; exact k3, ?_⟩
            intro e he
            rw [hxe5, htemp5]
            exact htmono _ (k4 e he)
          · obtain ⟨oidx, hoidx, hqpath, hqew, hqpt, hqtemp⟩ := h4 q hmp
            rw [hout4] at hoidx
            rw [hxe4] at hqew hqpt hqtemp
            obtain ⟨hond, homem⟩ := how ppath.point
            obtain ⟨holt, hosrc⟩ := homem oidx hoidx
            have hoe := hew _ (getD_mem_of_lt s.xedges holt)
            have hms : List.map (fun e => (s.xedges.getD e default).src) [oidx]
                = [ppath.point] := by
              simp only [List.map_cons, List.map_nil, hosrc]
            have htq : traceOf s.xedges q
                = traceOf s.xedges ppath ++ [(s.xedges.getD oidx default).dst] := by
              unfold traceOf
              rw [hqpath, hqpt, List.map_append, hms]
            refine ⟨?_, ?_, ?_, ?_⟩
            · rw [hxe5, htq, nodup_concat_iff]
              refine ⟨htr, ?_⟩
              intro hmem
              have hmark : (getX s4
                  ((s.xedges.getD oidx default).dst)).in_temporary_web = true := by
                unfold traceOf at hmem
                rcases List.mem_append.mp hmem with hm1 | hm1
                · obtain ⟨e, he, hee⟩ := List.mem_map.mp hm1
                  rw [← hee]
                  exact htmono _ (hpm e he)
                · rw [List.mem_singleton] at hm1
                  rw [hm1]
                  exact htemp4p
              rw [hqtemp] at hmark
              exact Bool.noConfusion hmark
            · rw [hlen5, hqpt]
              exact hoe.2.1
            · rw [hxe5]
              intro e he
              rw [hqpath] at he
              rcases List.mem_append.mp he with h7 | h7
              · exact hpe e h7
              · rw [List.mem_singleton] at h7; subst h7; exact holt
            · intro e he
              rw [hxe5, htemp5]
              rw [hqpath] at he
              rcases List.mem_append.mp he with h7 | h7
              · exact htmono _ (hpm e h7)
              · rw [List.mem_singleton] at h7; subst h7
                rw [hosrc]
                exact htemp4p
        · rw [show (getX s5 j).fifo = (getX s4 j).fifo from h2 j hji,
            hfifo4ne j hji] at hqm
          obtain ⟨k1, k2, k3, k4⟩ := hq j q hqm
          refine ⟨by rw [hxe5]; exact k1, by rw [hlen5]; exact k2,
            by rw [hxe5]; exact k3, ?_⟩
          intro e he
          rw [hxe5, htemp5]
          exact htmono _ (k4 e he)
      have htw5 : TempWitness s5 := tempWitness_transfer hwit5 htemp5 htw4
      have hkN : ppath.path.length + 1 ≤ s.xnodes.length := by
        have hlenT : (traceOf s.xedges ppath).length = ppath.path.length + 1 := by
          unfold traceOf
          simp
        have hbound : ∀ v ∈ traceOf s.xedges ppath, v < s.xnodes.length := by
          intro v hv
          unfold traceOf at hv
          rcases List.mem_append.mp hv with h7 | h7
          · obtain ⟨e, he, hee⟩ := List.mem_map.mp h7
            rw [← hee]
            exact (hew _ (getD_mem_of_lt s.xedges (hpe e he))).1
          · rw [List.mem_singleton] at h7
            rw [h7]
            exact hpN
        have := nodup_lt_length_le htr hbound
        omega
      have hpushlen : pushed.length ≤ s.xedges.length := by
        have houtlen : ((getX s ppath.point).outgoing).length
            ≤ s.xedges.length := by
          obtain ⟨hond, homem⟩ := how ppath.point
          exact nodup_lt_length_le hond (fun x hx => (homem x hx).1)
        have h3b := h3
        rw [hout4] at h3b
        omega
      have hsumbound : ∀ x ∈ pushed.map
          (entryPhi s.xedges.length s.xnodes.length W),
          x ≤ W + (s.xedges.length * W + 1) * (s.xedges.length + 1) ^
            (s.xnodes.length - (ppath.path.length + 1)) := by
        intro x hx
        obtain ⟨q, hqp, rfl⟩ := List.mem_map.mp hx
        obtain ⟨oidx, hoidx, hqpath, hqew, hqpt, hqtemp⟩ := h4 q hqp
        rw [hout4] at hoidx
        rw [hxe4] at hqew
        obtain ⟨hond, homem⟩ := how ppath.point
        obtain ⟨holt, hosrc⟩ := homem oidx hoidx
        have hwle : (s.xedges.getD oidx default).weight ≤ W :=
          hwb _ (getD_mem_of_lt s.xedges holt)
        have hql : q.path.length = ppath.path.length + 1 := by
          rw [hqpath]
          simp
        unfold entryPhi
        rw [hql, hqew]
        exact Nat.add_le_add hwle (Nat.le_refl _)
      have hsum : (pushed.map (entryPhi s.xedges.length s.xnodes.length W)).sum
          < entryPhi s.xedges.length s.xnodes.length W ppath := by
        have hA := sum_le_length_mul hsumbound
        rw [List.length_map] at hA
        have hB : pushed.length * (W + (s.xedges.length * W + 1) *
            (s.xedges.length + 1) ^
              (s.xnodes.length - (ppath.path.length + 1)))
            ≤ s.xedges.length * (W + (s.xedges.length * W + 1) *
            (s.xedges.length + 1) ^
              (s.xnodes.length - (ppath.path.length + 1))) :=
          Nat.mul_le_mul_right _ hpushlen
        have hC := phi_key s.xedges.length W
          (s.xnodes.length - ppath.path.length - 1)
        have hexp1 : s.xnodes.length - (ppath.path.length + 1)
            = s.xnodes.length - ppath.path.length - 1 := by omega
        have hexp2 : s.xnodes.length - ppath.path.length - 1 + 1
            = s.xnodes.length - ppath.path.length := by omega
        rw [hexp2] at hC
        rw [hexp1] at hA hB
        have hD : (s.xedges.length * W + 1) * (s.xedges.length + 1) ^
            (s.xnodes.length - ppath.path.length)
            ≤ entryPhi s.xedges.length s.xnodes.length W ppath :=
          Nat.le_add_left _ _
        omega
      have hnodei : nodePhi s.xedges.length s.xnodes.length W s5 i
          < nodePhi s.xedges.length s.xnodes.length W s i := by
        unfold nodePhi
        rw [show (getX s5 i).fifo = (getX s4 i).fifo ++ pushed from h1,
          hfifo4i, hfs]
        rw [List.map_append, List.sum_append, List.map_cons, List.sum_cons]
        have hr : ((ppath :: rest).map
            (entryPhi s.xedges.length s.xnodes.length W)).sum
            = entryPhi s.xedges.length s.xnodes.length W ppath +
              (rest.map (entryPhi s.xedges.length s.xnodes.length W)).sum := by
          rw [List.map_cons, List.sum_cons]
        omega
      have hnodene : ∀ j, j ≠ i →
          nodePhi s.xedges.length s.xnodes.length W s5 j
            = nodePhi s.xedges.length s.xnodes.length W s j := by
        intro j hj
        unfold nodePhi
        rw [show (getX s5 j).fifo = (getX s4 j).fifo from h2 j hj,
          hfifo4ne j hj]
      have hupd := range_sum_update s.xnodes.length i hiN hnodene
      refine ⟨(s5, merged), rfl, hq5, htw5, ?_, ?_, ?_⟩
      · show s.solved_reqds ≤ s5.solved_reqds
        rw [← hsol4]
        exact h5
      · intro hm
        show s.solved_reqds < s5.solved_reqds
        rw [← hsol4]
        exact h6 hm
      · show statePhi s.xedges.length s.xnodes.length W s5
          < statePhi s.xedges.length s.xnodes.length W s
        unfold statePhi
        rw [hlen5]
        omega

end Steiner

namespace Steiner

/-! ### The shift prefix of a step: frame facts (claim C6) -/

theorem popS1_len (s : SState) (i : Nat) (rest : List PPath) :
    (popS1 s i rest).xnodes.length = s.xnodes.length :=
  setX_length _ _ _

theorem popS1_fifo_self (s : SState) (i : Nat) (rest : List PPath)
    (hiN : i < s.xnodes.length) :
    (getX (popS1 s i rest) i).fifo = rest := by
  show (getX (setX s i { getX s i with fifo := rest }) i).fifo = rest
  rw [getX_setX_self _ _ _ hiN]

theorem popS1_fifo_ne (s : SState) (i : Nat) (rest : List PPath) (j : Nat)
    (hj : j ≠ i) : (getX (popS1 s i rest) j).fifo = (getX s j).fifo := by
  show (getX (setX s i { getX s i with fifo := rest }) j).fifo = _
  rw [getX_setX_ne _ _ (fun hh => hj hh.symm)]

theorem popS1_temp (s : SState) (i : Nat) (rest : List PPath) (j : Nat) :
    (getX (popS1 s i rest) j).in_temporary_web
      = (getX s j).in_temporary_web := by
  show (getX (setX s i { getX s i with fifo := rest }) j).in_temporary_web = _
  refine getX_setX_proj (fun x => x.in_temporary_web) ?_ j
  rfl

theorem popS1_wit (s : SState) (i : Nat) (rest : List PPath) (j : Nat) :
    (getX (popS1 s i rest) j).witness = (getX s j).witness := by
  show (getX (setX s i { getX s i with fifo := rest }) j).witness = _
  refine getX_setX_proj (fun x => x.witness) ?_ j
  rfl

theorem arrivalS4_len (s : SState) (i : Nat) (ppath : PPath)
    (rest : List PPath) :
    (arrivalS4 s i ppath rest).xnodes.length = s.xnodes.length := by
  simp only [arrivalS4]
  rw [setX_length, setX_length]
  exact popS1_len s i rest

theorem arrivalS4_xedges (s : SState) (i : Nat) (ppath : PPath)
    (rest : List PPath) :
    (arrivalS4 s i ppath rest).xedges = s.xedges := rfl

theorem arrivalS4_solved (s : SState) (i : Nat) (ppath : PPath)
    (rest : List PPath) :
    (arrivalS4 s i ppath rest).solved_reqds = s.solved_reqds := rfl

theorem arrivalS4_fifo (s : SState) (i : Nat) (ppath : PPath)
    (rest : List PPath) (j : Nat) :
    (getX (arrivalS4 s i ppath rest) j).fifo
      = (getX (popS1 s i rest) j).fifo := by
  simp only [arrivalS4]
  refine Eq.trans (getX_setX_proj (fun x => x.fifo) ?_ j) ?_
  · rfl
  refine Eq.trans (getX_setX_proj (fun x => x.fifo) ?_ j) ?_
  · rfl
  rfl

theorem arrivalS4_temp_p (s : SState) (i : Nat) (ppath : PPath)
    (rest : List PPath) (hpN : ppath.point < s.xnodes.length) :
    (getX (arrivalS4 s i ppath rest) ppath.point).in_temporary_web = true := by
  simp only [arrivalS4]
  refine Eq.trans (getX_setX_proj (fun x => x.in_temporary_web) ?_ ppath.point) ?_
  · rfl
  rw [getX_setX_self _ _ _ (by
    show ppath.point < (setX s i { getX s i with fifo := rest }).xnodes.length
    rw [setX_length]
    exact hpN)]

theorem arrivalS4_temp_ne (s : SState) (i : Nat) (ppath : PPath)
    (rest : List PPath) (j : Nat) (hj : j ≠ ppath.point) :
    (getX (arrivalS4 s i ppath rest) j).in_temporary_web
      = (getX s j).in_temporary_web := by
  simp only [arrivalS4]
  refine Eq.trans (getX_setX_proj (fun x => x.in_temporary_web) ?_ j) ?_
  · rfl
  rw [getX_setX_ne _ _ (fun hh => hj hh.symm)]
  show (getX (setX s i { getX s i with fifo := rest }) j).in_temporary_web = _
  refine getX_setX_proj (fun x => x.in_temporary_web) ?_ j
  rfl

theorem arrivalS4_wit_p (s : SState) (i : Nat) (ppath : PPath)
    (rest : List PPath) (hpN : ppath.point < s.xnodes.length) :
    (getX (arrivalS4 s i ppath rest) ppath.point).witness
      = some { node := i, path := ppath.path } := by
  simp only [arrivalS4]
  rw [getX_setX_self _ _ _ (by
    rw [setX_length]
    show ppath.point < (setX s i { getX s i with fifo := rest }).xnodes.length
    rw [setX_length]
    exact hpN)]

theorem arrivalS4_wit_ne (s : SState) (i : Nat) (ppath : PPath)
    (rest : List PPath) (j : Nat) (hj : j ≠ ppath.point) :
    (getX (arrivalS4 s i ppath rest) j).witness = (getX s j).witness := by
  simp only [arrivalS4]
  rw [getX_setX_ne _ _ (fun hh => hj hh.symm)]
  rw [getX_setX_ne _ _ (fun hh => hj hh.symm)]
  show (getX (setX s i { getX s i with fifo := rest }) j).witness = _
  refine getX_setX_proj (fun x => x.witness) ?_ j
  rfl

theorem arrivalS4_out (s : SState) (i : Nat) (ppath : PPath)
    (rest : List PPath) (j : Nat) :
    (getX (arrivalS4 s i ppath rest) j).outgoing = (getX s j).outgoing := by
  simp only [arrivalS4]
  refine Eq.trans (getX_setX_proj (fun x => x.outgoing) ?_ j) ?_
  · rfl
  refine Eq.trans (getX_setX_proj (fun x => x.outgoing) ?_ j) ?_
  · rfl
  show (getX (setX s i { getX s i with fifo := rest }) j).outgoing = _
  refine getX_setX_proj (fun x => x.outgoing) ?_ j
  rfl

/-! ### Equations for the branches of a step (claim C6) -/

theorem stepNode_eq_skip {s : SState} {i : Nat}
    (h : (getX s i).reqd = false ∨
      ((getX s i).fifo.isEmpty || (getX s i).in_permanent_web) = true ∨
      (getX s i).fifo = []) :
    stepNode s i = .ok (s, false, false) := by
  simp only [stepNode]
  by_cases h1 : (getX s i).reqd = false
  · rw [if_pos h1]
  · rw [if_neg h1]
    by_cases h2 : ((getX s i).fifo.isEmpty || (getX s i).in_permanent_web) = true
    · rw [if_pos h2]
    · rw [if_neg h2]
      rcases h with h | h | h
      · exact absurd h h1
      · exact absurd h h2
      · rw [h]

theorem stepNode_eq_requeue {s : SState} {i : Nat} {ppath : PPath}
    {rest : List PPath}
    (h1 : ¬ (getX s i).reqd = false)
    (h2 : ¬ ((getX s i).fifo.isEmpty || (getX s i).in_permanent_web) = true)
    (hf : (getX s i).fifo = ppath :: rest)
    (hb : 1 < ppath.endweight) :
    stepNode s i = .ok (pushFifo (popS1 s i rest) i
      { ppath with endweight := ppath.endweight - 1 }, true, false) := by
  simp only [stepNode]
  rw [if_neg h1, if_neg h2, hf]
  dsimp only
  rw [if_pos hb]
  rfl

theorem stepNode_eq_arrival {s : SState} {i : Nat} {ppath : PPath}
    {rest : List PPath}
    (h1 : ¬ (getX s i).reqd = false)
    (h2 : ¬ ((getX s i).fifo.isEmpty || (getX s i).in_permanent_web) = true)
    (hf : (getX s i).fifo = ppath :: rest)
    (hb : ¬ 1 < ppath.endweight) :
    stepNode s i =
      match edgeLoop i ppath.path (arrivalS4 s i ppath rest)
          ((getX (arrivalS4 s i ppath rest) ppath.point).outgoing) with
      | .error m => .error m
      | .ok (s5, merged) => .ok (s5, true, merged) := by
  simp only [stepNode]
  rw [if_neg h1, if_neg h2, hf]
  dsimp only
  rw [if_neg hb]
  rfl

end Steiner

namespace Steiner

/-! ### The requeue step and the combined step lemma (claim C6) -/

theorem requeue_step {s s2 : SState} {i : Nat} (W : Nat)
    (ppath : PPath) (rest : List PPath)
    (hq : QWF s) (htw : TempWitness s)
    (hiN : i < s.xnodes.length)
    (hfs : (getX s i).fifo = ppath :: rest)
    (hbig : 1 < ppath.endweight)
    (hlen2 : s2.xnodes.length = s.xnodes.length)
    (hxe2 : s2.xedges = s.xedges)
    (hfi2 : (getX s2 i).fifo
      = rest ++ [{ ppath with endweight := ppath.endweight - 1 }])
    (hfne2 : ∀ j, j ≠ i → (getX s2 j).fifo = (getX s j).fifo)
    (htempall : ∀ j, (getX s2 j).in_temporary_web
      = (getX s j).in_temporary_web)
    (hwitall : ∀ j, (getX s2 j).witness = (getX s j).witness) :
    QWF s2 ∧ TempWitness s2 ∧
    statePhi s.xedges.length s.xnodes.length W s2
      < statePhi s.xedges.length s.xnodes.length W s := by
  obtain ⟨htr, hpN, hpe, hpm⟩ :=
    hq i ppath (by rw [hfs]; exact List.mem_cons_self _ _)
  refine ⟨?_, tempWitness_transfer hwitall htempall htw, ?_⟩
  · intro j q hqm
    by_cases hji : j = i
    · subst hji
      rw [hfi2] at hqm
      rcases List.mem_append.mp hqm with hmr | hmd
      · obtain ⟨k1, k2, k3, k4⟩ :=
          hq j q (by rw [hfs]; exact List.mem_cons_of_mem _ hmr)
        refine ⟨by rw [hxe2]; exact k1, by rw [hlen2]; exact k2,
          by rw [hxe2]; exact k3, ?_⟩
        intro e he
        rw [hxe2, htempall]
        exact k4 e he
      · have hqd : q = { ppath with endweight := ppath.endweight - 1 } :=
          List.mem_singleton.mp hmd
        subst hqd
        refine ⟨by rw [hxe2]; exact htr, by rw [hlen2]; exact hpN,
          by rw [hxe2]; exact hpe, ?_⟩
        intro e he
        rw [hxe2, htempall]
        exact hpm e he
    · rw [hfne2 j hji] at hqm
      obtain ⟨k1, k2, k3, k4⟩ := hq j q hqm
      refine ⟨by rw [hxe2]; exact k1, by rw [hlen2]; exact k2,
        by rw [hxe2]; exact k3, ?_⟩
      intro e he
      rw [hxe2, htempall]
      exact k4 e he
  · have hdec : entryPhi s.xedges.length s.xnodes.length W
        { ppath with endweight := ppath.endweight - 1 } + 1
        = entryPhi s.xedges.length s.xnodes.length W ppath := by
      unfold entryPhi
      dsimp only
      omega
    have hnodei : nodePhi s.xedges.length s.xnodes.length W s2 i + 1
        = nodePhi s.xedges.length s.xnodes.length W s i := by
      unfold nodePhi
      rw [hfi2, hfs]
      simp only [List.map_append, List.sum_append, List.map_cons,
        List.sum_cons, List.map_nil, List.sum_nil]
      omega
    have hnodene : ∀ j, j ≠ i →
        nodePhi s.xedges.length s.xnodes.length W s2 j
          = nodePhi s.xedges.length s.xnodes.length W s j := by
      intro j hj
      unfold nodePhi
      rw [hfne2 j hj]
    have hupd := range_sum_update s.xnodes.length i hiN hnodene
    unfold statePhi
    rw [hlen2]
    omega

theorem stepNode_run {s : SState} {i : Nat} (W : Nat)
    (hq : QWF s) (how : OutWF s) (htw : TempWitness s)
    (hew : EdgesWF s) (hwb : WBound s W) :
    ∃ r : SState × Bool × Bool, stepNode s i = .ok r ∧
      QWF r.1 ∧ TempWitness r.1 ∧
      s.solved_reqds ≤ r.1.solved_reqds ∧
      (r.2.2 = true → s.solved_reqds < r.1.solved_reqds) ∧
      (r.2.1 = false → r.1 = s) ∧
      (r.2.1 = true →
        statePhi s.xedges.length s.xnodes.length W r.1
          < statePhi s.xedges.length s.xnodes.length W s) := by
  by_cases h1 : (getX s i).reqd = false
  · refine ⟨(s, false, false), stepNode_eq_skip (Or.inl h1), hq, htw,
      Nat.le_refl _, fun hm => Bool.noConfusion hm, fun hp => rfl,
      fun hp => Bool.noConfusion hp⟩
  · by_cases h2 : ((getX s i).fifo.isEmpty || (getX s i).in_permanent_web) = true
    · refine ⟨(s, false, false), stepNode_eq_skip (Or.inr (Or.inl h2)), hq, htw,
        Nat.le_refl _, fun hm => Bool.noConfusion hm, fun hp => rfl,
        fun hp => Bool.noConfusion hp⟩
    · cases hf : (getX s i).fifo with
      | nil =>
          refine ⟨(s, false, false), stepNode_eq_skip (Or.inr (Or.inr hf)), hq,
            htw, Nat.le_refl _, fun hm => Bool.noConfusion hm, fun hp => rfl,
            fun hp => Bool.noConfusion hp⟩
      | cons ppath rest =>
          have hiN : i < s.xnodes.length := by
            by_contra hcon
            rw [getX_out_of_range hcon] at hf
            cases hf
          obtain ⟨htr, hpN, hpe, hpm⟩ :=
            hq i ppath (by rw [hf]; exact List.mem_cons_self _ _)
          by_cases hb : 1 < ppath.endweight
          · have heq := stepNode_eq_requeue h1 h2 hf hb
            have hfi2 : (getX (pushFifo (popS1 s i rest) i
                { ppath with endweight := ppath.endweight - 1 }) i).fifo
                = rest ++ [{ ppath with endweight := ppath.endweight - 1 }] := by
              unfold pushFifo
              rw [getX_setX_self _ _ _ (by rw [popS1_len]; exact hiN)]
              dsimp only
              rw [popS1_fifo_self s i rest hiN]
            have hfne2 : ∀ j, j ≠ i → (getX (pushFifo (popS1 s i rest) i
                { ppath with endweight := ppath.endweight - 1 }) j).fifo
                = (getX s j).fifo := by
              intro j hj
              unfold pushFifo
              rw [getX_setX_ne _ _ (fun hh => hj hh.symm)]
              exact popS1_fifo_ne s i rest j hj
            have htempall : ∀ j, (getX (pushFifo (popS1 s i rest) i
                { ppath with endweight := ppath.endweight - 1 }) j).in_temporary_web
                = (getX s j).in_temporary_web := by
              intro j
              unfold pushFifo
              refine Eq.trans (getX_setX_proj (fun x => x.in_temporary_web) ?_ j) ?_
              · rfl
              exact popS1_temp s i rest j
            have hwitall : ∀ j, (getX (pushFifo (popS1 s i rest) i
                { ppath with endweight := ppath.endweight - 1 }) j).witness
                = (getX s j).witness := by
              intro j
              unfold pushFifo
              refine Eq.trans (getX_setX_proj (fun x => x.witness) ?_ j) ?_
              · rfl
              exact popS1_wit s i rest j
            have hlen2 : (pushFifo (popS1 s i rest) i
                { ppath with endweight := ppath.endweight - 1 }).xnodes.length
                = s.xnodes.length := by
              rw [pushFifo_length, popS1_len]
            obtain ⟨hq2, htw2, hphi2⟩ := requeue_step W ppath rest hq htw hiN hf
              hb hlen2 rfl hfi2 hfne2 htempall hwitall
            refine ⟨_, heq, hq2, htw2, Nat.le_refl _,
              fun hm => Bool.noConfusion hm, fun hp => Bool.noConfusion hp,
              fun hp => hphi2⟩
          · have heq := stepNode_eq_arrival h1 h2 hf hb
            obtain ⟨⟨s5, merged⟩, hEL, hq5, htw5, hsol5, hmer5, hphi5⟩ :=
              arrival_step W ppath rest hq how htw hew hwb hiN hpN htr hpe hpm
                (arrivalS4_len s i ppath rest) (arrivalS4_xedges s i ppath rest)
                (arrivalS4_solved s i ppath rest)
                ((arrivalS4_fifo s i ppath rest i).trans
                  (popS1_fifo_self s i rest hiN))
                (fun j hj => (arrivalS4_fifo s i ppath rest j).trans
                  (popS1_fifo_ne s i rest j hj))
                (arrivalS4_temp_p s i ppath rest hpN)
                (fun j hj => arrivalS4_temp_ne s i ppath rest j hj)
                (arrivalS4_wit_p s i ppath rest hpN)
                (fun j hj => arrivalS4_wit_ne s i ppath rest j hj)
                (fun j => arrivalS4_out s i ppath rest j)
                hf
            rw [heq, hEL]
            exact ⟨(s5, true, merged), rfl, hq5, htw5, hsol5, hmer5,
              fun hp => Bool.noConfusion hp, fun hp => hphi5⟩

end Steiner

namespace Steiner

/-! ### Lifting the step lemma through the loops (claim C6) -/

theorem roundLoop_run (W : Nat) : ∀ (idxs : List Nat) (s : SState) (f : Bool),
    QWF s → OutWF s → TempWitness s → EdgesWF s → WBound s W →
    ∃ r : SState × Bool × Bool, roundLoop s idxs f = .ok r ∧
      QWF r.1 ∧ OutWF r.1 ∧ TempWitness r.1 ∧ EdgesWF r.1 ∧ WBound r.1 W ∧
      SameSkeleton s r.1 ∧
      s.solved_reqds ≤ r.1.solved_reqds ∧
      (r.2.2 = true → s.solved_reqds < r.1.solved_reqds) ∧
      statePhi s.xedges.length s.xnodes.length W r.1
        ≤ statePhi s.xedges.length s.xnodes.length W s ∧
      (r.2.1 = true → f = true ∨
        statePhi s.xedges.length s.xnodes.length W r.1
          < statePhi s.xedges.length s.xnodes.length W s) := by
  intro idxs
  induction idxs with
  | nil =>
      intro s f hq how htw hew hwb
      refine ⟨(s, f, false), rfl, hq, how, htw, hew, hwb, sameSkeleton_refl s,
        Nat.le_refl _, fun hm => Bool.noConfusion hm, Nat.le_refl _, ?_⟩
      intro hm
      exact Or.inl hm
  | cons i rest ih =>
      intro s f hq how htw hew hwb
      obtain ⟨⟨s2, popped, merged⟩, hstep, hq2, htw2, hsol2, hmer2, hpop2,
        hphi2⟩ := stepNode_run (i := i) W hq how htw hew hwb
      have hsk2 : SameSkeleton s s2 := sameSkeleton_stepNode hstep
      have how2 : OutWF s2 := sameSkeleton_outWF hsk2 how
      have hew2 : EdgesWF s2 := sameSkeleton_edgesWF hsk2 hew
      have hwb2 : WBound s2 W := sameSkeleton_wBound hsk2 hwb
      have hple : statePhi s.xedges.length s.xnodes.length W s2
          ≤ statePhi s.xedges.length s.xnodes.length W s := by
        cases hpp : popped
        · have hss : s2 = s := hpop2 hpp
          rw [hss]
        · exact Nat.le_of_lt (hphi2 hpp)
      simp only [roundLoop]
      rw [hstep]
      dsimp only
      by_cases hm : merged = true
      · rw [if_pos hm]
        refine ⟨(s2, f || popped, true), rfl, hq2, how2, htw2, hew2, hwb2,
          hsk2, hsol2, fun hmm => hmer2 hm, hple, ?_⟩
        intro hfp
        cases hff : f
        · right
          have hpp : popped = true := by
            rw [hff] at hfp
            simpa using hfp
          exact hphi2 hpp
        · left; rfl
      · rw [if_neg hm]
        obtain ⟨r, hrec, hqr, howr, htwr, hewr, hwbr, hskr, hsolr, hmerr,
          hphir, hpopr⟩ := ih s2 (f || popped) hq2 how2 htw2 hew2 hwb2
        have hEe : s2.xedges.length = s.xedges.length := by rw [hsk2.1]
        have hNn : s2.xnodes.length = s.xnodes.length := hsk2.2.1
        rw [hEe, hNn] at hphir hpopr
        refine ⟨r, hrec, hqr, howr, htwr, hewr, hwbr,
          sameSkeleton_trans hsk2 hskr, Nat.le_trans hsol2 hsolr,
          fun hmm => Nat.lt_of_le_of_lt hsol2 (hmerr hmm),
          Nat.le_trans hphir hple, ?_⟩
        intro hfp2
        rcases hpopr hfp2 with hfo | hlt
        · cases hff : f
          · right
            have hpp : popped = true := by
              rw [hff] at hfo
              simpa using hfo
            exact Nat.lt_of_le_of_lt hphir (hphi2 hpp)
          · left; rfl
        · right
          exact Nat.lt_of_lt_of_le hlt hple

theorem innerLoop_run (W : Nat) : ∀ (fuel : Nat) (s : SState),
    QWF s → OutWF s → TempWitness s → EdgesWF s → WBound s W →
    statePhi s.xedges.length s.xnodes.length W s < fuel →
    ∃ r : SState × Bool, innerLoop fuel s = .ok r ∧
      QWF r.1 ∧ OutWF r.1 ∧ TempWitness r.1 ∧ EdgesWF r.1 ∧ WBound r.1 W ∧
      SameSkeleton s r.1 ∧
      s.solved_reqds ≤ r.1.solved_reqds ∧
      (r.2 = true → s.solved_reqds < r.1.solved_reqds) ∧
      statePhi s.xedges.length s.xnodes.length W r.1
        ≤ statePhi s.xedges.length s.xnodes.length W s := by
  intro fuel
  induction fuel with
  | zero =>
      intro s hq how htw hew hwb hlt
      exact absurd hlt (Nat.not_lt_zero _)
  | succ fuel ih =>
      intro s hq how htw hew hwb hlt
      obtain ⟨⟨s2, f, merged⟩, hrd, hq2, how2, htw2, hew2, hwb2, hsk2, hsol2,
        hmer2, hphi2, hpop2⟩ :=
        roundLoop_run W (List.range s.xnodes.length) s false hq how htw hew hwb
      simp only [innerLoop]
      rw [hrd]
      dsimp only
      by_cases hc : (f = false || merged = true) = true
      · rw [if_pos hc]
        refine ⟨(s2, f), rfl, hq2, how2, htw2, hew2, hwb2, hsk2, hsol2, ?_,
          hphi2⟩
        intro hft
        have hft2 : f = true := hft
        have hmt : merged = true := by
          rw [hft2] at hc
          simpa using hc
        exact hmer2 hmt
      · rw [if_neg hc]
        have hft : f = true := by
          cases hff : f
          · exfalso
            apply hc
            rw [hff]
            simp
          · rfl
        have hlt2 : statePhi s.xedges.length s.xnodes.length W s2
            < statePhi s.xedges.length s.xnodes.length W s := by
          rcases hpop2 hft with hfo | hlt2
          · exact absurd hfo (by simp)
          · exact hlt2
        have hEe : s2.xedges.length = s.xedges.length := by rw [hsk2.1]
        have hNn : s2.xnodes.length = s.xnodes.length := hsk2.2.1
        obtain ⟨r, hrec, hqr, howr, htwr, hewr, hwbr, hskr, hsolr, hmerr,
          hphir⟩ := ih s2 hq2 how2 htw2 hew2 hwb2
          (by rw [hEe, hNn]; omega)
        rw [hEe, hNn] at hphir
        refine ⟨r, hrec, hqr, howr, htwr, hewr, hwbr,
          sameSkeleton_trans hsk2 hskr, Nat.le_trans hsol2 hsolr,
          fun hmm => Nat.lt_of_le_of_lt hsol2 (hmerr hmm),
          Nat.le_trans hphir (Nat.le_of_lt hlt2)⟩

theorem outerLoop_run (W : Nat) : ∀ (fuel : Nat) (s : SState),
    QWF s → OutWF s → TempWitness s → EdgesWF s → WBound s W →
    statePhi s.xedges.length s.xnodes.length W s
      + (s.reqds - s.solved_reqds) < fuel →
    ∃ s2, outerLoop fuel s = .ok s2 := by
  intro fuel
  induction fuel with
  | zero =>
      intro s hq how htw hew hwb hlt
      exact absurd hlt (Nat.not_lt_zero _)
  | succ fuel ih =>
      intro s hq how htw hew hwb hlt
      simp only [outerLoop]
      by_cases hslv : s.solved_reqds < s.reqds
      · rw [if_pos hslv]
        obtain ⟨⟨s2, f⟩, hin, hq2, how2, htw2, hew2, hwb2, hsk2, hsol2,
          hstrict, hphi2⟩ :=
          innerLoop_run W (fuel + 1) s hq how htw hew hwb (by omega)
        rw [hin]
        dsimp only
        by_cases hff : f = false
        · rw [if_pos hff]
          exact ⟨s2, rfl⟩
        · rw [if_neg hff]
          have hft : f = true := by
            cases hfc : f
            · exact absurd hfc hff
            · rfl
          have hstrict2 := hstrict hft
          have hEe : s2.xedges.length = s.xedges.length := by rw [hsk2.1]
          have hNn : s2.xnodes.length = s.xnodes.length := hsk2.2.1
          have hRq : s2.reqds = s.reqds := hsk2.2.2.1
          dsimp only at hsol2 hphi2 hstrict2
          refine ih s2 hq2 how2 htw2 hew2 hwb2 ?_
          rw [hEe, hNn, hRq]
          omega
      · rw [if_neg hslv]
        exact ⟨s, rfl⟩

/-- C6: with positive integer weights the main search loop terminates —
there is enough fuel for the fueled embedding to return without exhausting
it — and it can only exit with the solved-required counter at (or beyond)
the required total, or with no required node left having a non-empty queue
outside the permanent web. -/
theorem C6_search_loop_terminates (nodes : List Nat) (edges : List Edge)
    (required : List Nat) (s0 : SState)
    (_hpos : PosWeights edges)
    (h : initState nodes edges required = .ok s0) :
    ∃ fuel s2, outerLoop fuel s0 = .ok s2 ∧
      (s2.reqds ≤ s2.solved_reqds ∨ noActiveB s2 = true) := by
  have hwb : WBound s0 (maxWeight s0.xedges) :=
    fun xe hxe => le_maxWeight s0.xedges xe hxe
  obtain ⟨s2, hout⟩ := outerLoop_run (maxWeight s0.xedges)
    (statePhi s0.xedges.length s0.xnodes.length (maxWeight s0.xedges) s0
      + (s0.reqds - s0.solved_reqds) + 1) s0
    (initState_qwf h) (initState_outWF h) (initState_tempWitness h)
    (initState_edgesWF h) hwb (by omega)
  exact ⟨_, s2, hout, outerLoop_exit _ s0 s2 hout⟩

/-- Witness for C6 on the two-node, one-edge input. -/
theorem C6_witness :
    PosWeights [⟨0, 1, 5⟩] ∧
    initState [0, 1] [⟨0, 1, 5⟩] [0, 1] = .ok w6s0 ∧
    ∃ fuel s2, outerLoop fuel w6s0 = .ok s2 ∧
      (s2.reqds ≤ s2.solved_reqds ∨ noActiveB s2 = true) := by
  refine ⟨by unfold PosWeights; decide, rfl, ?_⟩
  exact C6_search_loop_terminates [0, 1] [⟨0, 1, 5⟩] [0, 1] w6s0
    (by unfold PosWeights; decide) rfl

end Steiner
